import Mathlib

/-!
# ConwayLifeStream: a shallow embedding of `src/main.cpp`

The program streams Conway's Game of Life as video.  This development embeds
the `Board` class, `UpdateBoard`, and the frame loop of `main` as Lean
definitions and proves properties of them.

Conventions of the embedding.

* C `int` values are `Int`.  All arithmetic on coordinates stays within a few
  units of the board dimensions, so no coordinate computation can overflow, and
  cells hold 0 or 1 in every state the program reaches, so a neighbour sum is at
  most 8.  The only counter that can reach `INT_MAX` is the frame counter of
  `main`, whose increment is modelled with an explicit undefined-behaviour
  outcome.
* `int cells[BOARD_HEIGHT][BOARD_WIDTH]` is a map from in-range index pairs to
  `Int`.  Indexing is partial: `Board.get?` and `Board.set?` return `none` for an
  index outside the array, so every function that touches `cells` returns an
  `Option`, and `none` stands for an out-of-bounds access.
* `Board` objects live in a heap addressed by pointers, so that aliasing
  between `this` and `oldBoard` is visible in the model.
* The board dimensions are parameters `W H` of the definitions; the program
  instantiates them with `BOARD_WIDTH` and `BOARD_HEIGHT`.
-/

namespace ConwayLifeStream

/-! ## Constants (`#define`s of the source) -/

def PREGENERATE : Bool := true
def FRAME_WIDTH : Nat := 1280
def FRAME_HEIGHT : Nat := 720
def FPS : Nat := 30

def GENERATION_DURATION : Nat := FPS / 2
def SNOW_INTERVAL : Nat := 20

def CELL_SIZE : Nat := 8
def BOARD_WIDTH : Nat := FRAME_WIDTH / CELL_SIZE
def BOARD_HEIGHT : Nat := FRAME_HEIGHT / CELL_SIZE

/-! ## The `Board` class -/

/-- The data member `int cells[BOARD_HEIGHT][BOARD_WIDTH]`, row index first. -/
structure Board (W H : Nat) where
  cells : Fin H → Fin W → Int

/-- Reading `cells[y][x]`; `none` when the index is outside the array. -/
def Board.get? {W H : Nat} (b : Board W H) (y x : Int) : Option Int :=
  if h : (0 ≤ y ∧ y < H) ∧ (0 ≤ x ∧ x < W) then
    some (b.cells ⟨y.toNat, by omega⟩ ⟨x.toNat, by omega⟩)
  else none

/-- The array after the assignment `cells[y][x] = v` (no bounds check). -/
def Board.put {W H : Nat} (b : Board W H) (y x : Nat) (v : Int) : Board W H :=
  ⟨fun r c => if r.val = y ∧ c.val = x then v else b.cells r c⟩

/-- Writing `cells[y][x] = v`; `none` when the index is outside the array. -/
def Board.set? {W H : Nat} (b : Board W H) (y x : Int) (v : Int) : Option (Board W H) :=
  if (0 ≤ y ∧ y < H) ∧ (0 ≤ x ∧ x < W) then some (b.put y.toNat x.toNat v) else none

/-- `Board::WrapCoordinates(int& x, int& y)`: the values of `x` and `y` on return. -/
def WrapCoordinates (W H : Nat) (x y : Int) : Int × Int :=
  let x := if x < 0 then (W : Int) - 1 else x
  let x := if x ≥ (W : Int) then 0 else x
  let y := if y < 0 then (H : Int) - 1 else y
  let y := if y ≥ (H : Int) then 0 else y
  (x, y)

/-- `Board::GetNeighbourInfo(x, y, centerCell)`: the returned neighbour sum and the
value stored into `centerCell`. -/
def GetNeighbourInfo {W H : Nat} (b : Board W H) (x y : Int) : Option (Int × Int) := do
  let neighbours : Int := 0
  let xm1 := x - 1
  let ym1 := y - 1
  let xp1 := x + 1
  let yp1 := y + 1
  let (xm1, ym1) := WrapCoordinates W H xm1 ym1
  let (xp1, yp1) := WrapCoordinates W H xp1 yp1
  let neighbours := neighbours + (← b.get? ym1 xm1)
  let neighbours := neighbours + (← b.get? ym1 x)
  let neighbours := neighbours + (← b.get? ym1 xp1)
  let neighbours := neighbours + (← b.get? y xm1)
  let neighbours := neighbours + (← b.get? y xp1)
  let neighbours := neighbours + (← b.get? yp1 xm1)
  let neighbours := neighbours + (← b.get? yp1 x)
  let neighbours := neighbours + (← b.get? yp1 xp1)
  let centerCell ← b.get? y x
  pure (neighbours, centerCell)

/-- The C++ conversion of a `bool` to `int`. -/
def boolToInt (p : Bool) : Int := if p then 1 else 0

/-- The value `NewGeneration` assigns to a cell, given the neighbour sum and the
centre cell reported by `GetNeighbourInfo`. -/
def ruleValue (neighbours centerCell : Int) : Int :=
  if centerCell = 1 then boolToInt (neighbours == 2 || neighbours == 3)
  else boolToInt (neighbours == 3)

/-- Pointers to `Board` objects. -/
abbrev Ptr := Nat

/-- The memory holding the `Board` objects. -/
abbrev Heap (W H : Nat) := Ptr → Board W H

/-- The body of the inner loop of `Board::NewGeneration`, for one `(x, y)`. -/
def NewGenerationCell {W H : Nat} (self oldBoard : Ptr) (y x : Nat) (h : Heap W H) :
    Option (Heap W H) := do
  let (neighbours, centerCell) ← GetNeighbourInfo (h oldBoard) x y
  let b ← (h self).set? y x (ruleValue neighbours centerCell)
  pure (Function.update h self b)

/-- `self->NewGeneration(oldBoard)`: the two nested loops over `y` and `x`. -/
def NewGeneration {W H : Nat} (h : Heap W H) (self oldBoard : Ptr) : Option (Heap W H) :=
  (List.range H).foldlM (fun h y =>
    (List.range W).foldlM (fun h x => NewGenerationCell self oldBoard y x h) h) h

/-! ## The random source

`std::mt19937` and `std::uniform_int_distribution` belong to the C++ standard
library.  The generator is modelled as an arbitrary stream of raw values with a
read position; a distribution over `[lo, hi]` consumes one raw value and maps
it into `[lo, hi]`.  Every sequence of in-range results is produced by some
stream, and nothing below depends on how the mapping is done. -/

/-- State of the `std::mt19937` shared (by reference) by all boards. -/
structure Mt where
  raw : Nat → Nat
  pos : Nat

/-- One draw `d(mt)` from `std::uniform_int_distribution<> d(lo, hi)`. -/
def uniform_int_distribution (lo hi : Int) (mt : Mt) : Int × Mt :=
  (lo + ((mt.raw mt.pos : Nat) : Int) % (hi - lo + 1), { mt with pos := mt.pos + 1 })

/-- `Board::InvertCell(x, y)`. -/
def InvertCell {W H : Nat} (b : Board W H) (x y : Int) : Option (Board W H) := do
  let xw := x
  let yw := y
  let (xw, yw) := WrapCoordinates W H xw yw
  let c ← b.get? yw xw
  b.set? yw xw (1 - c)

/-- The body of the inner loop of `Board::AddSnow`, for one `(x, y)`. -/
def AddSnowCell {W H : Nat} (x y : Int) (st : Board W H × Mt) : Option (Board W H × Mt) :=
  let (r, mt) := uniform_int_distribution 0 1 st.2
  if r = 1 then do
    let b ← InvertCell st.1 x y
    pure (b, mt)
  else pure (st.1, mt)

/-- `Board::AddSnow()`, acting on the board and on the shared generator. -/
def AddSnow {W H : Nat} (b : Board W H) (mt : Mt) : Option (Board W H × Mt) :=
  let (sx, mt) := uniform_int_distribution 0 ((W : Int) - 1) mt
  let (sy, mt) := uniform_int_distribution 0 ((H : Int) - 1) mt
  [sx - 1, sx, sx + 1].foldlM (fun st x =>
    [sy - 1, sy, sy + 1].foldlM (fun st y => AddSnowCell x y st) st) (b, mt)

/-! ## Rendering -/

/-- The luminance plane `frame->data[0]`: `n` bytes addressed by their offset. -/
structure Plane (n : Nat) where
  bytes : Fin n → Nat

/-- Reading the byte at offset `i`; `none` outside the plane. -/
def Plane.read? {n : Nat} (p : Plane n) (i : Nat) : Option Nat :=
  if h : i < n then some (p.bytes ⟨i, h⟩) else none

/-- The plane after storing `v` at offset `i` (no bounds check). -/
def Plane.put {n : Nat} (p : Plane n) (i : Nat) (v : Nat) : Plane n :=
  ⟨fun j => if j.val = i then v else p.bytes j⟩

/-- Storing `v` at offset `i`; `none` outside the plane. -/
def Plane.write? {n : Nat} (p : Plane n) (i : Nat) (v : Nat) : Option (Plane n) :=
  if i < n then some (p.put i v) else none

/-- The innermost loop of `Board::Render`: `CS` times `*data++ = color`.  The
state is the plane together with the offset of `data` from `frame->data[0]`. -/
def RenderCell {n : Nat} (CS : Nat) (color : Nat) (st : Plane n × Nat) :
    Option (Plane n × Nat) :=
  (List.range CS).foldlM (fun st _ => do
    let p ← st.1.write? st.2 color
    pure (p, st.2 + 1)) st

/-- The body of the outer loop of `Board::Render`: one pixel row `y`. -/
def RenderRow {W H n : Nat} (CS : Nat) (b : Board W H) (y : Nat) (st : Plane n × Nat) :
    Option (Plane n × Nat) :=
  let cy : Nat := y / CS
  (List.range W).foldlM (fun st (cx : Nat) => do
    let cell ← b.get? (cy : Int) (cx : Int)
    let color : Nat := if cell ≠ 0 then 255 else 0
    RenderCell CS color st) st

/-- `Board::Render(frame)` for a frame of `FH` pixel rows and cells of `CS` pixels.
The program calls it with `FH = FRAME_HEIGHT` and `CS = CELL_SIZE`. -/
def Render {W H n : Nat} (FH CS : Nat) (b : Board W H) (p : Plane n) : Option (Plane n) := do
  let st ← (List.range FH).foldlM (fun st y => RenderRow CS b y st) (p, 0)
  pure st.1

/-! ## `write_frame`

The function only talks to libav.  Its calls are answered by a script: the
return code of `avcodec_send_frame`, then, for each turn of the `while` loop,
the return codes of `avcodec_receive_packet` and `av_interleaved_write_frame`.
A script that ends before the function returns stands for a call that has not
returned. -/

/-- `AVERROR(EAGAIN)` of `libavutil/error.h`. -/
def AVERROR_EAGAIN : Int := -11

/-- `AVERROR_EOF` of `libavutil/error.h`. -/
def AVERROR_EOF : Int := -541478725

/-- The return codes libav gives during one call of `write_frame`. -/
structure SinkScript where
  send_frame : Int
  packets : List (Int × Int)

/-- The `while (ret >= 0)` loop of `write_frame`; each turn consumes the return
codes of `avcodec_receive_packet` and of `av_interleaved_write_frame`. -/
def write_frame_loop : List (Int × Int) → Option Bool
  | [] => none
  | (ret, wfret) :: rest =>
    if ret = AVERROR_EAGAIN ∨ ret = AVERROR_EOF then some true
    else if ret < 0 then some false
    else if wfret < 0 then some false
    else write_frame_loop rest

/-- `write_frame(fc, cc, stream, frame, pkt)`: its `bool` result, `none` when the
call has not returned. -/
def write_frame (sink : SinkScript) : Option Bool :=
  if sink.send_frame < 0 then some false else write_frame_loop sink.packets

/-! ## `UpdateBoard` and the frame loop of `main` -/

/-- The luminance plane of the frame: `FRAME_WIDTH * FRAME_HEIGHT` bytes, rows of
`FRAME_WIDTH` bytes. -/
abbrev Luma := Plane (FRAME_WIDTH * FRAME_HEIGHT)

/-- Calls that a run makes, in the order in which it makes them.  `write_frame`
records the value of `frame->pts`, the luminance plane handed over, and the
result of the call. -/
inductive Event where
  | UpdateBoard (iteration : Int)
  | AddSnow
  | Render
  | write_frame (pts : Int) (plane : Luma) (result : Option Bool)
  | sleep_for (ms : ℚ)
  | cout_dot
  | av_write_trailer

/-- The simulation state: the two `Board` objects on the heap, the shared
generator, and the pointers `board` and `boardNew` of `main`. -/
structure Sim where
  heap : Heap BOARD_WIDTH BOARD_HEIGHT
  mt : Mt
  board : Ptr
  boardNew : Ptr

/-- `UpdateBoard(board, boardNew, iteration)`; the pointers are passed by
reference and are part of the state.  Returns the new state and the calls made. -/
def UpdateBoard (s : Sim) (iteration : Int) : Option (Sim × List Event) := do
  let heap ← NewGeneration s.heap s.boardNew s.board
  let temp := s.board
  let board := s.boardNew
  let boardNew := temp
  if (iteration.tdiv GENERATION_DURATION).tmod SNOW_INTERVAL = 0 then
    let (b, mt) ← AddSnow (heap board) s.mt
    pure ({ heap := Function.update heap board b, mt := mt, board := board,
            boardNew := boardNew }, [Event.AddSnow])
  else
    pure ({ heap := heap, mt := s.mt, board := board, boardNew := boardNew }, [])

/-- The largest `int`. -/
def INT_MAX : Int := 2147483647

/-- `frameDuration`, a `std::chrono::duration<double, std::milli>` holding
`1000.0 / FPS`; `double` arithmetic is idealised as exact rational arithmetic. -/
def frameDuration : ℚ := (1000 : ℚ) / (FPS : ℚ)

/-- Conversion of a rational to an integer by truncation toward zero, as
`static_cast` from `double` to an integer type does. -/
def truncToInt (q : ℚ) : Int := Int.tdiv q.num q.den

/-- `std::chrono::duration_cast<high_resolution_clock::duration>` applied to a
duration in milliseconds, for a clock of `tps` ticks per second (the tick of
`high_resolution_clock` is fixed by the C++ library). -/
def duration_cast (tps : Nat) (ms : ℚ) : Int := truncToInt (ms * (tps : ℚ) / 1000)

/-- Conversion of a tick count of the clock to `duration<double, std::milli>`. -/
def ticksToMilli (tps : Nat) (ticks : Int) : ℚ := (ticks : ℚ) * 1000 / (tps : ℚ)

/-- The variables of `main` that the frame loop reads and writes, apart from the
loop counter `i`: the simulation state, the luminance plane `frame->data[0]`,
`frame->pts`, and the deadline `t1` in clock ticks. -/
structure MainState where
  sim : Sim
  plane : Luma
  pts : Int
  t1 : Int

/-- What the environment does during one turn of the frame loop: the value of
the flag `shouldExit` when the loop condition is tested, the return code of
`av_frame_make_writable(frame)`, the answers of libav during `write_frame`, and
the reading of `high_resolution_clock::now()` taken for `t2`, in ticks. -/
structure CycleEnv where
  shouldExit : Bool
  av_frame_make_writable : Int
  sink : SinkScript
  now : Int

/-- How a run stands after the observations given to it: `running`, the loop is
about to test its condition; `exited`, the loop was left because `shouldExit`
was set; `returned`, `main` was left by a `return` inside the loop; `blocked`,
a call of `write_frame` has not returned; `undefined`, the behaviour is
undefined (overflow of `i++`, or an index outside an array).  The first three
carry the variables of `main` and the value of `i`. -/
inductive Outcome where
  | running (s : MainState) (i : Int)
  | exited (s : MainState) (i : Int)
  | returned (s : MainState) (i : Int)
  | blocked
  | undefined

/-- Result of one turn of the loop body: go on with the next turn, or stop. -/
inductive Step where
  | next (s : MainState) (i : Int)
  | stop (o : Outcome)

/-- Lines 332-337: on every `GENERATION_DURATION`-th frame, advance the
simulation (except at frame 0) and render the current board. -/
def drawFrame (s : MainState) (i : Int) : Option (MainState × List Event) :=
  if i.tmod GENERATION_DURATION = 0 then do
    let (sim, ev) ←
      if i ≠ 0 then do
        let (sim, ev) ← UpdateBoard s.sim i
        pure (sim, Event.UpdateBoard i :: ev)
      else pure (s.sim, [])
    let plane ← Render FRAME_HEIGHT CELL_SIZE (sim.heap sim.board) s.plane
    pure ({ s with sim := sim, plane := plane }, ev ++ [Event.Render])
  else pure (s, [])

/-- Lines 343-348: the sleep, if any, and the new value of `t1`. -/
def pace (tps : Nat) (now : Int) (s : MainState) : MainState × List Event :=
  let t2 := now
  let time_span : ℚ := ticksToMilli tps (t2 - s.t1)
  let ev := if time_span < frameDuration then [Event.sleep_for (frameDuration - time_span)] else []
  ({ s with t1 := s.t1 + duration_cast tps frameDuration }, ev)

/-- One turn of the `for` loop of `main` (body and `i++`), for a clock of `tps`
ticks per second: the calls made and how the loop goes on. -/
def cycle (tps : Nat) (e : CycleEnv) (s : MainState) (i : Int) : List Event × Step :=
  if e.av_frame_make_writable < 0 then ([], Step.stop (Outcome.returned s i))
  else
    match drawFrame s i with
    | none => ([], Step.stop Outcome.undefined)
    | some (s1, ev1) =>
      let s2 := { s1 with pts := i }
      match write_frame e.sink with
      | none => (ev1 ++ [Event.write_frame s2.pts s2.plane none], Step.stop Outcome.blocked)
      | some false =>
        (ev1 ++ [Event.write_frame s2.pts s2.plane (some false)],
          Step.stop (Outcome.returned s2 i))
      | some true =>
        let (s3, ev3) := pace tps e.now s2
        let ev4 := if i ≠ 0 ∧ i.tmod FPS = 0 then [Event.cout_dot] else []
        let evs := ev1 ++ [Event.write_frame s2.pts s2.plane (some true)] ++ ev3 ++ ev4
        if i = INT_MAX then (evs, Step.stop Outcome.undefined)
        else (evs, Step.next s3 (i + 1))

/-- The `for (int i = …; !shouldExit; i++)` loop started with counter `i`, run
against a finite list of observations: the calls of each turn entered, and the
outcome. -/
def frameLoop (tps : Nat) : List CycleEnv → MainState → Int → List (List Event) × Outcome
  | [], s, i => ([], Outcome.running s i)
  | e :: es, s, i =>
    if e.shouldExit then ([], Outcome.exited s i)
    else
      match cycle tps e s i with
      | (evs, Step.next s1 i1) =>
        let r := frameLoop tps es s1 i1
        (evs :: r.1, r.2)
      | (evs, Step.stop o) => ([evs], o)

/-- A run of `main` from the frame loop on. -/
structure Run where
  cycles : List (List Event)
  outcome : Outcome
  shutdown : List Event

/-- `main` from line 326 on: the frame loop with `i` starting at 0 and, when the
loop is left through `shouldExit`, the shutdown sequence that begins with
`av_write_trailer`.  The three early `return`s inside the loop leave `main` at
once. -/
def mainFromFrameLoop (tps : Nat) (es : List CycleEnv) (s : MainState) : Run :=
  let r := frameLoop tps es s 0
  match r.2 with
  | Outcome.exited s1 i1 => ⟨r.1, Outcome.exited s1 i1, [Event.av_write_trailer]⟩
  | o => ⟨r.1, o, []⟩

/-- All calls of a run, in order. -/
def Run.trace (r : Run) : List Event := r.cycles.flatten ++ r.shutdown

/-- One turn of the pre-generation loop: the call `UpdateBoard(board, boardNew, i)`.
The state is the simulation state together with the calls made by the earlier
turns. -/
def pregenerateTurn (st : Sim × List (List Event)) (i : Nat) :
    Option (Sim × List (List Event)) := do
  let (sim, ev) ← UpdateBoard st.1 (i : Int)
  pure (sim, st.2 ++ [ev])

/-- Lines 322-324 of `main`, the pre-generation:
`if (PREGENERATE) for (int i = 0; i < 1200; i++) UpdateBoard(board, boardNew, i);`.
Returns the simulation state and, for each call of `UpdateBoard` in order, the
calls that it made. -/
def pregenerate (s : Sim) : Option (Sim × List (List Event)) :=
  if PREGENERATE then (List.range 1200).foldlM pregenerateTurn (s, []) else pure (s, [])

/-- The body of the inner loop of the constructor `Board::Board(mt)`, for one
`(x, y)`. -/
def constructCell {W H : Nat} (y x : Nat) (st : Board W H × Mt) : Option (Board W H × Mt) :=
  if PREGENERATE then
    let (v, mt) := uniform_int_distribution 0 1 st.2
    do
      let b ← st.1.set? y x v
      pure (b, mt)
  else do
    let b ← st.1.set? y x 0
    pure (b, st.2)

/-- The constructor `Board::Board(mt)`.  `raw` is the indeterminate content of
`cells` before the constructor runs; the result is the constructed board and
the new state of the shared generator. -/
def Board.construct {W H : Nat} (raw : Board W H) (mt : Mt) : Option (Board W H × Mt) :=
  (List.range H).foldlM (fun st (y : Nat) =>
    (List.range W).foldlM (fun st (x : Nat) => constructCell y x st) st) (raw, mt)

/-- Lines 309-310 of `main`: `board = new Board(mt); boardNew = new Board(mt);`.
The two objects are allocated at the addresses `p` and `q` of a heap `raw` whose
content is indeterminate. -/
def allocateBoards (raw : Heap BOARD_WIDTH BOARD_HEIGHT) (mt : Mt) (p q : Ptr) : Option Sim := do
  let (b1, mt) ← Board.construct (raw p) mt
  let (b2, mt) ← Board.construct (Function.update raw p b1 q) mt
  pure ⟨Function.update (Function.update raw p b1) q b2, mt, p, q⟩

/-! ## Closed forms of the loops, used in the proofs -/

/-- The value of an in-range cell, `0` outside the array (used only at in-range
coordinates). -/
def Board.cellAt {W H : Nat} (b : Board W H) (y x : Int) : Int := (b.get? y x).getD 0

/-- The neighbour sum computed by `GetNeighbourInfo`, in closed form. -/
def neighbourSum {W H : Nat} (b : Board W H) (x y : Int) : Int :=
  0 + b.cellAt ((y - 1) % H) ((x - 1) % W) + b.cellAt ((y - 1) % H) x
    + b.cellAt ((y - 1) % H) ((x + 1) % W) + b.cellAt y ((x - 1) % W)
    + b.cellAt y ((x + 1) % W) + b.cellAt ((y + 1) % H) ((x - 1) % W)
    + b.cellAt ((y + 1) % H) x + b.cellAt ((y + 1) % H) ((x + 1) % W)

/-- The value `NewGeneration` stores at column `x` of row `y` when reading `src`. -/
def nextCell {W H : Nat} (src : Board W H) (y x : Nat) : Int :=
  ruleValue (neighbourSum src x y) (src.cellAt y x)

/-- The successor of `src` under the rule of the automaton: every cell holds the
value `NewGeneration` computes for it from `src`. -/
def lifeStep {W H : Nat} (src : Board W H) : Board W H :=
  ⟨fun r c => nextCell src r.val c.val⟩

/-- One full row of `NewGeneration` written into `b` from the source board `src`. -/
def putRow {W H : Nat} (src : Board W H) (b : Board W H) (y : Nat) : Board W H :=
  (List.range W).foldl (fun b x => b.put y x (nextCell src y x)) b

/-- The plane `q` is the plane `p` with the `s` bytes from offset `d` on replaced by
`v 0, …, v (s-1)`, every other byte being kept. -/
def Plane.blockWritten {n : Nat} (p q : Plane n) (d s : Nat) (v : Nat → Nat) : Prop :=
  ∀ j : Fin n, q.bytes j = if d ≤ j.val ∧ j.val < d + s then v (j.val - d) else p.bytes j

/-- The byte `Render` stores for the pixels of cell `(cy, cx)`. -/
def cellColor {W H : Nat} (b : Board W H) (cy cx : Nat) : Nat :=
  if b.cellAt cy cx ≠ 0 then 255 else 0

/-- The frame in which every pixel shows the colour of the cell that owns it. -/
def image (b : Board BOARD_WIDTH BOARD_HEIGHT) : Luma :=
  ⟨fun j => cellColor b (j.val / (BOARD_WIDTH * CELL_SIZE) / CELL_SIZE)
    (j.val % (BOARD_WIDTH * CELL_SIZE) / CELL_SIZE)⟩

/-- The submission recorded by an event: the `pts` and the result of a
`write_frame` call, nothing for other events. -/
def Event.submission? : Event → Option (Int × Option Bool)
  | Event.write_frame pts _ result => some (pts, result)
  | _ => none

/-- The submissions of a list of events, in order. -/
def submissions (evs : List Event) : List (Int × Option Bool) :=
  evs.filterMap Event.submission?

/-- Whether an event is the call of `av_write_trailer`. -/
def Event.isTrailer : Event → Bool
  | Event.av_write_trailer => true
  | _ => false

/-- Whether an event is one of the calls made by lines 332-337. -/
def Event.isDraw : Event → Bool
  | Event.UpdateBoard _ => true
  | Event.AddSnow => true
  | Event.Render => true
  | _ => false

/-- The submissions `(a, true), (a+1, true), …, (a+K-1, true)`. -/
def okSubmissions (a : Int) (K : Nat) : List (Int × Option Bool) :=
  (List.range K).map (fun (j : Nat) => (a + (j : Int), some true))

/-- The simulation state after `k` steps of the frame loop: step `k` is the call
`UpdateBoard(board, boardNew, k * GENERATION_DURATION)`. -/
def simAfter (s : Sim) : Nat → Option Sim
  | 0 => some s
  | k + 1 => do
    let s1 ← simAfter s k
    let r ← UpdateBoard s1 (((k + 1 : Nat) : Int) * (GENERATION_DURATION : Int))
    pure r.1

/-- Whether a run has left `main` through one of the `return`s inside the loop. -/
def Outcome.isReturned : Outcome → Bool
  | Outcome.returned _ _ => true
  | _ => false

/-- Whether a run has left the loop through `shouldExit`. -/
def Outcome.isExited : Outcome → Bool
  | Outcome.exited _ _ => true
  | _ => false

/-- The value of the deadline `t1` at an outcome that carries the variables. -/
def Outcome.t1? : Outcome → Option Int
  | Outcome.running s _ => some s.t1
  | Outcome.exited s _ => some s.t1
  | Outcome.returned s _ => some s.t1
  | _ => none

/-- The value of the loop counter `i` at an outcome that carries the variables. -/
def Outcome.counter? : Outcome → Option Int
  | Outcome.running _ i => some i
  | Outcome.exited _ i => some i
  | Outcome.returned _ i => some i
  | _ => none

/-- The property of the loop variables on which the hold of a generation rests:
at the head of turn `i`, the simulation has made the steps due before frame
`i`, and from frame 1 on the plane shows the current board.  `sim0` is the
simulation state at loop entry. -/
def holdInvariant (sim0 : Sim) (s : MainState) (i : Int) : Prop :=
  ∃ k : Nat, i = (k : Int) ∧ (k = 0 → s.sim = sim0) ∧
    (0 < k → simAfter sim0 ((k - 1) / GENERATION_DURATION) = some s.sim ∧
      s.plane = image (s.sim.heap s.sim.board))

/-- The calls made by step `k` of the pre-generation, in closed form. -/
def pregenerateStep (k : Nat) : List Event :=
  if (k / GENERATION_DURATION) % SNOW_INTERVAL = 0 then [Event.AddSnow] else []

/-- Whether an event is a call of `AddSnow`. -/
def Event.isSnow : Event → Bool
  | Event.AddSnow => true
  | _ => false

/-- Every cell of the board holds 0 or 1. -/
def Board.isBinary {W H : Nat} (b : Board W H) : Prop :=
  ∀ r c, b.cells r c = 0 ∨ b.cells r c = 1

/-- The two boards of the simulation state are distinct objects whose cells all
hold 0 or 1. -/
def Sim.isBinary (s : Sim) : Prop :=
  s.board ≠ s.boardNew ∧ (s.heap s.board).isBinary ∧ (s.heap s.boardNew).isBinary

/-- A sequence of calls of `UpdateBoard` with the given `iteration` arguments,
keeping only the simulation state. -/
def runUpdates (s : Sim) (its : List Int) : Option Sim :=
  its.foldlM (fun s it => (UpdateBoard s it).map Prod.fst) s

/-- The duration requested by an event that is a call of `sleep_for`, in
milliseconds; nothing for other events. -/
def Event.sleep? : Event → Option ℚ
  | Event.sleep_for ms => some ms
  | _ => none

/-- The durations of the sleeps requested in a list of events, in order. -/
def sleeps (evs : List Event) : List ℚ := evs.filterMap Event.sleep?

/-- The sleeps of a turn that reaches line 343 with deadline `t1` and reads `now`
from the clock, in closed form. -/
def paceSleeps (tps : Nat) (t1 now : Int) : List ℚ :=
  if ticksToMilli tps (now - t1) < frameDuration
    then [frameDuration - ticksToMilli tps (now - t1)] else []

/-- The sleeps of the successive turns of a run in which every turn completes,
started with deadline `t1`, in closed form. -/
def sleepsFrom (tps : Nat) : Int → List CycleEnv → List (List ℚ)
  | _, [] => []
  | t1, e :: es =>
    paceSleeps tps t1 e.now :: sleepsFrom tps (t1 + duration_cast tps frameDuration) es

/-! ## Definitions taken from the statements of the specification -/

/-- The eight offsets `(dx, dy)` of `{-1,0,1}^2` other than `(0,0)`. -/
def neighbourOffsets : List (Int × Int) :=
  [(-1, -1), (0, -1), (1, -1), (-1, 0), (1, 0), (-1, 1), (0, 1), (1, 1)]

/-- The number of alive cells among the eight cells
`((x+dx) mod W, (y+dy) mod H)` of `src`, as the specification counts them. -/
def aliveNeighbours {W H : Nat} (src : Board W H) (x y : Int) : Nat :=
  neighbourOffsets.countP (fun d => src.get? ((y + d.2) % H) ((x + d.1) % W) == some 1)

/-- The successor of a board under the rule of the automaton as the
specification words it: a cell is alive (1) iff it was alive and has 2 or 3
alive neighbours, or it was dead and has exactly 3; otherwise it is dead (0). -/
def lifeRule {W H : Nat} (src : Board W H) : Board W H :=
  ⟨fun r c =>
    if (src.cells r c = 1 ∧
          (aliveNeighbours src c.val r.val = 2 ∨ aliveNeighbours src c.val r.val = 3)) ∨
        (src.cells r c = 0 ∧ aliveNeighbours src c.val r.val = 3)
      then 1 else 0⟩

/-- The board `b` translated toroidally by `(a, c)`: the new cell at row `r` and
column `col` is the old cell at row `(r - c) mod H` and column `(col - a) mod W`. -/
def Board.translate {W H : Nat} (b : Board W H) (a c : Int) : Board W H :=
  ⟨fun r col => b.cellAt (((r.val : Int) - c) % (H : Int)) (((col.val : Int) - a) % (W : Int))⟩

/-- The board `b'` is `b` translated toroidally by `(a, c)`:
`b'[(y+c) mod H][(x+a) mod W] = b[y][x]` for every cell `(x, y)` of the board. -/
def Board.isTranslateOf {W H : Nat} (b' b : Board W H) (a c : Int) : Prop :=
  ∀ y x : Int, 0 ≤ y → y < H → 0 ≤ x → x < W →
    b'.get? ((y + c) % (H : Int)) ((x + a) % (W : Int)) = b.get? y x

/-- Zero processing time and exact sleeps, for a run that starts at clock reading
`t0`: the clock counts whole ticks, nothing but the sleeps takes time, and every
sleep lasts exactly the requested duration, converted to clock ticks by
`duration_cast` as line 348 converts `frameDuration`.  So the clock reading
taken in turn `k` is `t0` plus the ticks of the sleeps of the turns before `k`.
`nows` are the readings and `cycles` the sleeps of the successive turns. -/
def exactSleeps (tps : Nat) (t0 : Int) (nows : List Int) (cycles : List (List ℚ)) : Prop :=
  ∀ k : Nat, k < nows.length →
    nows[k]? = some (t0 + ((cycles.take k).flatten.map (duration_cast tps)).sum)

/-! ## Concrete inputs used by the witnesses -/

/-- A board with ones on the diagonal and zeros elsewhere. -/
def diagonalBoard (W H : Nat) : Board W H :=
  ⟨fun r c => if r.val = c.val then 1 else 0⟩

/-- A heap in which every buffer holds the diagonal board. -/
def diagonalHeap : Heap BOARD_WIDTH BOARD_HEIGHT := fun _ => diagonalBoard BOARD_WIDTH BOARD_HEIGHT

/-- The board whose cells all hold `v`. -/
def constBoard (W H : Nat) (v : Int) : Board W H := ⟨fun _ _ => v⟩

/-- A generator whose raw values are all zero. -/
def zeroMt : Mt := ⟨fun _ => 0, 0⟩

/-- A simulation state: all boards dead, `board` at address 0, `boardNew` at
address 1. -/
def initialSim : Sim := ⟨fun _ => constBoard BOARD_WIDTH BOARD_HEIGHT 0, zeroMt, 0, 1⟩

/-- A state at the entry of the frame loop: black frame, `pts` and `t1` zero. -/
def initialState : MainState := ⟨initialSim, ⟨fun _ => 0⟩, 0, 0⟩

/-- A turn in which `avcodec_send_frame` fails, so that `write_frame` returns
`false`. -/
def failingEnv : CycleEnv := ⟨false, 0, ⟨-1, []⟩, 0⟩

/-- A turn in which the frame is accepted (the encoder asks for more input) and
the clock reads `now`. -/
def goodEnv (now : Int) : CycleEnv := ⟨false, 0, ⟨0, [(AVERROR_EAGAIN, 0)]⟩, now⟩

/-- A turn at whose start the shutdown flag is set. -/
def exitEnv : CycleEnv := ⟨true, 0, ⟨0, []⟩, 0⟩

/-- The L-tromino on the 4 x 4 torus: all cells dead except `(1,1)`, `(1,2)`,
`(2,1)`. -/
def trominoBoard : Board 4 4 :=
  ⟨fun r c => if (r.val = 1 ∧ c.val = 1) ∨ (r.val = 1 ∧ c.val = 2) ∨ (r.val = 2 ∧ c.val = 1)
    then 1 else 0⟩

/-- The 2 x 2 block on the 4 x 4 torus: exactly the cells `(1,1)`, `(1,2)`, `(2,1)`,
`(2,2)` are alive. -/
def blockBoard : Board 4 4 :=
  ⟨fun r c => if (r.val = 1 ∨ r.val = 2) ∧ (c.val = 1 ∨ c.val = 2) then 1 else 0⟩

/-- A heap of 4 x 4 boards: the L-tromino at address 0, the diagonal board
everywhere else. -/
def trominoHeap : Heap 4 4 := fun p => if p = 0 then trominoBoard else diagonalBoard 4 4

/-- Four turns on a nanosecond clock with zero processing time and exact sleeps:
every frame is accepted, and each reading is the sum of the sleeps of the
earlier turns in whole nanoseconds (0, 33333333, 66666666 and 99999999 ns). -/
def exactSleepEnvs : List CycleEnv :=
  [goodEnv 0, goodEnv 33333333, goodEnv 66666666, goodEnv 99999999]

/-- A run of 301 turns in which every frame is accepted: frames 0 to 300, so that
the simulation makes its steps 1 to 20. -/
def snowEnvs : List CycleEnv := List.replicate 301 (goodEnv 0)

/-! # Theorems -/

/-! ## Coordinate wrapping -/

theorem emod_wrap (W : Nat) (hW : 0 < W) (x : Int) (hx : -1 ≤ x ∧ x ≤ W) :
    (if (if x < 0 then (W : Int) - 1 else x) ≥ (W : Int) then 0
      else (if x < 0 then (W : Int) - 1 else x)) = x % (W : Int) := by
  have hW' : (0 : Int) < W := by exact_mod_cast hW
  rcases hx with ⟨h1, h2⟩
  by_cases hneg : x < 0
  · have hx : x = -1 := by omega
    subst hx
    have : (-1 : Int) % (W : Int) = (W : Int) - 1 := by
      have h := Int.add_mul_emod_self (a := -1) (b := 1) (c := (W : Int))
      rw [← h]
      have : (-1 + 1 * (W : Int)) = (W : Int) - 1 := by ring
      rw [this]
      exact Int.emod_eq_of_lt (by omega) (by omega)
    rw [this]
    simp
  · by_cases htop : x = W
    · have : x % (W : Int) = 0 := by rw [htop]; exact Int.emod_self
      rw [this]
      split_ifs <;> omega
    · have : x % (W : Int) = x := Int.emod_eq_of_lt (by omega) (by omega)
      rw [this]
      split_ifs <;> omega

theorem WrapCoordinates_eq_mod (W H : Nat) (hW : 0 < W) (hH : 0 < H) (x y : Int)
    (hx : -1 ≤ x ∧ x ≤ W) (hy : -1 ≤ y ∧ y ≤ H) :
    WrapCoordinates W H x y = (x % (W : Int), y % (H : Int)) := by
  unfold WrapCoordinates
  simp only []
  rw [emod_wrap W hW x hx, emod_wrap H hH y hy]

theorem emod_range (W : Nat) (hW : 0 < W) (x : Int) :
    0 ≤ x % (W : Int) ∧ x % (W : Int) < W := by
  have hW' : (W : Int) ≠ 0 := by omega
  exact ⟨Int.emod_nonneg x hW', Int.emod_lt_of_pos x (by omega)⟩

/-! ## Array indexing -/

theorem Board.get?_inRange {W H : Nat} (b : Board W H) (y x : Int)
    (hy : 0 ≤ y ∧ y < H) (hx : 0 ≤ x ∧ x < W) :
    b.get? y x = some (b.cells ⟨y.toNat, by omega⟩ ⟨x.toNat, by omega⟩) := by
  unfold Board.get?
  rw [dif_pos ⟨hy, hx⟩]

theorem Board.get?_nat {W H : Nat} (b : Board W H) (r : Fin H) (c : Fin W) :
    b.get? (r.val : Int) (c.val : Int) = some (b.cells r c) := by
  rw [Board.get?_inRange b _ _ (by omega) (by omega)]
  simp

theorem Board.set?_inRange {W H : Nat} (b : Board W H) (y x : Int) (v : Int)
    (hy : 0 ≤ y ∧ y < H) (hx : 0 ≤ x ∧ x < W) :
    b.set? y x v = some (b.put y.toNat x.toNat v) := by
  unfold Board.set?
  rw [if_pos ⟨hy, hx⟩]

theorem Board.get?_cellAt {W H : Nat} (b : Board W H) (y x : Int)
    (hy : 0 ≤ y ∧ y < H) (hx : 0 ≤ x ∧ x < W) :
    b.get? y x = some (b.cellAt y x) := by
  unfold Board.cellAt
  rw [Board.get?_inRange b y x hy hx]
  rfl

theorem GetNeighbourInfo_eq {W H : Nat} (b : Board W H) (x y : Int)
    (hx : 0 ≤ x ∧ x < W) (hy : 0 ≤ y ∧ y < H) :
    GetNeighbourInfo b x y = some (neighbourSum b x y, b.cellAt y x) := by
  have hW : 0 < W := by omega
  have hH : 0 < H := by omega
  unfold GetNeighbourInfo
  have w1 := WrapCoordinates_eq_mod W H hW hH (x - 1) (y - 1) (by omega) (by omega)
  have w2 := WrapCoordinates_eq_mod W H hW hH (x + 1) (y + 1) (by omega) (by omega)
  have rxm := emod_range W hW (x - 1)
  have rxp := emod_range W hW (x + 1)
  have rym := emod_range H hH (y - 1)
  have ryp := emod_range H hH (y + 1)
  simp only [w1, w2, Board.get?_cellAt b _ _ rym rxm, Board.get?_cellAt b _ _ rym hx,
    Board.get?_cellAt b _ _ rym rxp, Board.get?_cellAt b _ _ hy rxm,
    Board.get?_cellAt b _ _ hy rxp, Board.get?_cellAt b _ _ ryp rxm,
    Board.get?_cellAt b _ _ ryp hx, Board.get?_cellAt b _ _ ryp rxp,
    Board.get?_cellAt b _ _ hy hx]
  rfl

/-! ## `NewGeneration` in closed form -/

theorem Board.cellAt_nat {W H : Nat} (b : Board W H) (r : Fin H) (c : Fin W) :
    b.cellAt (r.val : Int) (c.val : Int) = b.cells r c := by
  unfold Board.cellAt
  rw [Board.get?_nat]
  rfl

theorem Board.ext_cells {W H : Nat} (a b : Board W H)
    (h : ∀ r c, a.cells r c = b.cells r c) : a = b := by
  cases a with
  | mk ca =>
    cases b with
    | mk cb =>
      congr
      funext r c
      exact h r c

theorem NewGenerationCell_eq {W H : Nat} (h : Heap W H) (self old : Ptr) (y x : Nat)
    (hy : y < H) (hx : x < W) :
    NewGenerationCell self old y x h =
      some (Function.update h self ((h self).put y x (nextCell (h old) y x))) := by
  unfold NewGenerationCell
  rw [GetNeighbourInfo_eq (h old) x y (by omega) (by omega)]
  simp only [Option.bind_eq_bind, Option.some_bind]
  rw [Board.set?_inRange (h self) y x _ (by omega) (by omega)]
  simp [nextCell]

theorem foldl_put_cells {W H : Nat} (y : Nat) (f : Nat → Int) (l : List Nat) (b : Board W H)
    (r : Fin H) (c : Fin W) :
    (l.foldl (fun b x => b.put y x (f x)) b).cells r c =
      if r.val = y ∧ c.val ∈ l then f c.val else b.cells r c := by
  induction l generalizing b with
  | nil => simp
  | cons a l ih =>
    rw [List.foldl_cons, ih]
    by_cases h1 : r.val = y
    · by_cases h2 : c.val ∈ l
      · simp [h1, h2]
      · by_cases h3 : c.val = a
        · simp [h1, h2, h3, Board.put]
        · simp [h1, h2, h3, Board.put]
    · simp [h1, Board.put]

theorem NewGeneration_row {W H : Nat} (self old : Ptr) (hne : self ≠ old) (y : Nat)
    (hy : y < H) (l : List Nat) (hl : ∀ x ∈ l, x < W) (h : Heap W H) :
    l.foldlM (fun h x => NewGenerationCell self old y x h) h =
      some (Function.update h self
        (l.foldl (fun b x => b.put y x (nextCell (h old) y x)) (h self))) := by
  induction l generalizing h with
  | nil => simp
  | cons a l ih =>
    have ha : a < W := hl a (List.mem_cons_self a l)
    have hl' : ∀ x ∈ l, x < W := fun x hx => hl x (List.mem_cons_of_mem a hx)
    rw [List.foldlM_cons, NewGenerationCell_eq h self old y a hy ha]
    simp only [Option.bind_eq_bind, Option.some_bind]
    rw [ih hl']
    have hold : Function.update h self ((h self).put y a (nextCell (h old) y a)) old = h old :=
      Function.update_noteq (Ne.symm hne) _ _
    rw [hold, Function.update_same, Function.update_idem, List.foldl_cons]

theorem putRow_cells {W H : Nat} (src b : Board W H) (y : Nat) (r : Fin H) (c : Fin W) :
    (putRow src b y).cells r c = if r.val = y then nextCell src y c.val else b.cells r c := by
  unfold putRow
  rw [foldl_put_cells y (fun x => nextCell src y x)]
  simp

theorem foldl_putRow_cells {W H : Nat} (src : Board W H) (l : List Nat) (b : Board W H)
    (r : Fin H) (c : Fin W) :
    (l.foldl (putRow src) b).cells r c =
      if r.val ∈ l then nextCell src r.val c.val else b.cells r c := by
  induction l generalizing b with
  | nil => simp
  | cons a l ih =>
    rw [List.foldl_cons, ih, putRow_cells]
    by_cases h2 : r.val ∈ l
    · simp [h2]
    · by_cases h3 : r.val = a
      · simp [h3]
      · simp [h2, h3]

theorem NewGeneration_rows {W H : Nat} (self old : Ptr) (hne : self ≠ old)
    (l : List Nat) (hl : ∀ y ∈ l, y < H) (h : Heap W H) :
    l.foldlM (fun h y =>
        (List.range W).foldlM (fun h x => NewGenerationCell self old y x h) h) h =
      some (Function.update h self (l.foldl (putRow (h old)) (h self))) := by
  induction l generalizing h with
  | nil => simp
  | cons a l ih =>
    have ha : a < H := hl a (List.mem_cons_self a l)
    have hl' : ∀ y ∈ l, y < H := fun y hy => hl y (List.mem_cons_of_mem a hy)
    rw [List.foldlM_cons,
      NewGeneration_row self old hne a ha (List.range W) (fun x hx => List.mem_range.mp hx) h]
    simp only [Option.bind_eq_bind, Option.some_bind]
    rw [ih hl']
    have hold : Function.update h self
        (List.foldl (fun b x => b.put a x (nextCell (h old) a x)) (h self) (List.range W)) old
          = h old :=
      Function.update_noteq (Ne.symm hne) _ _
    rw [hold, Function.update_same, Function.update_idem, List.foldl_cons]
    rfl

/-- Closed form of `NewGeneration` on distinct buffers: it always succeeds, and
it replaces the target by the rule successor of the source. -/
theorem NewGeneration_eq {W H : Nat} (h : Heap W H) (self old : Ptr) (hne : self ≠ old) :
    NewGeneration h self old = some (Function.update h self (lifeStep (h old))) := by
  unfold NewGeneration
  rw [NewGeneration_rows self old hne (List.range H) (fun y hy => List.mem_range.mp hy) h]
  have e : List.foldl (putRow (h old)) (h self) (List.range H) = lifeStep (h old) := by
    apply Board.ext_cells
    intro r c
    rw [foldl_putRow_cells]
    simp [lifeStep]
  rw [e]

/-! ## The rule computed by `NewGeneration` -/

theorem Board.cellAt_binary {W H : Nat} (b : Board W H)
    (hbin : ∀ r c, b.cells r c = 0 ∨ b.cells r c = 1) (y x : Int)
    (hy : 0 ≤ y ∧ y < H) (hx : 0 ≤ x ∧ x < W) :
    b.cellAt y x = 0 ∨ b.cellAt y x = 1 := by
  unfold Board.cellAt
  rw [Board.get?_inRange b y x hy hx]
  exact hbin _ _

theorem indicator_cellAt {W H : Nat} (b : Board W H)
    (hbin : ∀ r c, b.cells r c = 0 ∨ b.cells r c = 1) (y x : Int)
    (hy : 0 ≤ y ∧ y < H) (hx : 0 ≤ x ∧ x < W) :
    b.cellAt y x = if (b.get? y x == some 1) = true then 1 else 0 := by
  rw [Board.get?_cellAt b y x hy hx]
  rcases Board.cellAt_binary b hbin y x hy hx with h | h <;> simp [h]

theorem neighbourSum_eq_alive {W H : Nat} (b : Board W H)
    (hbin : ∀ r c, b.cells r c = 0 ∨ b.cells r c = 1) (x y : Int)
    (hx : 0 ≤ x ∧ x < W) (hy : 0 ≤ y ∧ y < H) :
    neighbourSum b x y = (aliveNeighbours b x y : Int) := by
  have hW : 0 < W := by omega
  have hH : 0 < H := by omega
  have rxm := emod_range W hW (x - 1)
  have rxp := emod_range W hW (x + 1)
  have rym := emod_range H hH (y - 1)
  have ryp := emod_range H hH (y + 1)
  have ex : (x + 0) % (W : Int) = x := by
    rw [Int.add_zero]; exact Int.emod_eq_of_lt hx.1 hx.2
  have ey : (y + 0) % (H : Int) = y := by
    rw [Int.add_zero]; exact Int.emod_eq_of_lt hy.1 hy.2
  unfold neighbourSum aliveNeighbours neighbourOffsets
  rw [indicator_cellAt b hbin _ _ rym rxm, indicator_cellAt b hbin _ _ rym hx,
    indicator_cellAt b hbin _ _ rym rxp, indicator_cellAt b hbin _ _ hy rxm,
    indicator_cellAt b hbin _ _ hy rxp, indicator_cellAt b hbin _ _ ryp rxm,
    indicator_cellAt b hbin _ _ ryp hx, indicator_cellAt b hbin _ _ ryp rxp]
  simp only [List.countP_cons, List.countP_nil, ex, ey]
  have em : ∀ a : Int, a + -1 = a - 1 := fun a => by ring
  simp only [em]
  push_cast
  ring

/-- Rule correctness for arbitrary board dimensions. -/
theorem NewGeneration_rule {W H : Nat} (h : Heap W H) (target source : Ptr)
    (hne : target ≠ source)
    (hbin : ∀ r c, (h source).cells r c = 0 ∨ (h source).cells r c = 1) :
    ∃ h', NewGeneration h target source = some h' ∧
      ∀ x y : Int, 0 ≤ x → x < W → 0 ≤ y → y < H →
        (h' target).get? y x = some
          (if ((h source).get? y x = some 1 ∧
                (aliveNeighbours (h source) x y = 2 ∨ aliveNeighbours (h source) x y = 3)) ∨
              ((h source).get? y x = some 0 ∧ aliveNeighbours (h source) x y = 3)
            then 1 else 0) := by
  refine ⟨_, NewGeneration_eq h target source hne, ?_⟩
  intro x y hx0 hxW hy0 hyH
  rw [Function.update_same, Board.get?_inRange _ y x ⟨hy0, hyH⟩ ⟨hx0, hxW⟩]
  have ey : ((y.toNat : Nat) : Int) = y := Int.toNat_of_nonneg hy0
  have ex : ((x.toNat : Nat) : Int) = x := Int.toNat_of_nonneg hx0
  simp only [lifeStep, nextCell, ey, ex]
  rw [neighbourSum_eq_alive (h source) hbin x y ⟨hx0, hxW⟩ ⟨hy0, hyH⟩,
    Board.get?_cellAt (h source) y x ⟨hy0, hyH⟩ ⟨hx0, hxW⟩]
  rcases Board.cellAt_binary (h source) hbin y x ⟨hy0, hyH⟩ ⟨hx0, hxW⟩ with hc | hc
  · simp only [hc, ruleValue, boolToInt]
    by_cases h3 : aliveNeighbours (h source) x y = 3
    · simp [h3]
    · have : ¬ ((aliveNeighbours (h source) x y : Int) = 3) := by exact_mod_cast h3
      simp [h3, this]
  · simp only [hc, ruleValue, boolToInt]
    by_cases h2 : aliveNeighbours (h source) x y = 2
    · simp [h2]
    · by_cases h3 : aliveNeighbours (h source) x y = 3
      · simp [h3]
      · have e2 : ¬ ((aliveNeighbours (h source) x y : Int) = 2) := by exact_mod_cast h2
        have e3 : ¬ ((aliveNeighbours (h source) x y : Int) = 3) := by exact_mod_cast h3
        simp [h2, h3, e2, e3]

theorem diagonalHeap_binary (p : Ptr) (r : Fin BOARD_HEIGHT) (c : Fin BOARD_WIDTH) :
    (diagonalHeap p).cells r c = 0 ∨ (diagonalHeap p).cells r c = 1 := by
  unfold diagonalHeap diagonalBoard
  by_cases h : r.val = c.val <;> simp [h]

theorem BOARD_WIDTH_pos : 0 < BOARD_WIDTH := by decide

theorem BOARD_HEIGHT_pos : 0 < BOARD_HEIGHT := by decide

theorem WrapCoordinates_closure (W H : Nat) (hW : 0 < W) (hH : 0 < H) (x y : Int)
    (hx : -1 ≤ x ∧ x ≤ W) (hy : -1 ≤ y ∧ y ≤ H) :
    WrapCoordinates W H x y = (x % (W : Int), y % (H : Int)) ∧
    (0 ≤ x % (W : Int) ∧ x % (W : Int) < W) ∧
    (0 ≤ y % (H : Int) ∧ y % (H : Int) < H) ∧
    WrapCoordinates W H (WrapCoordinates W H x y).1 (WrapCoordinates W H x y).2 =
      WrapCoordinates W H x y := by
  have rx := emod_range W hW x
  have ry := emod_range H hH y
  refine ⟨WrapCoordinates_eq_mod W H hW hH x y hx hy, rx, ry, ?_⟩
  rw [WrapCoordinates_eq_mod W H hW hH x y hx hy]
  rw [WrapCoordinates_eq_mod W H hW hH _ _ (by constructor <;> omega) (by constructor <;> omega)]
  rw [Int.emod_emod_of_dvd x (dvd_refl _), Int.emod_emod_of_dvd y (dvd_refl _)]

/-- C1 (rule correctness of `Board::NewGeneration`).  For distinct target and
source buffers and a source board whose cells are all 0 or 1, `NewGeneration`
succeeds, and every cell `(x, y)` of the target with `0 ≤ x < BOARD_WIDTH`,
`0 ≤ y < BOARD_HEIGHT` ends as 1 exactly when the source cell is 1 and `n` is 2
or 3, or the source cell is 0 and `n = 3`, and as 0 otherwise, where `n` counts
the alive cells among the eight source cells at
`((x+dx) mod BOARD_WIDTH, (y+dy) mod BOARD_HEIGHT)`. -/
theorem C1_rule_correctness (h : Heap BOARD_WIDTH BOARD_HEIGHT) (target source : Ptr)
    (hne : target ≠ source)
    (hbin : ∀ r c, (h source).cells r c = 0 ∨ (h source).cells r c = 1) :
    ∃ h', NewGeneration h target source = some h' ∧
      ∀ x y : Int, 0 ≤ x → x < BOARD_WIDTH → 0 ≤ y → y < BOARD_HEIGHT →
        (h' target).get? y x = some
          (if ((h source).get? y x = some 1 ∧
                (aliveNeighbours (h source) x y = 2 ∨ aliveNeighbours (h source) x y = 3)) ∨
              ((h source).get? y x = some 0 ∧ aliveNeighbours (h source) x y = 3)
            then 1 else 0) :=
  NewGeneration_rule h target source hne hbin

/-- Witness for C1: a heap whose boards all carry the diagonal pattern, target
buffer 0 and source buffer 1. -/
theorem C1_rule_correctness_witness :
    ((0 : Ptr) ≠ 1 ∧
      ∀ (r : Fin BOARD_HEIGHT) (c : Fin BOARD_WIDTH),
        (diagonalHeap 1).cells r c = 0 ∨ (diagonalHeap 1).cells r c = 1) ∧
    ∃ h', NewGeneration diagonalHeap 0 1 = some h' ∧
      ∀ x y : Int, 0 ≤ x → x < BOARD_WIDTH → 0 ≤ y → y < BOARD_HEIGHT →
        (h' 0).get? y x = some
          (if ((diagonalHeap 1).get? y x = some 1 ∧
                (aliveNeighbours (diagonalHeap 1) x y = 2 ∨
                  aliveNeighbours (diagonalHeap 1) x y = 3)) ∨
              ((diagonalHeap 1).get? y x = some 0 ∧ aliveNeighbours (diagonalHeap 1) x y = 3)
            then 1 else 0) :=
  ⟨⟨by decide, diagonalHeap_binary 1⟩,
    C1_rule_correctness diagonalHeap 0 1 (by decide) (diagonalHeap_binary 1)⟩

/-- C2 (generation purity of `Board::NewGeneration`).  Calling `NewGeneration`
on the same source with two target buffers, one after the other, succeeds both
times, leaves the source buffer (and every buffer other than the target)
unchanged, and leaves both targets with identical cells.  The result depends on
the source cells only: from any other heap in which a buffer `s` holds the same
cells as the source, `NewGeneration` into any target `t ≠ s` produces the same
board.  `NewGeneration` neither receives nor returns the generator state. -/
theorem C2_generation_purity (h : Heap BOARD_WIDTH BOARD_HEIGHT) (source t1 t2 : Ptr)
    (h1s : t1 ≠ source) (h2s : t2 ≠ source) :
    ∃ ha hb, NewGeneration h t1 source = some ha ∧ NewGeneration ha t2 source = some hb ∧
      ha source = h source ∧ hb source = h source ∧
      (∀ p, p ≠ t1 → ha p = h p) ∧ (∀ p, p ≠ t2 → hb p = ha p) ∧
      hb t1 = hb t2 ∧
      ∀ (g : Heap BOARD_WIDTH BOARD_HEIGHT) (t s : Ptr), t ≠ s → g s = h source →
        ∃ g', NewGeneration g t s = some g' ∧ g' t = ha t1 ∧ g' s = g s := by
  refine ⟨_, _, NewGeneration_eq h t1 source h1s, NewGeneration_eq _ t2 source h2s, ?_⟩
  have e1 : Function.update h t1 (lifeStep (h source)) source = h source :=
    Function.update_noteq (Ne.symm h1s) _ _
  refine ⟨e1, ?_, ?_, ?_, ?_, ?_⟩
  · rw [Function.update_noteq (Ne.symm h2s), e1]
  · intro p hp
    exact Function.update_noteq hp _ _
  · intro p hp
    exact Function.update_noteq hp _ _
  · rw [e1, Function.update_same]
    by_cases e : t1 = t2
    · rw [e, Function.update_same]
    · rw [Function.update_noteq e, Function.update_same]
  · intro g t s hts hgs
    refine ⟨_, NewGeneration_eq g t s hts, ?_, ?_⟩
    · rw [Function.update_same, Function.update_same, hgs]
    · exact Function.update_noteq (Ne.symm hts) _ _

/-- Witness for C2: source buffer 0, target buffers 1 and 2 of the diagonal heap. -/
theorem C2_generation_purity_witness :
    ((1 : Ptr) ≠ 0 ∧ (2 : Ptr) ≠ 0) ∧
    ∃ ha hb, NewGeneration diagonalHeap 1 0 = some ha ∧ NewGeneration ha 2 0 = some hb ∧
      ha 0 = diagonalHeap 0 ∧ hb 0 = diagonalHeap 0 ∧
      (∀ p, p ≠ 1 → ha p = diagonalHeap p) ∧ (∀ p, p ≠ 2 → hb p = ha p) ∧
      hb 1 = hb 2 ∧
      ∀ (g : Heap BOARD_WIDTH BOARD_HEIGHT) (t s : Ptr), t ≠ s → g s = diagonalHeap 0 →
        ∃ g', NewGeneration g t s = some g' ∧ g' t = ha 1 ∧ g' s = g s :=
  ⟨⟨by decide, by decide⟩, C2_generation_purity diagonalHeap 0 1 2 (by decide) (by decide)⟩

/-- C3 (toroidal closure of `Board::WrapCoordinates`).  For `-1 ≤ x ≤ BOARD_WIDTH`
and `-1 ≤ y ≤ BOARD_HEIGHT`, `WrapCoordinates` returns
`(x mod BOARD_WIDTH, y mod BOARD_HEIGHT)`, which lies in
`[0, BOARD_WIDTH) × [0, BOARD_HEIGHT)`, and wrapping the result again returns it
unchanged. -/
theorem C3_toroidal_closure (x y : Int) (hx : -1 ≤ x ∧ x ≤ BOARD_WIDTH)
    (hy : -1 ≤ y ∧ y ≤ BOARD_HEIGHT) :
    WrapCoordinates BOARD_WIDTH BOARD_HEIGHT x y =
      (x % (BOARD_WIDTH : Int), y % (BOARD_HEIGHT : Int)) ∧
    (0 ≤ x % (BOARD_WIDTH : Int) ∧ x % (BOARD_WIDTH : Int) < BOARD_WIDTH) ∧
    (0 ≤ y % (BOARD_HEIGHT : Int) ∧ y % (BOARD_HEIGHT : Int) < BOARD_HEIGHT) ∧
    WrapCoordinates BOARD_WIDTH BOARD_HEIGHT
        (WrapCoordinates BOARD_WIDTH BOARD_HEIGHT x y).1
        (WrapCoordinates BOARD_WIDTH BOARD_HEIGHT x y).2 =
      WrapCoordinates BOARD_WIDTH BOARD_HEIGHT x y :=
  WrapCoordinates_closure BOARD_WIDTH BOARD_HEIGHT BOARD_WIDTH_pos BOARD_HEIGHT_pos x y hx hy

/-- Witness for C3 at the corner `(-1, BOARD_HEIGHT)`, which wraps to `(159, 0)`. -/
theorem C3_toroidal_closure_witness :
    ((-1 : Int) ≤ -1 ∧ (-1 : Int) ≤ BOARD_WIDTH) ∧
    ((-1 : Int) ≤ BOARD_HEIGHT ∧ ((BOARD_HEIGHT : Nat) : Int) ≤ BOARD_HEIGHT) ∧
    WrapCoordinates BOARD_WIDTH BOARD_HEIGHT (-1) BOARD_HEIGHT = (159, 0) ∧
    WrapCoordinates BOARD_WIDTH BOARD_HEIGHT
        (WrapCoordinates BOARD_WIDTH BOARD_HEIGHT (-1) BOARD_HEIGHT).1
        (WrapCoordinates BOARD_WIDTH BOARD_HEIGHT (-1) BOARD_HEIGHT).2 =
      WrapCoordinates BOARD_WIDTH BOARD_HEIGHT (-1) BOARD_HEIGHT :=
  have hx : (-1 : Int) ≤ -1 ∧ (-1 : Int) ≤ BOARD_WIDTH := by decide
  have hy : (-1 : Int) ≤ BOARD_HEIGHT ∧ ((BOARD_HEIGHT : Nat) : Int) ≤ BOARD_HEIGHT := by decide
  ⟨hx, hy, by decide, (C3_toroidal_closure (-1) BOARD_HEIGHT hx hy).2.2.2⟩

/-! ## `Render` in closed form -/

theorem Plane.write?_inRange {n : Nat} (p : Plane n) (i v : Nat) (h : i < n) :
    p.write? i v = some (p.put i v) := by
  unfold Plane.write?
  rw [if_pos h]

theorem div_mod_block (m s t : Nat) (ht : t < s) :
    (m * s + t) / s = m ∧ (m * s + t) % s = t := by
  have hs : 0 < s := by omega
  constructor
  · rw [Nat.add_comm, Nat.add_mul_div_right _ _ hs, Nat.div_eq_of_lt ht, Nat.zero_add]
  · rw [Nat.add_comm, Nat.add_mul_mod_self_right, Nat.mod_eq_of_lt ht]

/-- A loop of `m` iterations, each of which writes one block of `s` bytes at the
running offset and advances the offset by `s`, writes `m * s` consecutive bytes. -/
theorem foldlM_blocks {n : Nat} (body : Plane n × Nat → Nat → Option (Plane n × Nat))
    (s : Nat) (v : Nat → Nat → Nat) (m : Nat)
    (hbody : ∀ i, i < m → ∀ (p : Plane n) (d : Nat), d + s ≤ n →
      ∃ q, body (p, d) i = some (q, d + s) ∧ Plane.blockWritten p q d s (v i))
    (p : Plane n) (d : Nat) (hd : d + m * s ≤ n) :
    ∃ q, (List.range m).foldlM body (p, d) = some (q, d + m * s) ∧
      Plane.blockWritten p q d (m * s) (fun o => v (o / s) (o % s)) := by
  induction m with
  | zero =>
    refine ⟨p, by simp, ?_⟩
    intro j
    have hj : ¬ (d ≤ j.val ∧ j.val < d + 0 * s) := by omega
    rw [if_neg hj]
  | succ m ih =>
    have hms : (m + 1) * s = m * s + s := Nat.succ_mul m s
    obtain ⟨q, hq, hqw⟩ := ih (fun i hi => hbody i (Nat.lt_succ_of_lt hi)) (by omega)
    obtain ⟨q', hq', hqw'⟩ := hbody m (Nat.lt_succ_self m) q (d + m * s) (by omega)
    refine ⟨q', ?_, ?_⟩
    · rw [List.range_succ, List.foldlM_append, hq]
      simp only [Option.bind_eq_bind, Option.some_bind, List.foldlM_cons, List.foldlM_nil]
      rw [hq']
      simp [hms, Nat.add_assoc]
    · intro j
      rw [hqw' j, hqw j]
      by_cases h1 : d + m * s ≤ j.val ∧ j.val < d + m * s + s
      · have e : j.val - d = m * s + (j.val - (d + m * s)) := by omega
        have ht : j.val - (d + m * s) < s := by omega
        have hdm := div_mod_block m s _ ht
        rw [if_pos h1, if_pos (by omega)]
        dsimp only
        rw [e, hdm.1, hdm.2]
      · rw [if_neg h1]
        by_cases h2 : d ≤ j.val ∧ j.val < d + m * s
        · rw [if_pos h2, if_pos (by omega)]
        · rw [if_neg h2, if_neg (by omega)]

theorem RenderCell_blocks {n : Nat} (CS color : Nat) (p : Plane n) (d : Nat)
    (hd : d + CS ≤ n) :
    ∃ q, RenderCell CS color (p, d) = some (q, d + CS) ∧
      Plane.blockWritten p q d CS (fun _ => color) := by
  unfold RenderCell
  have h := foldlM_blocks (n := n)
    (fun st _ => do
      let p ← st.1.write? st.2 color
      pure (p, st.2 + 1)) 1 (fun _ _ => color) CS
    (by
      intro i _ p d hd
      refine ⟨p.put d color, ?_, ?_⟩
      · simp only [Plane.write?_inRange p d color (by omega), Option.bind_eq_bind,
          Option.some_bind]
        rfl
      · intro j
        simp only [Plane.put]
        by_cases hj : j.val = d
        · rw [if_pos hj, if_pos (by omega)]
        · rw [if_neg hj, if_neg (by omega)])
    p d (by omega)
  simpa using h

theorem RenderRow_blocks {W H n : Nat} (CS : Nat) (b : Board W H) (y : Nat)
    (hy : y / CS < H) (p : Plane n) (d : Nat) (hd : d + W * CS ≤ n) :
    ∃ q, RenderRow CS b y (p, d) = some (q, d + W * CS) ∧
      Plane.blockWritten p q d (W * CS) (fun o => cellColor b (y / CS) (o / CS)) := by
  unfold RenderRow
  exact foldlM_blocks (n := n)
    (fun st cx => do
      let cell ← b.get? ((y / CS : Nat) : Int) (cx : Int)
      let color := if cell ≠ 0 then 255 else 0
      RenderCell CS color st) CS (fun cx _ => cellColor b (y / CS) cx) W
    (by
      intro cx hcx p d hd
      have hcy : (0 : Int) ≤ ((y / CS : Nat) : Int) ∧ ((y / CS : Nat) : Int) < H :=
        ⟨Int.ofNat_nonneg _, by exact_mod_cast hy⟩
      have hcx' : (0 : Int) ≤ (cx : Int) ∧ (cx : Int) < W := by omega
      simp only [Board.get?_cellAt b _ _ hcy hcx', Option.bind_eq_bind, Option.some_bind]
      exact RenderCell_blocks CS _ p d hd)
    p d hd

/-- Closed form of `Render`: it always succeeds on a plane of at least
`FH * (W * CS)` bytes, and it replaces the first `FH * (W * CS)` bytes by the
colours of the cells that own them. -/
theorem Render_blocks {W H n : Nat} (FH CS : Nat) (b : Board W H)
    (hrows : ∀ y, y < FH → y / CS < H) (p : Plane n) (hn : FH * (W * CS) ≤ n) :
    ∃ q, Render FH CS b p = some q ∧
      Plane.blockWritten p q 0 (FH * (W * CS))
        (fun o => cellColor b (o / (W * CS) / CS) (o % (W * CS) / CS)) := by
  obtain ⟨q, hq, hqw⟩ := foldlM_blocks (n := n) (fun st y => RenderRow CS b y st) (W * CS)
    (fun y o => cellColor b (y / CS) (o / CS)) FH
    (fun y hy p d hd => RenderRow_blocks CS b y (hrows y hy) p d hd) p 0 (by omega)
  refine ⟨q, ?_, hqw⟩
  unfold Render
  rw [hq]
  rfl

/-- Every pixel of a rendered frame holds the colour of the cell that owns it. -/
theorem Render_pixel {W H n : Nat} (FH CS : Nat) (b : Board W H)
    (hrows : ∀ y, y < FH → y / CS < H) (p : Plane n) (hn : FH * (W * CS) ≤ n) :
    ∃ q, Render FH CS b p = some q ∧
      ∀ r c, r < FH → c < W * CS →
        ∃ v, b.get? ((r / CS : Nat) : Int) ((c / CS : Nat) : Int) = some v ∧
          q.read? (r * (W * CS) + c) = some (if v ≠ 0 then 255 else 0) := by
  obtain ⟨q, hq, hqw⟩ := Render_blocks FH CS b hrows p hn
  refine ⟨q, hq, ?_⟩
  intro r c hr hc
  have hCS : 0 < CS := by
    rcases Nat.eq_zero_or_pos CS with h | h
    · rw [h] at hc; omega
    · exact h
  have hcx : c / CS < W := by
    rw [Nat.div_lt_iff_lt_mul hCS]; exact hc
  have hcy : (0 : Int) ≤ ((r / CS : Nat) : Int) ∧ ((r / CS : Nat) : Int) < H :=
    ⟨Int.ofNat_nonneg _, by exact_mod_cast hrows r hr⟩
  have hcx' : (0 : Int) ≤ ((c / CS : Nat) : Int) ∧ ((c / CS : Nat) : Int) < W :=
    ⟨Int.ofNat_nonneg _, by exact_mod_cast hcx⟩
  refine ⟨b.cellAt ((r / CS : Nat) : Int) ((c / CS : Nat) : Int),
    Board.get?_cellAt b _ _ hcy hcx', ?_⟩
  have hlt : r * (W * CS) + c < FH * (W * CS) := by
    have h1 : (r + 1) * (W * CS) ≤ FH * (W * CS) := Nat.mul_le_mul_right _ hr
    have h2 : (r + 1) * (W * CS) = r * (W * CS) + W * CS := Nat.succ_mul _ _
    omega
  have hj : r * (W * CS) + c < n := by omega
  unfold Plane.read?
  rw [dif_pos hj, hqw ⟨_, hj⟩]
  have hdm := div_mod_block r (W * CS) c hc
  simp only [Nat.sub_zero, Nat.zero_add, hdm.1, hdm.2]
  rw [if_pos ⟨Nat.zero_le _, hlt⟩]
  rfl

/-- When the plane has exactly `FH * (W * CS)` bytes, `Render` determines every
byte of it. -/
theorem Render_all_bytes {W H n : Nat} (FH CS : Nat) (b : Board W H)
    (hrows : ∀ y, y < FH → y / CS < H) (p : Plane n) (hn : FH * (W * CS) = n) :
    ∃ q, Render FH CS b p = some q ∧
      ∀ j : Fin n, q.bytes j = cellColor b (j.val / (W * CS) / CS) (j.val % (W * CS) / CS) := by
  obtain ⟨q, hq, hqw⟩ := Render_blocks FH CS b hrows p (by omega)
  refine ⟨q, hq, ?_⟩
  intro j
  have hj := j.isLt
  rw [hqw j, if_pos (by omega)]
  simp

theorem cellColor_constBoard {W H : Nat} (v : Int) (cy cx : Nat) (hy : cy < H) (hx : cx < W) :
    cellColor (constBoard W H v) cy cx = if v ≠ 0 then 255 else 0 := by
  unfold cellColor Board.cellAt
  rw [Board.get?_inRange _ _ _ (by omega) (by omega)]
  rfl

theorem frame_cell_of_offset (j : Nat) (hj : j < FRAME_WIDTH * FRAME_HEIGHT) :
    j / (BOARD_WIDTH * CELL_SIZE) / CELL_SIZE < BOARD_HEIGHT ∧
      j % (BOARD_WIDTH * CELL_SIZE) / CELL_SIZE < BOARD_WIDTH := by
  have h1 : FRAME_WIDTH * FRAME_HEIGHT = 921600 := by decide
  have h2 : BOARD_WIDTH * CELL_SIZE = 1280 := by decide
  have hc : CELL_SIZE = 8 := rfl
  have hb : BOARD_HEIGHT = 90 := rfl
  have hw : BOARD_WIDTH = 160 := rfl
  rw [h2, hc, hb, hw]
  rw [h1] at hj
  omega

theorem frame_rows (y : Nat) (hy : y < FRAME_HEIGHT) : y / CELL_SIZE < BOARD_HEIGHT := by
  have h : FRAME_HEIGHT = 720 := rfl
  have hc : CELL_SIZE = 8 := rfl
  have hb : BOARD_HEIGHT = 90 := rfl
  rw [hc, hb]
  rw [h] at hy
  omega

theorem frame_size : FRAME_HEIGHT * (BOARD_WIDTH * CELL_SIZE) = FRAME_WIDTH * FRAME_HEIGHT := by
  decide

/-- C4 (render totality and correctness of `Board::Render`).  For every board
and every prior content of a luminance plane of `FRAME_WIDTH * FRAME_HEIGHT`
bytes with row stride `FRAME_WIDTH`, `Render` succeeds and the byte at row `r`,
column `c` is 255 if cell `(r / CELL_SIZE, c / CELL_SIZE)` is alive (non-zero)
and 0 otherwise.  Every byte is written: rendering the all-alive board makes
every byte 255, and rendering the all-dead board afterwards leaves no byte equal
to 255. -/
theorem C4_render_total (b : Board BOARD_WIDTH BOARD_HEIGHT)
    (p : Plane (FRAME_WIDTH * FRAME_HEIGHT)) :
    (∃ q, Render FRAME_HEIGHT CELL_SIZE b p = some q ∧
      ∀ r c, r < FRAME_HEIGHT → c < FRAME_WIDTH →
        ∃ v, b.get? ((r / CELL_SIZE : Nat) : Int) ((c / CELL_SIZE : Nat) : Int) = some v ∧
          q.read? (r * FRAME_WIDTH + c) = some (if v ≠ 0 then 255 else 0)) ∧
    (∃ q1 q2,
      Render FRAME_HEIGHT CELL_SIZE (constBoard BOARD_WIDTH BOARD_HEIGHT 1) p = some q1 ∧
      Render FRAME_HEIGHT CELL_SIZE (constBoard BOARD_WIDTH BOARD_HEIGHT 0) q1 = some q2 ∧
      (∀ j, q1.bytes j = 255) ∧ (∀ j, q2.bytes j ≠ 255)) := by
  constructor
  · exact Render_pixel FRAME_HEIGHT CELL_SIZE b frame_rows p (Nat.le_of_eq frame_size)
  · obtain ⟨q1, h1, hb1⟩ := Render_all_bytes FRAME_HEIGHT CELL_SIZE
      (constBoard BOARD_WIDTH BOARD_HEIGHT 1) frame_rows p frame_size
    obtain ⟨q2, h2, hb2⟩ := Render_all_bytes FRAME_HEIGHT CELL_SIZE
      (constBoard BOARD_WIDTH BOARD_HEIGHT 0) frame_rows q1 frame_size
    refine ⟨q1, q2, h1, h2, ?_, ?_⟩
    · intro j
      have hc := frame_cell_of_offset j.val j.isLt
      rw [hb1 j, cellColor_constBoard 1 _ _ hc.1 hc.2]
      simp
    · intro j
      have hc := frame_cell_of_offset j.val j.isLt
      rw [hb2 j, cellColor_constBoard 0 _ _ hc.1 hc.2]
      simp

/-! ## `InvertCell` and `AddSnow` -/

theorem uniform_int_distribution_range (lo hi : Int) (h : lo ≤ hi) (mt : Mt) :
    lo ≤ (uniform_int_distribution lo hi mt).1 ∧ (uniform_int_distribution lo hi mt).1 ≤ hi := by
  unfold uniform_int_distribution
  have h1 : (0 : Int) < hi - lo + 1 := by omega
  have h2 := Int.emod_nonneg ((mt.raw mt.pos : Nat) : Int) (Int.ne_of_gt h1)
  have h3 := Int.emod_lt_of_pos ((mt.raw mt.pos : Nat) : Int) h1
  constructor
  · show lo ≤ lo + _ % _
    omega
  · show lo + _ % _ ≤ hi
    omega

/-- Closed form of `InvertCell` for coordinates at most one step outside the
board. -/
theorem InvertCell_eq {W H : Nat} (b : Board W H) (x y : Int)
    (hx : -1 ≤ x ∧ x ≤ W) (hy : -1 ≤ y ∧ y ≤ H) (hW : 0 < W) (hH : 0 < H) :
    InvertCell b x y =
      some (b.put (y % (H : Int)).toNat (x % (W : Int)).toNat
        (1 - b.cellAt (y % (H : Int)) (x % (W : Int)))) := by
  unfold InvertCell
  have w := WrapCoordinates_eq_mod W H hW hH x y hx hy
  have rx := emod_range W hW x
  have ry := emod_range H hH y
  simp only [w, Board.get?_cellAt b _ _ ry rx, Option.bind_eq_bind, Option.some_bind]
  exact Board.set?_inRange b _ _ _ ry rx

theorem AddSnowCell_local {W H : Nat} (hW : 0 < W) (hH : 0 < H) (x y : Int)
    (hx : -1 ≤ x ∧ x ≤ W) (hy : -1 ≤ y ∧ y ≤ H) (st : Board W H × Mt) :
    ∃ st', AddSnowCell x y st = some st' ∧
      ∀ r c, st'.1.cells r c ≠ st.1.cells r c →
        (c.val : Int) = x % (W : Int) ∧ (r.val : Int) = y % (H : Int) := by
  unfold AddSnowCell
  have rx := emod_range W hW x
  have ry := emod_range H hH y
  by_cases hr : (uniform_int_distribution 0 1 st.2).1 = 1
  · refine ⟨(st.1.put (y % (H : Int)).toNat (x % (W : Int)).toNat
        (1 - st.1.cellAt (y % (H : Int)) (x % (W : Int))),
      (uniform_int_distribution 0 1 st.2).2), ?_, ?_⟩
    · simp only [hr, if_true, InvertCell_eq st.1 x y hx hy hW hH, Option.bind_eq_bind,
        Option.some_bind]
      rfl
    · intro r c hne
      simp only [Board.put] at hne
      by_cases hc : r.val = (y % (H : Int)).toNat ∧ c.val = (x % (W : Int)).toNat
      · constructor
        · rw [hc.2]; exact Int.toNat_of_nonneg rx.1
        · rw [hc.1]; exact Int.toNat_of_nonneg ry.1
      · rw [if_neg hc] at hne
        exact absurd rfl hne
  · refine ⟨(st.1, (uniform_int_distribution 0 1 st.2).2), ?_, ?_⟩
    · simp only [hr, if_false]
      rfl
    · intro r c hne
      exact absurd rfl hne

theorem AddSnow_column_local {W H : Nat} (hW : 0 < W) (hH : 0 < H) (x : Int)
    (hx : -1 ≤ x ∧ x ≤ W) (ly : List Int) (hly : ∀ y ∈ ly, -1 ≤ y ∧ y ≤ H)
    (st : Board W H × Mt) :
    ∃ st', ly.foldlM (fun st y => AddSnowCell x y st) st = some st' ∧
      ∀ r c, st'.1.cells r c ≠ st.1.cells r c →
        (c.val : Int) = x % (W : Int) ∧ ∃ y ∈ ly, (r.val : Int) = y % (H : Int) := by
  induction ly generalizing st with
  | nil =>
    refine ⟨st, by simp, ?_⟩
    intro r c hne
    exact absurd rfl hne
  | cons a l ih =>
    obtain ⟨s1, h1, hs1⟩ := AddSnowCell_local hW hH x a hx (hly a (List.mem_cons_self a l)) st
    obtain ⟨s2, h2, hs2⟩ := ih (fun y hy => hly y (List.mem_cons_of_mem a hy)) s1
    refine ⟨s2, ?_, ?_⟩
    · rw [List.foldlM_cons, h1]
      simpa using h2
    · intro r c hne
      by_cases e : s2.1.cells r c = s1.1.cells r c
      · rw [e] at hne
        have := hs1 r c hne
        exact ⟨this.1, a, List.mem_cons_self a l, this.2⟩
      · obtain ⟨hc, y, hy, hr⟩ := hs2 r c e
        exact ⟨hc, y, List.mem_cons_of_mem a hy, hr⟩

theorem AddSnow_columns_local {W H : Nat} (hW : 0 < W) (hH : 0 < H)
    (lx : List Int) (hlx : ∀ x ∈ lx, -1 ≤ x ∧ x ≤ W)
    (ly : List Int) (hly : ∀ y ∈ ly, -1 ≤ y ∧ y ≤ H) (st : Board W H × Mt) :
    ∃ st', lx.foldlM (fun st x => ly.foldlM (fun st y => AddSnowCell x y st) st) st = some st' ∧
      ∀ r c, st'.1.cells r c ≠ st.1.cells r c →
        ∃ x ∈ lx, ∃ y ∈ ly, (c.val : Int) = x % (W : Int) ∧ (r.val : Int) = y % (H : Int) := by
  induction lx generalizing st with
  | nil =>
    refine ⟨st, by simp, ?_⟩
    intro r c hne
    exact absurd rfl hne
  | cons a l ih =>
    obtain ⟨s1, h1, hs1⟩ :=
      AddSnow_column_local hW hH a (hlx a (List.mem_cons_self a l)) ly hly st
    obtain ⟨s2, h2, hs2⟩ := ih (fun x hx => hlx x (List.mem_cons_of_mem a hx)) s1
    refine ⟨s2, ?_, ?_⟩
    · rw [List.foldlM_cons, h1]
      simpa using h2
    · intro r c hne
      by_cases e : s2.1.cells r c = s1.1.cells r c
      · rw [e] at hne
        obtain ⟨hc, y, hy, hr⟩ := hs1 r c hne
        exact ⟨a, List.mem_cons_self a l, y, hy, hc, hr⟩
      · obtain ⟨x, hx, y, hy, hc, hr⟩ := hs2 r c e
        exact ⟨x, List.mem_cons_of_mem a hx, y, hy, hc, hr⟩

/-- Locality of `AddSnow` for arbitrary positive board dimensions. -/
theorem AddSnow_local {W H : Nat} (hW : 0 < W) (hH : 0 < H) (b : Board W H) (mt : Mt) :
    ∃ b' mt', AddSnow b mt = some (b', mt') ∧
      ∀ r c, b'.cells r c ≠ b.cells r c →
        ∃ dx dy : Int, (dx = -1 ∨ dx = 0 ∨ dx = 1) ∧ (dy = -1 ∨ dy = 0 ∨ dy = 1) ∧
          (c.val : Int) =
            ((uniform_int_distribution 0 ((W : Int) - 1) mt).1 + dx) % (W : Int) ∧
          (r.val : Int) =
            ((uniform_int_distribution 0 ((H : Int) - 1)
              (uniform_int_distribution 0 ((W : Int) - 1) mt).2).1 + dy) % (H : Int) := by
  have hsx := uniform_int_distribution_range 0 ((W : Int) - 1) (by omega) mt
  have hsy := uniform_int_distribution_range 0 ((H : Int) - 1) (by omega)
    (uniform_int_distribution 0 ((W : Int) - 1) mt).2
  generalize hsxe : (uniform_int_distribution 0 ((W : Int) - 1) mt).1 = sx at hsx
  generalize hsye : (uniform_int_distribution 0 ((H : Int) - 1)
    (uniform_int_distribution 0 ((W : Int) - 1) mt).2).1 = sy at hsy
  obtain ⟨st', h1, hs⟩ := AddSnow_columns_local hW hH [sx - 1, sx, sx + 1]
    (by intro x hx; simp at hx; omega) [sy - 1, sy, sy + 1]
    (by intro y hy; simp at hy; omega)
    (b, (uniform_int_distribution 0 ((H : Int) - 1)
      (uniform_int_distribution 0 ((W : Int) - 1) mt).2).2)
  refine ⟨st'.1, st'.2, ?_, ?_⟩
  · unfold AddSnow
    simp only [hsxe, hsye]
    exact h1
  · intro r c hne
    obtain ⟨x, hx, y, hy, hc, hr⟩ := hs r c hne
    refine ⟨x - sx, y - sy, ?_, ?_, ?_, ?_⟩
    · simp at hx; omega
    · simp at hy; omega
    · rw [hc]; congr 1; ring
    · rw [hr]; congr 1; ring

/-- C5 (perturbation locality of `Board::AddSnow`).  For every board and every
state of the random source, `AddSnow` succeeds, and every cell whose value
differs after the call is one of the nine cells
`((sx+dx) mod BOARD_WIDTH, (sy+dy) mod BOARD_HEIGHT)` with `dx, dy ∈ {-1, 0, 1}`,
where `sx` and `sy` are the first two values `AddSnow` draws; all other cells
keep their value. -/
theorem C5_perturbation_locality (b : Board BOARD_WIDTH BOARD_HEIGHT) (mt : Mt) :
    ∃ b' mt', AddSnow b mt = some (b', mt') ∧
      ∀ r c, b'.cells r c ≠ b.cells r c →
        ∃ dx dy : Int, (dx = -1 ∨ dx = 0 ∨ dx = 1) ∧ (dy = -1 ∨ dy = 0 ∨ dy = 1) ∧
          (c.val : Int) =
            ((uniform_int_distribution 0 ((BOARD_WIDTH : Int) - 1) mt).1 + dx)
              % (BOARD_WIDTH : Int) ∧
          (r.val : Int) =
            ((uniform_int_distribution 0 ((BOARD_HEIGHT : Int) - 1)
              (uniform_int_distribution 0 ((BOARD_WIDTH : Int) - 1) mt).2).1 + dy)
              % (BOARD_HEIGHT : Int) :=
  AddSnow_local BOARD_WIDTH_pos BOARD_HEIGHT_pos b mt

/-! ## `UpdateBoard` and the frame loop -/

theorem foldlM_total {α β : Type} (f : β → α → Option β) (l : List α)
    (h : ∀ a, a ∈ l → ∀ b, ∃ b', f b a = some b') (b : β) :
    ∃ b', l.foldlM f b = some b' := by
  induction l generalizing b with
  | nil => exact ⟨b, rfl⟩
  | cons a l ih =>
    obtain ⟨b1, h1⟩ := h a (List.mem_cons_self a l) b
    obtain ⟨b2, h2⟩ := ih (fun a ha => h a (List.mem_cons_of_mem _ ha)) b1
    refine ⟨b2, ?_⟩
    rw [List.foldlM_cons, h1]
    simpa using h2

/-- `NewGeneration` never indexes outside `cells`, whether or not the two
buffers are distinct. -/
theorem NewGeneration_total {W H : Nat} (h : Heap W H) (self old : Ptr) :
    ∃ h', NewGeneration h self old = some h' := by
  unfold NewGeneration
  apply foldlM_total
  intro y hy h1
  apply foldlM_total
  intro x hx h2
  exact ⟨_, NewGenerationCell_eq h2 self old y x (List.mem_range.mp hy) (List.mem_range.mp hx)⟩

theorem UpdateBoard_spec (s : Sim) (iteration : Int) :
    ∃ s1 evs, UpdateBoard s iteration = some (s1, evs) ∧
      s1.board = s.boardNew ∧ s1.boardNew = s.board ∧
      (evs = [Event.AddSnow] ∧
          (iteration.tdiv GENERATION_DURATION).tmod SNOW_INTERVAL = 0 ∨
        evs = [] ∧ ¬ (iteration.tdiv GENERATION_DURATION).tmod SNOW_INTERVAL = 0) := by
  obtain ⟨h1, hh1⟩ := NewGeneration_total s.heap s.boardNew s.board
  unfold UpdateBoard
  rw [hh1]
  by_cases hc : (iteration.tdiv GENERATION_DURATION).tmod SNOW_INTERVAL = 0
  · obtain ⟨b, mt, hb, _⟩ := AddSnow_local BOARD_WIDTH_pos BOARD_HEIGHT_pos (h1 s.boardNew) s.mt
    refine ⟨Sim.mk (Function.update h1 s.boardNew b) mt s.boardNew s.board, [Event.AddSnow],
      ?_, ?_, ?_, Or.inl ⟨rfl, hc⟩⟩
    · simp only [Option.bind_eq_bind, Option.some_bind, hc, if_true, hb]
      rfl
    · rfl
    · rfl
  · refine ⟨Sim.mk h1 s.mt s.boardNew s.board, [], ?_, ?_, ?_, Or.inr ⟨rfl, hc⟩⟩
    · simp only [Option.bind_eq_bind, Option.some_bind, hc, if_false]
      rfl
    · rfl
    · rfl

theorem Plane.ext_bytes {n : Nat} (p q : Plane n) (h : ∀ j, p.bytes j = q.bytes j) : p = q := by
  cases p with
  | mk bp =>
    cases q with
    | mk bq =>
      congr
      funext j
      exact h j

/-- On the frame of the program `Render` always succeeds and its result is the
image of the board, whatever the plane held before. -/
theorem Render_eq_image (b : Board BOARD_WIDTH BOARD_HEIGHT) (p : Luma) :
    Render FRAME_HEIGHT CELL_SIZE b p = some (image b) := by
  obtain ⟨q, hq, hb⟩ := Render_all_bytes FRAME_HEIGHT CELL_SIZE b frame_rows p frame_size
  have e : q = image b := by
    apply Plane.ext_bytes
    intro j
    rw [hb j]
    rfl
  rw [hq, e]

theorem drawFrame_spec (s : MainState) (i : Int) :
    ∃ s1 ev1, drawFrame s i = some (s1, ev1) ∧ s1.t1 = s.t1 ∧
      ((i.tmod GENERATION_DURATION = 0 ∧ i ≠ 0 ∧
          ∃ sim evu, UpdateBoard s.sim i = some (sim, evu) ∧ s1.sim = sim ∧
            s1.plane = image (sim.heap sim.board) ∧
            ev1 = Event.UpdateBoard i :: evu ++ [Event.Render]) ∨
        (i = 0 ∧ s1.sim = s.sim ∧ s1.plane = image (s.sim.heap s.sim.board) ∧
          ev1 = [Event.Render]) ∨
        (¬ i.tmod GENERATION_DURATION = 0 ∧ s1 = s ∧ ev1 = [])) := by
  unfold drawFrame
  by_cases hg : i.tmod GENERATION_DURATION = 0
  · by_cases h0 : i = 0
    · refine ⟨MainState.mk s.sim (image (s.sim.heap s.sim.board)) s.pts s.t1, [Event.Render],
        ?_, rfl, Or.inr (Or.inl ⟨h0, rfl, rfl, rfl⟩)⟩
      subst h0
      simp [Render_eq_image]
    · obtain ⟨sim, evu, hu, _⟩ := UpdateBoard_spec s.sim i
      refine ⟨MainState.mk sim (image (sim.heap sim.board)) s.pts s.t1,
        Event.UpdateBoard i :: evu ++ [Event.Render], ?_, rfl,
        Or.inl ⟨hg, h0, sim, evu, hu, rfl, rfl, rfl⟩⟩
      simp [hg, h0, hu, Render_eq_image]
  · refine ⟨s, [], ?_, rfl, Or.inr (Or.inr ⟨hg, rfl, rfl⟩)⟩
    simp [hg]

theorem UpdateBoard_events (s s1 : Sim) (iteration : Int) (evs : List Event)
    (h : UpdateBoard s iteration = some (s1, evs)) :
    evs = [Event.AddSnow] ∧ (iteration.tdiv GENERATION_DURATION).tmod SNOW_INTERVAL = 0 ∨
      evs = [] ∧ ¬ (iteration.tdiv GENERATION_DURATION).tmod SNOW_INTERVAL = 0 := by
  obtain ⟨s2, evs2, h2, _, _, hc⟩ := UpdateBoard_spec s iteration
  rw [h2] at h
  cases h
  exact hc

theorem cycle_fail (tps : Nat) (e : CycleEnv) (s : MainState) (i : Int)
    (hmw : e.av_frame_make_writable < 0) :
    cycle tps e s i = ([], Step.stop (Outcome.returned s i)) := by
  unfold cycle
  rw [if_pos hmw]

theorem cycle_spec (tps : Nat) (e : CycleEnv) (s : MainState) (i : Int)
    (hmw : ¬ e.av_frame_make_writable < 0) :
    ∃ s1 ev1 rest step, drawFrame s i = some (s1, ev1) ∧
      cycle tps e s i =
        (ev1 ++ Event.write_frame i s1.plane (write_frame e.sink) :: rest, step) ∧
      (write_frame e.sink = none → rest = [] ∧ step = Step.stop Outcome.blocked) ∧
      (write_frame e.sink = some false →
        rest = [] ∧ step = Step.stop (Outcome.returned (MainState.mk s1.sim s1.plane i s1.t1) i)) ∧
      (write_frame e.sink = some true →
        rest = (pace tps e.now (MainState.mk s1.sim s1.plane i s1.t1)).2 ++
          (if i ≠ 0 ∧ i.tmod FPS = 0 then [Event.cout_dot] else []) ∧
        ((i = INT_MAX ∧ step = Step.stop Outcome.undefined) ∨
          (i ≠ INT_MAX ∧ step = Step.next
            (MainState.mk s1.sim s1.plane i (s1.t1 + duration_cast tps frameDuration)) (i + 1)))) := by
  obtain ⟨s1, ev1, hd, _⟩ := drawFrame_spec s i
  unfold cycle
  rw [if_neg hmw, hd]
  rcases hw : write_frame e.sink with _ | _ | _
  · exact ⟨s1, ev1, [], _, rfl, rfl, fun _ => ⟨rfl, rfl⟩, (fun h => by cases h), (fun h => by cases h)⟩
  · exact ⟨s1, ev1, [], _, rfl, rfl, (fun h => by cases h), fun _ => ⟨rfl, rfl⟩, (fun h => by cases h)⟩
  · by_cases hi : i = INT_MAX
    · refine ⟨s1, ev1, _, Step.stop Outcome.undefined, rfl, ?_, (fun h => by cases h),
        (fun h => by cases h), fun _ => ⟨rfl, Or.inl ⟨hi, rfl⟩⟩⟩
      simp [hi, pace]
    · refine ⟨s1, ev1, _, _, rfl, ?_, (fun h => by cases h),
        (fun h => by cases h), fun _ => ⟨rfl, Or.inr ⟨hi, rfl⟩⟩⟩
      simp [hi, pace]

/-! ### Events of one turn -/

theorem submissions_append (a b : List Event) :
    submissions (a ++ b) = submissions a ++ submissions b := by
  unfold submissions
  exact List.filterMap_append _ _ _

theorem countP_isTrailer_append (a b : List Event) :
    (a ++ b).countP Event.isTrailer = a.countP Event.isTrailer + b.countP Event.isTrailer :=
  List.countP_append _ _ _

/-- The events of lines 332-337 are draw events. -/
theorem drawFrame_isDraw (s s1 : MainState) (i : Int) (ev1 : List Event)
    (h : drawFrame s i = some (s1, ev1)) : ∀ ev, ev ∈ ev1 → ev.isDraw = true := by
  obtain ⟨s2, ev2, h2, _, hc⟩ := drawFrame_spec s i
  rw [h2] at h
  cases h
  rcases hc with ⟨_, _, sim, evu, hu, _, _, he⟩ | ⟨_, _, _, he⟩ | ⟨_, _, he⟩
  · rcases UpdateBoard_events _ _ _ _ hu with ⟨hev, _⟩ | ⟨hev, _⟩
    · subst hev; subst he
      intro ev hev
      simp at hev
      rcases hev with rfl | rfl | rfl <;> rfl
    · subst hev; subst he
      intro ev hev
      simp at hev
      rcases hev with rfl | rfl <;> rfl
  · subst he
    intro ev hev
    simp at hev
    subst hev
    rfl
  · subst he
    intro ev hev
    simp at hev

theorem submissions_of_isDraw (evs : List Event) (h : ∀ ev, ev ∈ evs → ev.isDraw = true) :
    submissions evs = [] ∧ evs.countP Event.isTrailer = 0 := by
  constructor
  · unfold submissions
    rw [List.filterMap_eq_nil_iff]
    intro ev hev
    have := h ev hev
    cases ev <;> simp_all [Event.isDraw, Event.submission?]
  · rw [List.countP_eq_zero]
    intro ev hev
    have := h ev hev
    cases ev <;> simp_all [Event.isDraw, Event.isTrailer]

theorem pace_rest (tps : Nat) (now : Int) (s : MainState) (i : Int) :
    submissions ((pace tps now s).2 ++
        (if i ≠ 0 ∧ i.tmod FPS = 0 then [Event.cout_dot] else [])) = [] ∧
      ((pace tps now s).2 ++
        (if i ≠ 0 ∧ i.tmod FPS = 0 then [Event.cout_dot] else [])).countP Event.isTrailer = 0 := by
  unfold pace
  constructor
  · rw [submissions_append]
    split_ifs <;> simp [submissions, Event.submission?]
  · rw [countP_isTrailer_append]
    split_ifs <;> simp [Event.isTrailer]

/-- The submissions of one turn and how the loop goes on after it. -/
theorem cycle_submissions (tps : Nat) (e : CycleEnv) (s : MainState) (i : Int) :
    (cycle tps e s i).1.countP Event.isTrailer = 0 ∧
    ((submissions (cycle tps e s i).1 = [] ∧
        (cycle tps e s i).2 = Step.stop (Outcome.returned s i)) ∨
      (submissions (cycle tps e s i).1 = [(i, none)] ∧
        (cycle tps e s i).2 = Step.stop Outcome.blocked) ∨
      (submissions (cycle tps e s i).1 = [(i, some false)] ∧
        ∃ s2, (cycle tps e s i).2 = Step.stop (Outcome.returned s2 i)) ∨
      (submissions (cycle tps e s i).1 = [(i, some true)] ∧
        ((cycle tps e s i).2 = Step.stop Outcome.undefined ∨
          ∃ s3, (cycle tps e s i).2 = Step.next s3 (i + 1)))) := by
  by_cases hmw : e.av_frame_make_writable < 0
  · rw [cycle_fail tps e s i hmw]
    exact ⟨rfl, Or.inl ⟨rfl, rfl⟩⟩
  · obtain ⟨s1, ev1, rest, step, hd, hc, hnone, hfalse, htrue⟩ := cycle_spec tps e s i hmw
    have hdraw := submissions_of_isDraw ev1 (drawFrame_isDraw s s1 i ev1 hd)
    rw [hc]
    have hsub : submissions (ev1 ++ Event.write_frame i s1.plane (write_frame e.sink) :: rest)
        = (i, write_frame e.sink) :: submissions rest := by
      rw [submissions_append, hdraw.1]
      rfl
    have hcnt : (ev1 ++ Event.write_frame i s1.plane (write_frame e.sink) :: rest).countP
        Event.isTrailer = rest.countP Event.isTrailer := by
      rw [countP_isTrailer_append, hdraw.2, List.countP_cons]
      simp [Event.isTrailer]
    simp only [hsub, hcnt]
    rcases hw : write_frame e.sink with _ | _ | _
    · obtain ⟨hr, hs⟩ := hnone hw
      subst hr; subst hs
      exact ⟨rfl, Or.inr (Or.inl ⟨rfl, rfl⟩)⟩
    · obtain ⟨hr, hs⟩ := hfalse hw
      subst hr; subst hs
      exact ⟨rfl, Or.inr (Or.inr (Or.inl ⟨rfl, _, rfl⟩))⟩
    · obtain ⟨hr, hs⟩ := htrue hw
      have hp := pace_rest tps e.now (MainState.mk s1.sim s1.plane i s1.t1) i
      rw [← hr] at hp
      refine ⟨hp.2, Or.inr (Or.inr (Or.inr ⟨by rw [hp.1], ?_⟩))⟩
      rcases hs with ⟨_, hs⟩ | ⟨_, hs⟩
      · exact Or.inl hs
      · exact Or.inr ⟨_, hs⟩

/-! ### The loop -/

theorem frameLoop_nil (tps : Nat) (s : MainState) (i : Int) :
    frameLoop tps [] s i = ([], Outcome.running s i) := rfl

theorem frameLoop_exit (tps : Nat) (e : CycleEnv) (es : List CycleEnv) (s : MainState) (i : Int)
    (h : e.shouldExit = true) :
    frameLoop tps (e :: es) s i = ([], Outcome.exited s i) := by
  simp [frameLoop, h]

theorem frameLoop_next (tps : Nat) (e : CycleEnv) (es : List CycleEnv) (s : MainState) (i : Int)
    (h : e.shouldExit = false) (s1 : MainState) (i1 : Int)
    (hc : (cycle tps e s i).2 = Step.next s1 i1) :
    frameLoop tps (e :: es) s i =
      ((cycle tps e s i).1 :: (frameLoop tps es s1 i1).1, (frameLoop tps es s1 i1).2) := by
  rcases hcy : cycle tps e s i with ⟨evs, st⟩
  rw [hcy] at hc
  simp only at hc
  subst hc
  simp [frameLoop, h, hcy]

theorem frameLoop_stop (tps : Nat) (e : CycleEnv) (es : List CycleEnv) (s : MainState) (i : Int)
    (h : e.shouldExit = false) (o : Outcome)
    (hc : (cycle tps e s i).2 = Step.stop o) :
    frameLoop tps (e :: es) s i = ([(cycle tps e s i).1], o) := by
  rcases hcy : cycle tps e s i with ⟨evs, st⟩
  rw [hcy] at hc
  simp only at hc
  subst hc
  simp [frameLoop, h, hcy]

theorem okSubmissions_succ (a : Int) (K : Nat) :
    okSubmissions a (K + 1) = (a, some true) :: okSubmissions (a + 1) K := by
  unfold okSubmissions
  rw [List.range_succ_eq_map, List.map_cons, List.map_map]
  congr 1
  · simp
  · apply List.map_congr_left
    intro j _
    simp only [Function.comp, Nat.succ_eq_add_one]
    congr 1
    push_cast
    ring

/-- The shape of the submissions of a run of the loop started at counter `i`:
`K` accepted frames `i, …, i+K-1`, possibly followed by one that was not
accepted, at which the run stops. -/
theorem frameLoop_submissions (tps : Nat) (es : List CycleEnv) :
    ∀ (s : MainState) (i : Int), ∃ K : Nat,
      (frameLoop tps es s i).1.flatten.countP Event.isTrailer = 0 ∧
      ((submissions (frameLoop tps es s i).1.flatten = okSubmissions i K ∧
          ((∃ s', (frameLoop tps es s i).2 = Outcome.running s' (i + K) ∧
              (frameLoop tps es s i).1.length = K ∧ es.length = K) ∨
            (∃ s', (frameLoop tps es s i).2 = Outcome.exited s' (i + K) ∧
              (frameLoop tps es s i).1.length = K) ∨
            (∃ s', (frameLoop tps es s i).2 = Outcome.returned s' (i + K)) ∨
            (frameLoop tps es s i).2 = Outcome.undefined)) ∨
        (submissions (frameLoop tps es s i).1.flatten = okSubmissions i K ++ [(i + K, none)] ∧
          (frameLoop tps es s i).2 = Outcome.blocked) ∨
        (submissions (frameLoop tps es s i).1.flatten
            = okSubmissions i K ++ [(i + K, some false)] ∧
          ∃ s', (frameLoop tps es s i).2 = Outcome.returned s' (i + K))) := by
  induction es with
  | nil =>
    intro s i
    refine ⟨0, rfl, Or.inl ⟨rfl, Or.inl ⟨s, ?_, rfl, rfl⟩⟩⟩
    simp [frameLoop_nil]
  | cons e es ih =>
    intro s i
    by_cases hx : e.shouldExit = true
    · rw [frameLoop_exit tps e es s i hx]
      refine ⟨0, rfl, Or.inl ⟨rfl, Or.inr (Or.inl ⟨s, ?_, rfl⟩)⟩⟩
      simp
    · have hx' : e.shouldExit = false := by simpa using hx
      obtain ⟨htr, hcase⟩ := cycle_submissions tps e s i
      rcases hcase with ⟨hs, hst⟩ | ⟨hs, hst⟩ | ⟨hs, s2, hst⟩ | ⟨hs, hst | ⟨s3, hst⟩⟩
      · rw [frameLoop_stop tps e es s i hx' _ hst]
        refine ⟨0, by simpa using htr, Or.inl ⟨by simpa [okSubmissions] using hs,
          Or.inr (Or.inr (Or.inl ⟨s, by simp⟩))⟩⟩
      · rw [frameLoop_stop tps e es s i hx' _ hst]
        refine ⟨0, by simpa using htr, Or.inr (Or.inl ⟨by simpa [okSubmissions] using hs, rfl⟩)⟩
      · rw [frameLoop_stop tps e es s i hx' _ hst]
        refine ⟨0, by simpa using htr,
          Or.inr (Or.inr ⟨by simpa [okSubmissions] using hs, s2, by simp⟩)⟩
      · rw [frameLoop_stop tps e es s i hx' _ hst]
        have h1 : okSubmissions i 1 = [(i, some true)] := by
          simp [okSubmissions, List.range_succ]
        refine ⟨1, by simpa using htr, Or.inl ⟨by rw [h1]; simpa using hs,
          Or.inr (Or.inr (Or.inr rfl))⟩⟩
      · rw [frameLoop_next tps e es s i hx' s3 (i + 1) hst]
        obtain ⟨K, htr', hcase'⟩ := ih s3 (i + 1)
        have hi : i + ((K + 1 : Nat) : Int) = i + 1 + (K : Int) := by push_cast; ring
        refine ⟨K + 1, ?_, ?_⟩
        · simp only [List.flatten_cons, countP_isTrailer_append, htr, htr']
        · simp only [List.flatten_cons, submissions_append, hs, okSubmissions_succ, hi,
            List.length_cons]
          rcases hcase' with ⟨h1, h2⟩ | ⟨h1, h2⟩ | ⟨h1, h2⟩
          · refine Or.inl ⟨by rw [h1]; rfl, ?_⟩
            rcases h2 with ⟨s', h2, h3, h4⟩ | ⟨s', h2, h3⟩ | ⟨s', h2⟩ | h2
            · exact Or.inl ⟨s', h2, by rw [h3], by rw [h4]⟩
            · exact Or.inr (Or.inl ⟨s', h2, by rw [h3]⟩)
            · exact Or.inr (Or.inr (Or.inl ⟨s', h2⟩))
            · exact Or.inr (Or.inr (Or.inr h2))
          · exact Or.inr (Or.inl ⟨by rw [h1]; rfl, h2⟩)
          · exact Or.inr (Or.inr ⟨by rw [h1]; rfl, h2⟩)

/-! ### `main` from the frame loop on -/

theorem main_cycles (tps : Nat) (es : List CycleEnv) (s : MainState) :
    (mainFromFrameLoop tps es s).cycles = (frameLoop tps es s 0).1 := by
  unfold mainFromFrameLoop
  generalize frameLoop tps es s 0 = r
  rcases r with ⟨c, o⟩
  cases o <;> rfl

theorem main_outcome (tps : Nat) (es : List CycleEnv) (s : MainState) :
    (mainFromFrameLoop tps es s).outcome = (frameLoop tps es s 0).2 := by
  unfold mainFromFrameLoop
  generalize frameLoop tps es s 0 = r
  rcases r with ⟨c, o⟩
  cases o <;> rfl

theorem main_shutdown (tps : Nat) (es : List CycleEnv) (s : MainState) :
    (mainFromFrameLoop tps es s).shutdown =
      if (frameLoop tps es s 0).2.isExited = true then [Event.av_write_trailer] else [] := by
  unfold mainFromFrameLoop
  generalize frameLoop tps es s 0 = r
  rcases r with ⟨c, o⟩
  cases o <;> rfl

theorem main_trace_submissions (tps : Nat) (es : List CycleEnv) (s : MainState) :
    submissions (mainFromFrameLoop tps es s).trace
      = submissions (frameLoop tps es s 0).1.flatten := by
  unfold Run.trace
  rw [submissions_append, main_cycles, main_shutdown]
  split_ifs <;> simp [submissions, Event.submission?]

theorem main_trace_trailers (tps : Nat) (es : List CycleEnv) (s : MainState) :
    (mainFromFrameLoop tps es s).trace.countP Event.isTrailer
      = if (frameLoop tps es s 0).2.isExited = true then 1 else 0 := by
  obtain ⟨K, h0, _⟩ := frameLoop_submissions tps es s 0
  unfold Run.trace
  rw [countP_isTrailer_append, main_cycles, main_shutdown, h0]
  split_ifs <;> simp [Event.isTrailer]

theorem okSubmissions_zero (K : Nat) :
    okSubmissions 0 K = (List.range K).map (fun (j : Nat) => ((j : Int), some true)) := by
  unfold okSubmissions
  apply List.map_congr_left
  intro j _
  simp

theorem okSubmissions_all_true (a : Int) (K : Nat) (j : Int) (r : Option Bool)
    (h : (j, r) ∈ okSubmissions a K) : r = some true := by
  unfold okSubmissions at h
  rw [List.mem_map] at h
  obtain ⟨k, _, hk⟩ := h
  cases hk
  rfl

theorem okSubmissions_fst (K : Nat) :
    (okSubmissions 0 K).map Prod.fst = (List.range K).map (fun (j : Nat) => (j : Int)) := by
  rw [okSubmissions_zero, List.map_map]
  rfl

/-- C6 (presentation index sequence of the frame loop).  For every clock, every
behaviour of the environment and every state at loop entry: (1) the values of
`frame->pts` passed to `write_frame` are `0, 1, 2, …` in this order, without gap
or repeat; (2) when the run has completed `K` turns (it is still in the loop, or
left it through the shutdown flag, with counter `K`), the submissions are exactly
`0, …, K-1`, all accepted; (3) when the submission with index `j` fails, the
submissions are `0, …, j-1` accepted followed by `j`, nothing is submitted after
it, and `main` has returned with counter `j`. -/
theorem C6_presentation_index (tps : Nat) (es : List CycleEnv) (s : MainState) :
    (∃ m : Nat, (submissions (mainFromFrameLoop tps es s).trace).map Prod.fst
        = (List.range m).map (fun (j : Nat) => (j : Int))) ∧
    (∀ s' i', ((mainFromFrameLoop tps es s).outcome = Outcome.running s' i' ∨
          (mainFromFrameLoop tps es s).outcome = Outcome.exited s' i') →
        ∃ K : Nat, i' = (K : Int) ∧ (mainFromFrameLoop tps es s).cycles.length = K ∧
          submissions (mainFromFrameLoop tps es s).trace
            = (List.range K).map (fun (j : Nat) => ((j : Int), some true))) ∧
    (∀ j : Int, (j, some false) ∈ submissions (mainFromFrameLoop tps es s).trace →
        ∃ K : Nat, j = (K : Int) ∧
          submissions (mainFromFrameLoop tps es s).trace
            = (List.range K).map (fun (j : Nat) => ((j : Int), some true)) ++ [(j, some false)] ∧
          ∃ s', (mainFromFrameLoop tps es s).outcome = Outcome.returned s' j) := by
  obtain ⟨K, _, hcase⟩ := frameLoop_submissions tps es s 0
  rw [main_trace_submissions, main_outcome, main_cycles]
  simp only [Int.zero_add] at hcase
  rcases hcase with ⟨h1, h2⟩ | ⟨h1, h2⟩ | ⟨h1, s2, h2⟩
  · refine ⟨⟨K, by rw [h1, okSubmissions_fst]⟩, ?_, ?_⟩
    · intro s' i' ho
      refine ⟨K, ?_, ?_, by rw [h1, okSubmissions_zero]⟩
      · rcases h2 with ⟨s2, h2, _⟩ | ⟨s2, h2, _⟩ | ⟨s2, h2⟩ | h2 <;>
          rw [h2] at ho <;> rcases ho with ho | ho <;> cases ho <;> rfl
      · rcases h2 with ⟨s2, h2, h3, _⟩ | ⟨s2, h2, h3⟩ | ⟨s2, h2⟩ | h2
        · exact h3
        · exact h3
        · rw [h2] at ho; rcases ho with ho | ho <;> cases ho
        · rw [h2] at ho; rcases ho with ho | ho <;> cases ho
    · intro j hj
      rw [h1] at hj
      have := okSubmissions_all_true 0 K j _ hj
      cases this
  · refine ⟨⟨K + 1, ?_⟩, ?_, ?_⟩
    · rw [h1, List.map_append, okSubmissions_fst, List.range_succ, List.map_append]
      rfl
    · intro s' i' ho
      rw [h2] at ho
      rcases ho with ho | ho <;> cases ho
    · intro j hj
      rw [h1, List.mem_append] at hj
      rcases hj with hj | hj
      · have := okSubmissions_all_true 0 K j _ hj
        cases this
      · simp at hj
  · refine ⟨⟨K + 1, ?_⟩, ?_, ?_⟩
    · rw [h1, List.map_append, okSubmissions_fst, List.range_succ, List.map_append]
      rfl
    · intro s' i' ho
      rw [h2] at ho
      rcases ho with ho | ho <;> cases ho
    · intro j hj
      rw [h1, List.mem_append] at hj
      rcases hj with hj | hj
      · have := okSubmissions_all_true 0 K j _ hj
        cases this
      · simp only [List.mem_singleton, Prod.mk.injEq, and_true] at hj
        subst hj
        exact ⟨K, rfl, by rw [h1, okSubmissions_zero], s2, h2⟩

/-- A turn whose submission is accepted advances the deadline by the fixed step
and the counter by one. -/
theorem cycle_good (tps : Nat) (e : CycleEnv) (s : MainState) (i : Int)
    (hmw : ¬ e.av_frame_make_writable < 0) (hw : write_frame e.sink = some true)
    (hi : i ≠ INT_MAX) :
    ∃ s3, (cycle tps e s i).2 = Step.next s3 (i + 1) ∧
      s3.t1 = s.t1 + duration_cast tps frameDuration := by
  obtain ⟨s1, ev1, rest, step, hd, hc, _, _, htrue⟩ := cycle_spec tps e s i hmw
  obtain ⟨s1', ev1', hd', ht, _⟩ := drawFrame_spec s i
  rw [hd] at hd'
  cases hd'
  rcases (htrue hw).2 with ⟨h, _⟩ | ⟨_, hs⟩
  · exact absurd h hi
  · refine ⟨_, by rw [hc]; exact hs, ?_⟩
    show s1.t1 + _ = _
    rw [ht]

/-- A turn whose submission fails ends the run by a `return`. -/
theorem frameLoop_failure (tps : Nat) (e : CycleEnv) (es : List CycleEnv) (s : MainState)
    (i : Int) (hx : e.shouldExit = false) (hmw : ¬ e.av_frame_make_writable < 0)
    (hw : write_frame e.sink = some false) :
    ∃ s2, (frameLoop tps (e :: es) s i).2 = Outcome.returned s2 i ∧
      submissions (frameLoop tps (e :: es) s i).1.flatten = [(i, some false)] := by
  obtain ⟨_, hcase⟩ := cycle_submissions tps e s i
  obtain ⟨s1, ev1, rest, step, hd, hc, _, hfalse, _⟩ := cycle_spec tps e s i hmw
  obtain ⟨hr, hs⟩ := hfalse hw
  have hst : (cycle tps e s i).2 = Step.stop (Outcome.returned
      (MainState.mk s1.sim s1.plane i s1.t1) i) := by rw [hc]; exact hs
  rw [frameLoop_stop tps e es s i hx _ hst]
  refine ⟨_, rfl, ?_⟩
  have hdraw := submissions_of_isDraw ev1 (drawFrame_isDraw s s1 i ev1 hd)
  simp only [List.flatten_cons, List.flatten_nil, List.append_nil]
  rw [hc, hr, hw]
  simp only [submissions_append, hdraw.1]
  rfl

/-- A run of turns that all complete: the loop is still running, the counter has
advanced by the number of turns and the deadline by as many fixed steps. -/
theorem frameLoop_deadline (tps : Nat) (es : List CycleEnv) :
    ∀ (s : MainState) (i : Int),
      (∀ e, e ∈ es → e.shouldExit = false ∧ ¬ e.av_frame_make_writable < 0 ∧
        write_frame e.sink = some true) →
      i + (es.length : Int) ≤ INT_MAX →
      ∃ s', (frameLoop tps es s i).2 = Outcome.running s' (i + (es.length : Int)) ∧
        (frameLoop tps es s i).1.length = es.length ∧
        s'.t1 = s.t1 + (es.length : Int) * duration_cast tps frameDuration := by
  induction es with
  | nil =>
    intro s i _ _
    exact ⟨s, by simp [frameLoop_nil], rfl, by simp⟩
  | cons e es ih =>
    intro s i hgood hN
    obtain ⟨hx, hmw, hw⟩ := hgood e (List.mem_cons_self e es)
    have hlen : (((e :: es).length : Nat) : Int) = (es.length : Int) + 1 := by
      simp
    rw [hlen] at hN
    obtain ⟨s3, hst, ht3⟩ := cycle_good tps e s i hmw hw (by omega)
    obtain ⟨s', ho, hl, ht⟩ := ih s3 (i + 1)
      (fun e' he' => hgood e' (List.mem_cons_of_mem e he')) (by omega)
    rw [frameLoop_next tps e es s i hx s3 (i + 1) hst]
    refine ⟨s', ?_, by simp [hl], ?_⟩
    · rw [ho, hlen]
      congr 1
      ring
    · rw [ht, ht3, hlen]
      ring

theorem write_frame_failingEnv : write_frame failingEnv.sink = some false := by
  decide

theorem write_frame_goodEnv (now : Int) : write_frame (goodEnv now).sink = some true := by
  simp [write_frame, goodEnv, write_frame_loop]

theorem frameStep_nanoseconds : duration_cast 1000000000 frameDuration = 33333333 := by
  unfold duration_cast frameDuration truncToInt FPS
  norm_num
  decide

/-- C7, counterexample.  In the run whose first submission fails because
`avcodec_send_frame` returns -1, `write_frame` returns `false`, `main` returns
from inside the loop after submitting index 0, and `av_write_trailer` is never
called. -/
theorem C7_counterexample :
    write_frame failingEnv.sink = some false ∧
    (mainFromFrameLoop 1000000000 [failingEnv] initialState).outcome.isReturned = true ∧
    submissions (mainFromFrameLoop 1000000000 [failingEnv] initialState).trace
      = [(0, some false)] ∧
    (mainFromFrameLoop 1000000000 [failingEnv] initialState).trace.countP Event.isTrailer
      = 0 := by
  obtain ⟨s2, ho, hs⟩ := frameLoop_failure 1000000000 failingEnv [] initialState 0 rfl
    (by decide) write_frame_failingEnv
  refine ⟨write_frame_failingEnv, ?_, ?_, ?_⟩
  · rw [main_outcome, ho]
    rfl
  · rw [main_trace_submissions, hs]
  · rw [main_trace_trailers, ho]
    rfl

/-- C7, amended.  In every run of `main` that has entered the frame loop:
when the loop is left through the shutdown flag, `av_write_trailer` is called
exactly once, after all turns of the loop; in every other case it is not called;
in particular, when a submission fails (`write_frame` returns `false`) `main`
returns at once and `av_write_trailer` is not called. -/
theorem C7_finalize_on_shutdown (tps : Nat) (es : List CycleEnv) (s : MainState) :
    ((mainFromFrameLoop tps es s).outcome.isExited = true →
      (mainFromFrameLoop tps es s).trace
          = (mainFromFrameLoop tps es s).cycles.flatten ++ [Event.av_write_trailer] ∧
        (mainFromFrameLoop tps es s).cycles.flatten.countP Event.isTrailer = 0 ∧
        (mainFromFrameLoop tps es s).trace.countP Event.isTrailer = 1) ∧
    ((mainFromFrameLoop tps es s).outcome.isExited = false →
      (mainFromFrameLoop tps es s).trace.countP Event.isTrailer = 0) ∧
    (∀ j : Int, (j, some false) ∈ submissions (mainFromFrameLoop tps es s).trace →
      (mainFromFrameLoop tps es s).outcome.isReturned = true ∧
        (mainFromFrameLoop tps es s).trace.countP Event.isTrailer = 0) := by
  obtain ⟨K, h0, hcase⟩ := frameLoop_submissions tps es s 0
  refine ⟨?_, ?_, ?_⟩
  · intro hex
    rw [main_outcome] at hex
    refine ⟨?_, ?_, ?_⟩
    · unfold Run.trace
      rw [main_shutdown, if_pos hex]
    · rw [main_cycles, h0]
    · rw [main_trace_trailers, if_pos hex]
  · intro hex
    rw [main_outcome] at hex
    rw [main_trace_trailers, hex]
    rfl
  · intro j hj
    rw [main_trace_submissions] at hj
    rw [main_trace_trailers, main_outcome]
    rcases hcase with ⟨h1, _⟩ | ⟨h1, _⟩ | ⟨h1, s2, h2⟩
    · rw [h1] at hj
      have := okSubmissions_all_true 0 K j _ hj
      cases this
    · rw [h1, List.mem_append] at hj
      rcases hj with hj | hj
      · have := okSubmissions_all_true 0 K j _ hj
        cases this
      · simp at hj
    · rw [h2]
      exact ⟨rfl, rfl⟩

/-- Witness for C7 (amended): after one accepted frame the shutdown flag is set;
the loop is left through it and `av_write_trailer` is called once. -/
theorem C7_finalize_on_shutdown_witness :
    (mainFromFrameLoop 1000000000 [goodEnv 0, exitEnv] initialState).outcome.isExited = true ∧
    (mainFromFrameLoop 1000000000 [goodEnv 0, exitEnv] initialState).trace.countP
      Event.isTrailer = 1 := by
  have hex : (mainFromFrameLoop 1000000000 [goodEnv 0, exitEnv] initialState).outcome.isExited
      = true := by
    obtain ⟨s3, hst, _⟩ := cycle_good 1000000000 (goodEnv 0) initialState 0 (by decide)
      (write_frame_goodEnv 0) (by decide)
    rw [main_outcome, frameLoop_next 1000000000 (goodEnv 0) [exitEnv] initialState 0 rfl s3 _ hst,
      frameLoop_exit 1000000000 exitEnv [] s3 _ rfl]
    rfl
  exact ⟨hex, ((C7_finalize_on_shutdown 1000000000 [goodEnv 0, exitEnv] initialState).1 hex).2.2⟩

/-- C8, counterexample.  On a clock that ticks in nanoseconds, after one
completed turn the deadline has advanced by 33333333 ticks, which is not the
frame period of 1000/30 ms. -/
theorem C8_counterexample :
    (mainFromFrameLoop 1000000000 [goodEnv 0] initialState).cycles.length = 1 ∧
    (mainFromFrameLoop 1000000000 [goodEnv 0] initialState).outcome.counter? = some 1 ∧
    (mainFromFrameLoop 1000000000 [goodEnv 0] initialState).outcome.t1?
      = some (initialState.t1 + 33333333) ∧
    ticksToMilli 1000000000 33333333 ≠ 1 * frameDuration := by
  obtain ⟨s', ho, hl, ht⟩ := frameLoop_deadline 1000000000 [goodEnv 0] initialState 0
    (by
      intro e he
      simp only [List.mem_singleton] at he
      subst he
      exact ⟨rfl, by decide, write_frame_goodEnv 0⟩)
    (by decide)
  rw [frameStep_nanoseconds] at ht
  refine ⟨?_, ?_, ?_, ?_⟩
  · rw [main_cycles, hl]
    rfl
  · rw [main_outcome, ho]
    rfl
  · rw [main_outcome, ho]
    show some s'.t1 = _
    rw [ht]
    simp
  · unfold ticksToMilli frameDuration FPS
    norm_num

/-- C8, amended.  For every clock, every `N ≤ INT_MAX` and every sequence of `N`
turns that complete, whatever the clock readings: after the `N` turns the loop
is still running with counter `N`, and the deadline `t1` equals its initial
value plus exactly `N` times one fixed step, the frame period of `1000/FPS` ms
converted to clock ticks by `duration_cast` (truncation to a whole number of
ticks).  The step is the same whether or not a turn slept; on a clock that
ticks in nanoseconds it is 33333333 ticks. -/
theorem C8_deadline_progression (tps : Nat) (es : List CycleEnv) (s : MainState)
    (hgood : ∀ e, e ∈ es → e.shouldExit = false ∧ ¬ e.av_frame_make_writable < 0 ∧
      write_frame e.sink = some true)
    (hN : (es.length : Int) ≤ INT_MAX) :
    (∃ s', (mainFromFrameLoop tps es s).outcome = Outcome.running s' (es.length : Int) ∧
      (mainFromFrameLoop tps es s).cycles.length = es.length ∧
      s'.t1 = s.t1 + (es.length : Int) * duration_cast tps frameDuration) ∧
    duration_cast 1000000000 frameDuration = 33333333 := by
  obtain ⟨s', ho, hl, ht⟩ := frameLoop_deadline tps es s 0 hgood (by omega)
  refine ⟨⟨s', ?_, ?_, ht⟩, frameStep_nanoseconds⟩
  · rw [main_outcome, ho, Int.zero_add]
  · rw [main_cycles, hl]

/-- Witness for C8 (amended): two turns on a nanosecond clock, the first of which
sleeps (the clock reads 5 ns) and the second of which does not (it reads 0.1 s). -/
theorem C8_deadline_progression_witness :
    (∀ e, e ∈ [goodEnv 5, goodEnv 100000000] →
      e.shouldExit = false ∧ ¬ e.av_frame_make_writable < 0 ∧
        write_frame e.sink = some true) ∧
    (([goodEnv 5, goodEnv 100000000].length : Nat) : Int) ≤ INT_MAX ∧
    (∃ s', (mainFromFrameLoop 1000000000 [goodEnv 5, goodEnv 100000000] initialState).outcome
        = Outcome.running s' (([goodEnv 5, goodEnv 100000000].length : Nat) : Int) ∧
      (mainFromFrameLoop 1000000000 [goodEnv 5, goodEnv 100000000] initialState).cycles.length
        = [goodEnv 5, goodEnv 100000000].length ∧
      s'.t1 = initialState.t1 + (([goodEnv 5, goodEnv 100000000].length : Nat) : Int)
        * duration_cast 1000000000 frameDuration) ∧
    duration_cast 1000000000 frameDuration = 33333333 :=
  have hgood : ∀ e, e ∈ [goodEnv 5, goodEnv 100000000] →
      e.shouldExit = false ∧ ¬ e.av_frame_make_writable < 0 ∧
        write_frame e.sink = some true := by
    intro e he
    simp only [List.mem_cons, List.mem_singleton, List.not_mem_nil, or_false] at he
    rcases he with rfl | rfl
    · exact ⟨rfl, by decide, write_frame_goodEnv 5⟩
    · exact ⟨rfl, by decide, write_frame_goodEnv 100000000⟩
  have hN : (([goodEnv 5, goodEnv 100000000].length : Nat) : Int) ≤ INT_MAX := by decide
  ⟨hgood, hN, C8_deadline_progression 1000000000 [goodEnv 5, goodEnv 100000000] initialState
    hgood hN⟩

/-! ### Which calls a turn makes -/

theorem GENERATION_DURATION_eq : GENERATION_DURATION = 15 := rfl

theorem SNOW_INTERVAL_eq : SNOW_INTERVAL = 20 := rfl

theorem generation_due_iff (k : Nat) :
    (k : Int).tmod (GENERATION_DURATION : Int) = 0 ↔ k % GENERATION_DURATION = 0 := by
  rw [GENERATION_DURATION_eq, Int.tmod_eq_emod (by omega) (by omega)]
  omega

theorem snow_due_iff (k : Nat) :
    ((k : Int).tdiv (GENERATION_DURATION : Int)).tmod (SNOW_INTERVAL : Int) = 0 ↔
      (k / GENERATION_DURATION) % SNOW_INTERVAL = 0 := by
  rw [GENERATION_DURATION_eq, SNOW_INTERVAL_eq, Int.tdiv_eq_ediv (by omega) (by omega),
    Int.tmod_eq_emod (by omega) (by omega)]
  omega

theorem cycle_next_counter (tps : Nat) (e : CycleEnv) (s : MainState) (i : Int)
    (s1 : MainState) (i1 : Int) (h : (cycle tps e s i).2 = Step.next s1 i1) : i1 = i + 1 := by
  obtain ⟨_, hcase⟩ := cycle_submissions tps e s i
  rcases hcase with ⟨_, hst⟩ | ⟨_, hst⟩ | ⟨_, s2, hst⟩ | ⟨_, hst | ⟨s3, hst⟩⟩ <;>
    rw [hst] at h <;> cases h
  rfl

/-- Every turn of a run is a turn of `cycle` from a state that satisfies any
property that holds at loop entry and that completed turns preserve; the turn
number `j` is the value of the counter. -/
theorem frameLoop_turns (tps : Nat) (Inv : MainState → Int → Prop)
    (hpres : ∀ e s i s1, Inv s i → (cycle tps e s i).2 = Step.next s1 (i + 1) → Inv s1 (i + 1))
    (es : List CycleEnv) :
    ∀ (s : MainState) (i : Int), Inv s i →
      ∀ (j : Nat) (evs : List Event), (frameLoop tps es s i).1[j]? = some evs →
        ∃ e s', e ∈ es ∧ Inv s' (i + (j : Int)) ∧ evs = (cycle tps e s' (i + (j : Int))).1 := by
  induction es with
  | nil =>
    intro s i _ j evs h
    simp [frameLoop_nil] at h
  | cons e es ih =>
    intro s i hinv j evs h
    by_cases hx : e.shouldExit = true
    · rw [frameLoop_exit tps e es s i hx] at h
      simp at h
    · have hx' : e.shouldExit = false := by simpa using hx
      rcases hst : (cycle tps e s i).2 with ⟨s1, i1⟩ | o
      · have hi1 := cycle_next_counter tps e s i s1 i1 hst
        subst hi1
        rw [frameLoop_next tps e es s i hx' s1 (i + 1) hst] at h
        cases j with
        | zero =>
          simp only [List.getElem?_cons_zero, Option.some.injEq] at h
          exact ⟨e, s, List.mem_cons_self e es, by simpa using hinv, by simpa using h.symm⟩
        | succ j =>
          simp only [List.getElem?_cons_succ] at h
          obtain ⟨e', s', he', hinv', hev⟩ := ih s1 (i + 1) (hpres e s i s1 hinv hst) j evs h
          have hij : i + ((j + 1 : Nat) : Int) = i + 1 + (j : Int) := by push_cast; ring
          rw [hij]
          exact ⟨e', s', List.mem_cons_of_mem e he', hinv', hev⟩
      · rw [frameLoop_stop tps e es s i hx' o hst] at h
        cases j with
        | zero =>
          simp only [List.getElem?_cons_zero, Option.some.injEq] at h
          exact ⟨e, s, List.mem_cons_self e es, by simpa using hinv, by simpa using h.symm⟩
        | succ j =>
          simp at h

/-- The calls made by turn `k` of the loop. -/
theorem cycle_membership (tps : Nat) (e : CycleEnv) (s : MainState) (k : Nat) :
    (∀ it, Event.UpdateBoard it ∈ (cycle tps e s k).1 →
      it = (k : Int) ∧ k ≠ 0 ∧ k % GENERATION_DURATION = 0) ∧
    (Event.Render ∈ (cycle tps e s k).1 → k % GENERATION_DURATION = 0) ∧
    (Event.AddSnow ∈ (cycle tps e s k).1 →
      k ≠ 0 ∧ k % GENERATION_DURATION = 0 ∧ (k / GENERATION_DURATION) % SNOW_INTERVAL = 0) ∧
    (∀ pts plane res, Event.write_frame pts plane res ∈ (cycle tps e s k).1 →
      pts = (k : Int) ∧
      (k ≠ 0 ∧ k % GENERATION_DURATION = 0 → Event.UpdateBoard k ∈ (cycle tps e s k).1) ∧
      (k % GENERATION_DURATION = 0 → Event.Render ∈ (cycle tps e s k).1) ∧
      (k ≠ 0 ∧ k % GENERATION_DURATION = 0 ∧ (k / GENERATION_DURATION) % SNOW_INTERVAL = 0 →
        Event.AddSnow ∈ (cycle tps e s k).1) ∧
      ∃ s1 ev1, drawFrame s k = some (s1, ev1) ∧ plane = s1.plane) := by
  by_cases hmw : e.av_frame_make_writable < 0
  · rw [cycle_fail tps e s k hmw]
    simp
  · obtain ⟨s1, ev1, rest, step, hd, hc, hnone, hfalse, htrue⟩ := cycle_spec tps e s k hmw
    have hrest : ∀ ev, ev ∈ rest → (∃ d, ev = Event.sleep_for d) ∨ ev = Event.cout_dot := by
      rcases hw : write_frame e.sink with _ | _ | _
      · rw [(hnone hw).1]; simp
      · rw [(hfalse hw).1]; simp
      · rw [(htrue hw).1]
        intro ev hev
        rw [List.mem_append] at hev
        rcases hev with hev | hev
        · unfold pace at hev
          simp only at hev
          split_ifs at hev
          · simp only [List.mem_singleton] at hev
            exact Or.inl ⟨_, hev⟩
          · simp at hev
        · split_ifs at hev
          · simp only [List.mem_singleton] at hev
            exact Or.inr hev
          · simp at hev
    have hnU : ∀ it, Event.UpdateBoard it ∉ rest := by
      intro it hin
      rcases hrest _ hin with ⟨d, h⟩ | h <;> cases h
    have hnR : Event.Render ∉ rest := by
      intro hin
      rcases hrest _ hin with ⟨d, h⟩ | h <;> cases h
    have hnA : Event.AddSnow ∉ rest := by
      intro hin
      rcases hrest _ hin with ⟨d, h⟩ | h <;> cases h
    have hnW : ∀ pts plane res, Event.write_frame pts plane res ∉ rest := by
      intro pts plane res hin
      rcases hrest _ hin with ⟨d, h⟩ | h <;> cases h
    obtain ⟨s1', ev1', hd', _, hcase⟩ := drawFrame_spec s k
    rw [hd] at hd'
    cases hd'
    have hg := generation_due_iff k
    have hsn := snow_due_iff k
    rw [hc]
    simp only [List.mem_append, List.mem_cons, hnU, hnR, hnA, hnW, or_false, false_or,
      reduceCtorEq]
    rcases hcase with ⟨h1, h2, sim, evu, hu, _, _, he⟩ | ⟨h0, _, _, he⟩ | ⟨h1, _, he⟩
    · have hk0 : k ≠ 0 := by intro h; apply h2; rw [h]; rfl
      have hk15 := hg.mp h1
      rcases UpdateBoard_events _ _ _ _ hu with ⟨hev, hs⟩ | ⟨hev, hs⟩
      · have hs' := hsn.mp hs
        subst hev; subst he
        simp
        refine ⟨⟨hk0, hk15⟩, hk15, ⟨hk0, hk15, hs'⟩, ?_⟩
        intro pts plane res hp hpl _
        exact ⟨hp, s1, ⟨_, hd⟩, hpl⟩
      · have hs' : ¬ (k / GENERATION_DURATION) % SNOW_INTERVAL = 0 := fun h => hs (hsn.mpr h)
        subst hev; subst he
        simp
        refine ⟨⟨hk0, hk15⟩, hk15, ?_⟩
        intro pts plane res hp hpl _
        exact ⟨hp, fun _ _ => hs', s1, ⟨_, hd⟩, hpl⟩
    · have hk0 : k = 0 := by exact_mod_cast h0
      subst he
      subst hk0
      simp
      intro pts plane res hp hpl _
      exact ⟨hp, s1, ⟨_, by simpa using hd⟩, hpl⟩
    · have hk15 : ¬ k % GENERATION_DURATION = 0 := fun h => h1 (hg.mpr h)
      subst he
      simp
      intro pts plane res hp hpl _
      exact ⟨hp, fun _ => hk15, hk15, fun _ h => absurd h hk15, s1, ⟨_, hd⟩, hpl⟩

/-! ### The hold of a generation -/

theorem simAfter_unfold (sim0 : Sim) (m : Nat) :
    simAfter sim0 (m + 1) = (simAfter sim0 m).bind (fun s1 =>
      (UpdateBoard s1 (((m + 1 : Nat) : Int) * (GENERATION_DURATION : Int))).bind
        (fun r => some r.1)) := by
  rfl

theorem simAfter_succ (sim0 s1 s2 : Sim) (m : Nat) (evs : List Event)
    (h1 : simAfter sim0 m = some s1)
    (h2 : UpdateBoard s1 (((m + 1 : Nat) : Int) * (GENERATION_DURATION : Int)) = some (s2, evs)) :
    simAfter sim0 (m + 1) = some s2 := by
  rw [simAfter_unfold, h1, Option.some_bind, h2, Option.some_bind]

/-- After lines 332-337 of turn `k`, the simulation has made `k / 15` steps and
the plane shows the current board. -/
theorem drawFrame_hold (sim0 : Sim) (s s1 : MainState) (k : Nat) (ev1 : List Event)
    (hinv : holdInvariant sim0 s k) (hd : drawFrame s k = some (s1, ev1)) :
    simAfter sim0 (k / GENERATION_DURATION) = some s1.sim ∧
      s1.plane = image (s1.sim.heap s1.sim.board) := by
  obtain ⟨k', hk', hzero, hpos⟩ := hinv
  have hkk : k' = k := by exact_mod_cast hk'.symm
  subst hkk
  obtain ⟨s1', ev1', hd', _, hcase⟩ := drawFrame_spec s k'
  rw [hd] at hd'
  cases hd'
  have hg := generation_due_iff k'
  rw [GENERATION_DURATION_eq] at hg hpos ⊢
  rcases hcase with ⟨h1, h2, sim, evu, hu, hsim, hpl, _⟩ | ⟨h0, hsim, hpl, _⟩ | ⟨h1, hs, _⟩
  · have hk0 : k' ≠ 0 := by intro h; apply h2; rw [h]; rfl
    have hk15 : k' % 15 = 0 := hg.mp (by rw [GENERATION_DURATION_eq] at h1; exact h1)
    obtain ⟨hsa, _⟩ := hpos (by omega)
    have hdiv : k' / 15 = (k' - 1) / 15 + 1 := by omega
    have hit : ((((k' - 1) / 15 + 1 : Nat) : Nat) : Int) * (GENERATION_DURATION : Int)
        = (k' : Int) := by
      rw [GENERATION_DURATION_eq]
      push_cast
      omega
    rw [hdiv, hsim]
    exact ⟨simAfter_succ sim0 s.sim sim _ evu hsa (by rw [hit]; exact hu), hpl⟩
  · have hk0 : k' = 0 := by exact_mod_cast h0
    subst hk0
    rw [hsim]
    exact ⟨by rw [hzero rfl]; rfl, hpl⟩
  · have hk15 : ¬ k' % 15 = 0 := fun h => h1 (by rw [GENERATION_DURATION_eq]; exact hg.mpr h)
    subst hs
    obtain ⟨hsa, hpl⟩ := hpos (by omega)
    have hdiv : k' / 15 = (k' - 1) / 15 := by omega
    rw [hdiv]
    exact ⟨hsa, hpl⟩

theorem cycle_next_state (tps : Nat) (e : CycleEnv) (s : MainState) (i : Int)
    (s3 : MainState) (i3 : Int) (h : (cycle tps e s i).2 = Step.next s3 i3) :
    ∃ s1 ev1, drawFrame s i = some (s1, ev1) ∧ s3.sim = s1.sim ∧ s3.plane = s1.plane := by
  by_cases hmw : e.av_frame_make_writable < 0
  · rw [cycle_fail tps e s i hmw] at h
    cases h
  · obtain ⟨s1, ev1, rest, step, hd, hc, hnone, hfalse, htrue⟩ := cycle_spec tps e s i hmw
    rw [hc] at h
    simp only at h
    refine ⟨s1, ev1, hd, ?_⟩
    rcases hw : write_frame e.sink with _ | _ | _
    · rw [(hnone hw).2] at h
      cases h
    · rw [(hfalse hw).2] at h
      cases h
    · rcases (htrue hw).2 with ⟨_, hs⟩ | ⟨_, hs⟩
      · rw [hs] at h
        cases h
      · rw [hs] at h
        cases h
        exact ⟨rfl, rfl⟩

theorem holdInvariant_next (tps : Nat) (sim0 : Sim) (e : CycleEnv) (s : MainState) (i : Int)
    (s1 : MainState) (hinv : holdInvariant sim0 s i)
    (h : (cycle tps e s i).2 = Step.next s1 (i + 1)) : holdInvariant sim0 s1 (i + 1) := by
  obtain ⟨s2, ev2, hd, hsim, hpl⟩ := cycle_next_state tps e s i s1 (i + 1) h
  have hinv' := hinv
  obtain ⟨k, hk, _, _⟩ := hinv'
  subst hk
  obtain ⟨ha, hb⟩ := drawFrame_hold sim0 s s2 k ev2 hinv hd
  refine ⟨k + 1, by push_cast; rfl, fun h0 => absurd h0 (Nat.succ_ne_zero k), fun _ => ?_⟩
  rw [Nat.add_sub_cancel, hsim, hpl]
  exact ⟨ha, hb⟩

theorem holdInvariant_entry (s : MainState) : holdInvariant s.sim s 0 :=
  ⟨0, rfl, fun _ => rfl, fun h => absurd h (Nat.lt_irrefl 0)⟩

/-- The turns of a run of `main`: turn `j` is a turn of `cycle` with counter `j`
from a state that satisfies the hold invariant. -/
theorem main_turns (tps : Nat) (es : List CycleEnv) (s : MainState) (j : Nat)
    (evs : List Event) (h : (mainFromFrameLoop tps es s).cycles[j]? = some evs) :
    ∃ e s', e ∈ es ∧ holdInvariant s.sim s' (j : Int) ∧ evs = (cycle tps e s' (j : Int)).1 := by
  rw [main_cycles] at h
  obtain ⟨e, s', he, hinv, hev⟩ := frameLoop_turns tps (holdInvariant s.sim)
    (fun e s2 i s1 hinv hst => holdInvariant_next tps s.sim e s2 i s1 hinv hst) es s 0
    (holdInvariant_entry s) j evs h
  rw [Int.zero_add] at hinv hev
  exact ⟨e, s', he, hinv, hev⟩

/-- A turn that gets past `av_frame_make_writable` submits a frame. -/
theorem cycle_submits (tps : Nat) (e : CycleEnv) (s : MainState) (i : Int)
    (hmw : ¬ e.av_frame_make_writable < 0) :
    ∃ plane res, Event.write_frame i plane res ∈ (cycle tps e s i).1 := by
  obtain ⟨s1, ev1, rest, step, _, hc, _⟩ := cycle_spec tps e s i hmw
  refine ⟨s1.plane, write_frame e.sink, ?_⟩
  rw [hc]
  exact List.mem_append_right _ (List.mem_cons_self _ _)

theorem snow_frame_iff (j : Nat) :
    (j ≠ 0 ∧ j % GENERATION_DURATION = 0 ∧ (j / GENERATION_DURATION) % SNOW_INTERVAL = 0) ↔
      (j ≠ 0 ∧ j % (GENERATION_DURATION * SNOW_INTERVAL) = 0) := by
  have h : GENERATION_DURATION * SNOW_INTERVAL = 300 := rfl
  rw [h, GENERATION_DURATION_eq, SNOW_INTERVAL_eq]
  omega

/-- The snow cadence of a turn of a run, for every turn and for the turns that
reach the submission. -/
theorem main_snow_cadence (tps : Nat) (es : List CycleEnv) (s : MainState) (j : Nat)
    (evs : List Event) (h : (mainFromFrameLoop tps es s).cycles[j]? = some evs) :
    (Event.AddSnow ∈ evs → j ≠ 0 ∧ j % (GENERATION_DURATION * SNOW_INTERVAL) = 0) ∧
    (∀ pts plane res, Event.write_frame pts plane res ∈ evs →
      (Event.AddSnow ∈ evs ↔ j ≠ 0 ∧ j % (GENERATION_DURATION * SNOW_INTERVAL) = 0) ∧
      (∀ k : Nat, 1 ≤ k → j = k * GENERATION_DURATION →
        Event.UpdateBoard (j : Int) ∈ evs ∧
          (Event.AddSnow ∈ evs ↔ k % SNOW_INTERVAL = 0))) := by
  obtain ⟨e, s', _, _, hev⟩ := main_turns tps es s j evs h
  obtain ⟨_, _, hA, hwf⟩ := cycle_membership tps e s' j
  rw [← hev] at hA hwf
  have hiff := snow_frame_iff j
  refine ⟨fun hin => hiff.mp (hA hin), ?_⟩
  intro pts plane res hw
  obtain ⟨_, hU', _, hA', _⟩ := hwf pts plane res hw
  refine ⟨⟨fun hin => hiff.mp (hA hin), fun hj => hA' (hiff.mpr hj)⟩, ?_⟩
  intro k hk hjk
  have hj0 : j ≠ 0 := by
    rw [hjk, GENERATION_DURATION_eq]; omega
  have hj15 : j % GENERATION_DURATION = 0 := by
    rw [hjk]; exact Nat.mul_mod_left k GENERATION_DURATION
  have hdiv : j / GENERATION_DURATION = k := by
    rw [hjk]; exact Nat.mul_div_cancel k (by decide)
  refine ⟨hU' ⟨hj0, hj15⟩, ?_, ?_⟩
  · intro hin
    have := (hA hin).2.2
    rw [hdiv] at this
    exact this
  · intro hk20
    apply hA'
    rw [hdiv]
    exact ⟨hj0, hj15, hk20⟩

/-- When `av_frame_make_writable` never fails, every turn of a run reaches the
submission. -/
theorem main_turn_submits (tps : Nat) (es : List CycleEnv) (s : MainState) (j : Nat)
    (evs : List Event) (h : (mainFromFrameLoop tps es s).cycles[j]? = some evs)
    (hmw : ∀ e, e ∈ es → ¬ e.av_frame_make_writable < 0) :
    ∃ plane res, Event.write_frame (j : Int) plane res ∈ evs := by
  obtain ⟨e, s', he, _, hev⟩ := main_turns tps es s j evs h
  rw [hev]
  exact cycle_submits tps e s' j (hmw e he)

/-- A run in which every frame is accepted has a turn for each of its
observations. -/
theorem main_turn_exists (tps : Nat) (es : List CycleEnv) (s : MainState)
    (hgood : ∀ e, e ∈ es → e.shouldExit = false ∧ ¬ e.av_frame_make_writable < 0 ∧
      write_frame e.sink = some true)
    (hN : (es.length : Int) ≤ INT_MAX) (j : Nat) (hj : j < es.length) :
    ∃ evs, (mainFromFrameLoop tps es s).cycles[j]? = some evs := by
  obtain ⟨_, _, hl, _⟩ := frameLoop_deadline tps es s 0 hgood (by omega)
  rw [main_cycles]
  exact ⟨_, List.getElem?_eq_getElem (by rw [hl]; exact hj)⟩

/-- C10 (perturbation cadence in the Running loop).  In every run, for every
turn `j` of the loop: `AddSnow` is called only if `j` is a non-zero multiple of
`GENERATION_DURATION * SNOW_INTERVAL`; and if the turn reaches the submission,
which it does whenever `av_frame_make_writable` does not fail in the run,
`AddSnow` is called iff `j` is a non-zero multiple of
`GENERATION_DURATION * SNOW_INTERVAL`.  In terms of simulation steps: if
`j = k * GENERATION_DURATION` with `k ≥ 1`, the turn makes step `k`, the call
`UpdateBoard(board, boardNew, j)`, and `AddSnow` is called in it iff `k` is a
multiple of `SNOW_INTERVAL`.  A run of `N ≤ INT_MAX` observations in which every
frame is accepted has all the turns `j < N`, so that in it `AddSnow` is called
at the frames 300, 600, … below `N` and at no others. -/
theorem C10_perturbation_cadence (tps : Nat) (es : List CycleEnv) (s : MainState) :
    (∀ (j : Nat) (evs : List Event), (mainFromFrameLoop tps es s).cycles[j]? = some evs →
      (Event.AddSnow ∈ evs → j ≠ 0 ∧ j % (GENERATION_DURATION * SNOW_INTERVAL) = 0) ∧
      (∀ pts plane res, Event.write_frame pts plane res ∈ evs →
        (Event.AddSnow ∈ evs ↔ j ≠ 0 ∧ j % (GENERATION_DURATION * SNOW_INTERVAL) = 0) ∧
        (∀ k : Nat, 1 ≤ k → j = k * GENERATION_DURATION →
          Event.UpdateBoard (j : Int) ∈ evs ∧
            (Event.AddSnow ∈ evs ↔ k % SNOW_INTERVAL = 0))) ∧
      ((∀ e, e ∈ es → ¬ e.av_frame_make_writable < 0) →
        (Event.AddSnow ∈ evs ↔ j ≠ 0 ∧ j % (GENERATION_DURATION * SNOW_INTERVAL) = 0) ∧
        (∀ k : Nat, 1 ≤ k → j = k * GENERATION_DURATION →
          Event.UpdateBoard (j : Int) ∈ evs ∧
            (Event.AddSnow ∈ evs ↔ k % SNOW_INTERVAL = 0)))) ∧
    ((∀ e, e ∈ es → e.shouldExit = false ∧ ¬ e.av_frame_make_writable < 0 ∧
        write_frame e.sink = some true) →
      (es.length : Int) ≤ INT_MAX →
      ∀ j : Nat, j < es.length →
        ∃ evs, (mainFromFrameLoop tps es s).cycles[j]? = some evs ∧
          (Event.AddSnow ∈ evs ↔ j ≠ 0 ∧ j % (GENERATION_DURATION * SNOW_INTERVAL) = 0) ∧
          (∀ k : Nat, 1 ≤ k → j = k * GENERATION_DURATION →
            Event.UpdateBoard (j : Int) ∈ evs ∧
              (Event.AddSnow ∈ evs ↔ k % SNOW_INTERVAL = 0))) := by
  constructor
  · intro j evs h
    obtain ⟨h1, h2⟩ := main_snow_cadence tps es s j evs h
    refine ⟨h1, h2, fun hmw => ?_⟩
    obtain ⟨plane, res, hw⟩ := main_turn_submits tps es s j evs h hmw
    exact h2 _ plane res hw
  · intro hgood hN j hj
    obtain ⟨evs, h⟩ := main_turn_exists tps es s hgood hN j hj
    obtain ⟨plane, res, hw⟩ := main_turn_submits tps es s j evs h (fun e he => (hgood e he).2.1)
    exact ⟨evs, h, (main_snow_cadence tps es s j evs h).2 _ plane res hw⟩

theorem snowEnvs_good : ∀ e, e ∈ snowEnvs →
    e.shouldExit = false ∧ ¬ e.av_frame_make_writable < 0 ∧ write_frame e.sink = some true := by
  intro e he
  have h0 : e = goodEnv 0 := List.eq_of_mem_replicate he
  subst h0
  exact ⟨rfl, by decide, write_frame_goodEnv 0⟩

theorem snowEnvs_length : snowEnvs.length = 301 := List.length_replicate 301 (goodEnv 0)

/-- Witness for C10: the run of 301 turns in which every frame is accepted.  Its
turn 300 makes simulation step 20 and calls `AddSnow`; its turn 15 makes step 1
and does not call `AddSnow`; its turn 0 makes no step. -/
theorem C10_perturbation_cadence_witness :
    (∀ e, e ∈ snowEnvs → e.shouldExit = false ∧ ¬ e.av_frame_make_writable < 0 ∧
      write_frame e.sink = some true) ∧
    ((snowEnvs.length : Nat) : Int) ≤ INT_MAX ∧
    (∃ evs, (mainFromFrameLoop 1000000000 snowEnvs initialState).cycles[300]? = some evs ∧
      Event.UpdateBoard ((300 : Nat) : Int) ∈ evs ∧ Event.AddSnow ∈ evs) ∧
    (∃ evs, (mainFromFrameLoop 1000000000 snowEnvs initialState).cycles[15]? = some evs ∧
      Event.UpdateBoard ((15 : Nat) : Int) ∈ evs ∧ Event.AddSnow ∉ evs) ∧
    (∃ evs, (mainFromFrameLoop 1000000000 snowEnvs initialState).cycles[0]? = some evs ∧
      Event.AddSnow ∉ evs) := by
  have hN : ((snowEnvs.length : Nat) : Int) ≤ INT_MAX := by
    rw [snowEnvs_length]
    decide
  have hc := (C10_perturbation_cadence 1000000000 snowEnvs initialState).2 snowEnvs_good hN
  refine ⟨snowEnvs_good, hN, ?_, ?_, ?_⟩
  · obtain ⟨evs, h, hiff, hk⟩ := hc 300 (by rw [snowEnvs_length]; decide)
    exact ⟨evs, h, (hk 20 (by decide) (by decide)).1, hiff.mpr ⟨by decide, by decide⟩⟩
  · obtain ⟨evs, h, hiff, hk⟩ := hc 15 (by rw [snowEnvs_length]; decide)
    exact ⟨evs, h, (hk 1 (by decide) (by decide)).1,
      fun hin => absurd (hiff.mp hin).2 (by decide)⟩
  · obtain ⟨evs, h, hiff, _⟩ := hc 0 (by rw [snowEnvs_length]; decide)
    exact ⟨evs, h, fun hin => (hiff.mp hin).1 rfl⟩

/-! ## Pre-generation -/

theorem foldlM_range_succ {β : Type} (f : β → Nat → Option β) (n : Nat) (x y z : β)
    (h1 : (List.range n).foldlM f x = some y) (h2 : f y n = some z) :
    (List.range (n + 1)).foldlM f x = some z := by
  rw [List.range_succ, List.foldlM_append, h1]
  simp [h2]

theorem pregenerateTurn_eq (s1 s2 : Sim) (L : List (List Event)) (n : Nat) (evs : List Event)
    (hu : UpdateBoard s1 (n : Int) = some (s2, evs)) :
    pregenerateTurn (s1, L) n = some (s2, L ++ [evs]) := by
  unfold pregenerateTurn
  dsimp only
  rw [hu]
  rfl

theorem pregenerate_loop (n : Nat) (s : Sim) :
    ∃ s1, (List.range n).foldlM pregenerateTurn (s, [])
      = some (s1, (List.range n).map pregenerateStep) := by
  induction n with
  | zero => exact ⟨s, rfl⟩
  | succ n ih =>
    obtain ⟨s1, h1⟩ := ih
    obtain ⟨s2, evs, hu, _, _, hc⟩ := UpdateBoard_spec s1 (n : Int)
    refine ⟨s2, ?_⟩
    have hev : evs = pregenerateStep n := by
      unfold pregenerateStep
      rcases hc with ⟨he, hs⟩ | ⟨he, hs⟩
      · rw [he, if_pos ((snow_due_iff n).mp hs)]
      · rw [he, if_neg (fun h => hs ((snow_due_iff n).mpr h))]
    rw [List.range_succ, List.map_append, List.map_cons, List.map_nil, ← hev, ← List.range_succ]
    exact foldlM_range_succ pregenerateTurn n _ _ _ h1 (pregenerateTurn_eq s1 s2 _ n evs hu)

/-- Closed form of the pre-generation: it always succeeds, and its step `k` makes
the calls `pregenerateStep k`. -/
theorem pregenerate_eq (s : Sim) :
    ∃ s1, pregenerate s = some (s1, (List.range 1200).map pregenerateStep) := by
  obtain ⟨s1, h1⟩ := pregenerate_loop 1200 s
  refine ⟨s1, ?_⟩
  have hp : PREGENERATE = true := rfl
  unfold pregenerate
  rw [if_pos hp]
  exact h1
theorem pregenerateStep_snow (k : Nat) :
    Event.AddSnow ∈ pregenerateStep k ↔ (k / GENERATION_DURATION) % SNOW_INTERVAL = 0 := by
  unfold pregenerateStep
  by_cases h : (k / GENERATION_DURATION) % SNOW_INTERVAL = 0
  · simp [h]
  · simp [h]

set_option maxRecDepth 100000 in
theorem pregenerate_snow_count :
    ((List.range 1200).map pregenerateStep).flatten.countP Event.isSnow = 60 := by
  decide

/-- C11, the code at the failing input.  From every simulation state the
pre-generation succeeds and makes exactly 1200 calls of `UpdateBoard`, none of
which renders or submits; step `k` calls `AddSnow` iff
`k / GENERATION_DURATION % SNOW_INTERVAL = 0`, that is in steps 0..14, 300..314,
600..614 and 900..914.  In particular `AddSnow` is called in the consecutive
steps 0 and 1 and is not called in step 20; the total number of calls is 60. -/
theorem C11_pregeneration_snow (s : Sim) :
    ∃ s1 steps, pregenerate s = some (s1, steps) ∧ steps.length = 1200 ∧
      (∀ (k : Nat) (evs : List Event), steps[k]? = some evs →
        (evs = [Event.AddSnow] ∨ evs = []) ∧
        (Event.AddSnow ∈ evs ↔ (k / GENERATION_DURATION) % SNOW_INTERVAL = 0)) ∧
      steps[0]? = some [Event.AddSnow] ∧ steps[1]? = some [Event.AddSnow] ∧
      steps[20]? = some [] ∧
      steps.flatten.countP Event.isSnow = 60 := by
  obtain ⟨s1, h1⟩ := pregenerate_eq s
  refine ⟨s1, _, h1, by simp, ?_, ?_, ?_, ?_, pregenerate_snow_count⟩
  · intro k evs hk
    rw [List.getElem?_map] at hk
    by_cases hlt : k < 1200
    · rw [List.getElem?_range hlt] at hk
      simp only [Option.map_some', Option.some.injEq] at hk
      subst hk
      refine ⟨?_, pregenerateStep_snow k⟩
      unfold pregenerateStep
      split_ifs
      · exact Or.inl rfl
      · exact Or.inr rfl
    · rw [List.getElem?_eq_none (by simpa using hlt)] at hk
      simp at hk
  · rw [List.getElem?_map, List.getElem?_range (by decide)]
    rfl
  · rw [List.getElem?_map, List.getElem?_range (by decide)]
    rfl
  · rw [List.getElem?_map, List.getElem?_range (by decide)]
    rfl

/-! ## The L-tromino scenario -/

theorem lifeStep_trominoBoard : lifeStep trominoBoard = blockBoard := by
  apply Board.ext_cells
  decide

/-- C12 (L-tromino scenario, on the 4 x 4 torus).  If the source board is all
dead except the cells `(1,1)`, `(1,2)`, `(2,1)`, then one call of `NewGeneration`
into a distinct target buffer succeeds and leaves the target with exactly the
four cells `(1,1)`, `(1,2)`, `(2,1)`, `(2,2)` alive and all other cells dead. -/
theorem C12_tromino_scenario (h : Heap 4 4) (target source : Ptr) (hne : target ≠ source)
    (hsrc : ∀ (r c : Fin 4), (h source).cells r c =
      if (r.val = 1 ∧ c.val = 1) ∨ (r.val = 1 ∧ c.val = 2) ∨ (r.val = 2 ∧ c.val = 1)
        then 1 else 0) :
    ∃ h', NewGeneration h target source = some h' ∧
      ∀ (r c : Fin 4), (h' target).cells r c =
        if (r.val = 1 ∨ r.val = 2) ∧ (c.val = 1 ∨ c.val = 2) then 1 else 0 := by
  have hs : h source = trominoBoard := Board.ext_cells _ _ hsrc
  refine ⟨_, NewGeneration_eq h target source hne, ?_⟩
  intro r c
  rw [Function.update_same, hs, lifeStep_trominoBoard]
  rfl

/-- Witness for C12: the L-tromino at address 0 as source, address 1 as target. -/
theorem C12_tromino_scenario_witness :
    ((1 : Ptr) ≠ 0 ∧
      ∀ (r c : Fin 4), (trominoHeap 0).cells r c =
        if (r.val = 1 ∧ c.val = 1) ∨ (r.val = 1 ∧ c.val = 2) ∨ (r.val = 2 ∧ c.val = 1)
          then 1 else 0) ∧
    ∃ h', NewGeneration trominoHeap 1 0 = some h' ∧
      ∀ (r c : Fin 4), (h' 1).cells r c =
        if (r.val = 1 ∨ r.val = 2) ∧ (c.val = 1 ∨ c.val = 2) then 1 else 0 :=
  have hne : (1 : Ptr) ≠ 0 := by decide
  have hsrc : ∀ (r c : Fin 4), (trominoHeap 0).cells r c =
      if (r.val = 1 ∧ c.val = 1) ∨ (r.val = 1 ∧ c.val = 2) ∨ (r.val = 2 ∧ c.val = 1)
        then 1 else 0 := fun _ _ => rfl
  ⟨⟨hne, hsrc⟩, C12_tromino_scenario trominoHeap 1 0 hne hsrc⟩

/-! ## Array bounds -/

theorem Board.get?_isSome_iff {W H : Nat} (b : Board W H) (y x : Int) :
    (b.get? y x).isSome = true ↔ (0 ≤ y ∧ y < H) ∧ (0 ≤ x ∧ x < W) := by
  unfold Board.get?
  by_cases h : (0 ≤ y ∧ y < H) ∧ (0 ≤ x ∧ x < W)
  · rw [dif_pos h]
    exact ⟨fun _ => h, fun _ => rfl⟩
  · rw [dif_neg h]
    exact ⟨fun hf => (by cases hf), fun hr => absurd hr h⟩

theorem Board.set?_isSome_iff {W H : Nat} (b : Board W H) (y x : Int) (v : Int) :
    (b.set? y x v).isSome = true ↔ (0 ≤ y ∧ y < H) ∧ (0 ≤ x ∧ x < W) := by
  unfold Board.set?
  by_cases h : (0 ≤ y ∧ y < H) ∧ (0 ≤ x ∧ x < W)
  · rw [if_pos h]
    exact ⟨fun _ => h, fun _ => rfl⟩
  · rw [if_neg h]
    exact ⟨fun hf => (by cases hf), fun hr => absurd hr h⟩

theorem isSome_of_eq_some {α : Type} {o : Option α} {a : α} (h : o = some a) :
    o.isSome = true := by
  rw [h]
  rfl

/-- C13 (no out-of-bounds cell access).  Indexing `cells` is partial: a read or a
write succeeds exactly when the row index is in `[0, BOARD_HEIGHT)` and the
column index in `[0, BOARD_WIDTH)`, and an operation succeeds only if every
access it makes does.  One application of `WrapCoordinates` brings every
coordinate pair at most one step outside the board into range; and
`GetNeighbourInfo` (for in-range `x`, `y`), `NewGeneration`, `InvertCell` (for
every centre on the board and offsets in `{-1,0,1}`), `AddSnow`, and `Render`
(whose pixel rows `y < FRAME_HEIGHT` map to cell rows `y / CELL_SIZE <
BOARD_HEIGHT`) all succeed: they are total and never index outside `cells`. -/
theorem C13_no_out_of_bounds :
    (∀ (b : Board BOARD_WIDTH BOARD_HEIGHT) (y x v : Int),
      ((b.get? y x).isSome = true ↔ (0 ≤ y ∧ y < BOARD_HEIGHT) ∧ (0 ≤ x ∧ x < BOARD_WIDTH)) ∧
      ((b.set? y x v).isSome = true ↔
        (0 ≤ y ∧ y < BOARD_HEIGHT) ∧ (0 ≤ x ∧ x < BOARD_WIDTH))) ∧
    (∀ x y : Int, -1 ≤ x → x ≤ BOARD_WIDTH → -1 ≤ y → y ≤ BOARD_HEIGHT →
      (0 ≤ (WrapCoordinates BOARD_WIDTH BOARD_HEIGHT x y).1 ∧
        (WrapCoordinates BOARD_WIDTH BOARD_HEIGHT x y).1 < BOARD_WIDTH) ∧
      (0 ≤ (WrapCoordinates BOARD_WIDTH BOARD_HEIGHT x y).2 ∧
        (WrapCoordinates BOARD_WIDTH BOARD_HEIGHT x y).2 < BOARD_HEIGHT)) ∧
    (∀ (b : Board BOARD_WIDTH BOARD_HEIGHT) (x y : Int),
      0 ≤ x → x < BOARD_WIDTH → 0 ≤ y → y < BOARD_HEIGHT →
      (GetNeighbourInfo b x y).isSome = true) ∧
    (∀ (h : Heap BOARD_WIDTH BOARD_HEIGHT) (self oldBoard : Ptr),
      (NewGeneration h self oldBoard).isSome = true) ∧
    (∀ (b : Board BOARD_WIDTH BOARD_HEIGHT) (sx sy dx dy : Int),
      0 ≤ sx → sx < BOARD_WIDTH → 0 ≤ sy → sy < BOARD_HEIGHT →
      (dx = -1 ∨ dx = 0 ∨ dx = 1) → (dy = -1 ∨ dy = 0 ∨ dy = 1) →
      (InvertCell b (sx + dx) (sy + dy)).isSome = true) ∧
    (∀ (b : Board BOARD_WIDTH BOARD_HEIGHT) (mt : Mt), (AddSnow b mt).isSome = true) ∧
    (∀ y : Nat, y < FRAME_HEIGHT → y / CELL_SIZE < BOARD_HEIGHT) ∧
    (∀ (b : Board BOARD_WIDTH BOARD_HEIGHT) (p : Luma),
      (Render FRAME_HEIGHT CELL_SIZE b p).isSome = true) := by
  refine ⟨?_, ?_, ?_, ?_, ?_, ?_, frame_rows, ?_⟩
  · intro b y x v
    exact ⟨Board.get?_isSome_iff b y x, Board.set?_isSome_iff b y x v⟩
  · intro x y hx1 hx2 hy1 hy2
    obtain ⟨he, hx, hy, _⟩ := WrapCoordinates_closure BOARD_WIDTH BOARD_HEIGHT
      BOARD_WIDTH_pos BOARD_HEIGHT_pos x y ⟨hx1, hx2⟩ ⟨hy1, hy2⟩
    rw [he]
    exact ⟨hx, hy⟩
  · intro b x y hx1 hx2 hy1 hy2
    exact isSome_of_eq_some (GetNeighbourInfo_eq b x y ⟨hx1, hx2⟩ ⟨hy1, hy2⟩)
  · intro h self oldBoard
    obtain ⟨h', hh⟩ := NewGeneration_total h self oldBoard
    exact isSome_of_eq_some hh
  · intro b sx sy dx dy hx1 hx2 hy1 hy2 hdx hdy
    exact isSome_of_eq_some (InvertCell_eq b (sx + dx) (sy + dy)
      (by constructor <;> omega) (by constructor <;> omega) BOARD_WIDTH_pos BOARD_HEIGHT_pos)
  · intro b mt
    obtain ⟨b', mt', hh, _⟩ := AddSnow_local BOARD_WIDTH_pos BOARD_HEIGHT_pos b mt
    exact isSome_of_eq_some hh
  · intro b p
    exact isSome_of_eq_some (Render_eq_image b p)

/-! ## `InvertCell` flips one cell -/

theorem Board.cellAt_put {W H : Nat} (b : Board W H) (y x : Int) (v : Int)
    (hy : 0 ≤ y ∧ y < H) (hx : 0 ≤ x ∧ x < W) :
    (b.put y.toNat x.toNat v).cellAt y x = v := by
  unfold Board.cellAt
  rw [Board.get?_inRange _ y x hy hx]
  simp [Board.put]

theorem InvertCell_flip {W H : Nat} (hW : 0 < W) (hH : 0 < H) (b : Board W H) (x y : Int)
    (hx : -1 ≤ x ∧ x ≤ W) (hy : -1 ≤ y ∧ y ≤ H) :
    ∃ b', InvertCell b x y = some b' ∧
      b'.cellAt (y % (H : Int)) (x % (W : Int)) = 1 - b.cellAt (y % (H : Int)) (x % (W : Int)) ∧
      (∀ r c, ¬ ((r.val : Int) = y % (H : Int) ∧ (c.val : Int) = x % (W : Int)) →
        b'.cells r c = b.cells r c) ∧
      InvertCell b' x y = some b := by
  have rx := emod_range W hW x
  have ry := emod_range H hH y
  have hb' := InvertCell_eq b x y hx hy hW hH
  refine ⟨_, hb', Board.cellAt_put b _ _ _ ry rx, ?_, ?_⟩
  · intro r c hrc
    simp only [Board.put]
    rw [if_neg]
    intro h
    apply hrc
    constructor
    · rw [h.1]; exact Int.toNat_of_nonneg ry.1
    · rw [h.2]; exact Int.toNat_of_nonneg rx.1
  · rw [InvertCell_eq _ x y hx hy hW hH, Board.cellAt_put b _ _ _ ry rx]
    congr 1
    apply Board.ext_cells
    intro r c
    simp only [Board.put]
    by_cases h : r.val = (y % (H : Int)).toNat ∧ c.val = (x % (W : Int)).toNat
    · rw [if_pos h]
      have e : b.cellAt (y % (H : Int)) (x % (W : Int)) = b.cells r c := by
        unfold Board.cellAt
        rw [Board.get?_inRange b _ _ ry rx]
        show b.cells _ _ = b.cells r c
        congr 1
        · exact Fin.ext h.1.symm
        · exact Fin.ext h.2.symm
      rw [e]
      ring
    · rw [if_neg h, if_neg h]

/-- C16 (`Board::InvertCell` flips exactly one cell).  For every board whose
cells are 0 or 1 and every `(x, y)` with `-1 ≤ x ≤ BOARD_WIDTH` and
`-1 ≤ y ≤ BOARD_HEIGHT`, `InvertCell(x, y)` succeeds, changes the cell at
`(x mod BOARD_WIDTH, y mod BOARD_HEIGHT)` from 0 to 1 or from 1 to 0, leaves
every other cell unchanged, and a second `InvertCell(x, y)` restores the
original board. -/
theorem C16_invert_cell (b : Board BOARD_WIDTH BOARD_HEIGHT)
    (hbin : ∀ r c, b.cells r c = 0 ∨ b.cells r c = 1) (x y : Int)
    (hx : -1 ≤ x ∧ x ≤ BOARD_WIDTH) (hy : -1 ≤ y ∧ y ≤ BOARD_HEIGHT) :
    ∃ b', InvertCell b x y = some b' ∧
      ((b.get? (y % (BOARD_HEIGHT : Int)) (x % (BOARD_WIDTH : Int)) = some 0 ∧
          b'.get? (y % (BOARD_HEIGHT : Int)) (x % (BOARD_WIDTH : Int)) = some 1) ∨
        (b.get? (y % (BOARD_HEIGHT : Int)) (x % (BOARD_WIDTH : Int)) = some 1 ∧
          b'.get? (y % (BOARD_HEIGHT : Int)) (x % (BOARD_WIDTH : Int)) = some 0)) ∧
      (∀ r c, ¬ ((r.val : Int) = y % (BOARD_HEIGHT : Int) ∧
          (c.val : Int) = x % (BOARD_WIDTH : Int)) → b'.cells r c = b.cells r c) ∧
      InvertCell b' x y = some b := by
  have rx := emod_range BOARD_WIDTH BOARD_WIDTH_pos x
  have ry := emod_range BOARD_HEIGHT BOARD_HEIGHT_pos y
  obtain ⟨b', h1, h2, h3, h4⟩ := InvertCell_flip BOARD_WIDTH_pos BOARD_HEIGHT_pos b x y hx hy
  refine ⟨b', h1, ?_, h3, h4⟩
  rw [Board.get?_cellAt b _ _ ry rx, Board.get?_cellAt b' _ _ ry rx, h2]
  rcases Board.cellAt_binary b hbin _ _ ry rx with h | h
  · exact Or.inl ⟨by rw [h], by rw [h]; rfl⟩
  · exact Or.inr ⟨by rw [h], by rw [h]; rfl⟩

/-- Witness for C16: inverting the cell `(-1, BOARD_HEIGHT)`, that is the cell
`(159, 0)`, of the diagonal board. -/
theorem C16_invert_cell_witness :
    ((∀ (r : Fin BOARD_HEIGHT) (c : Fin BOARD_WIDTH),
        (diagonalBoard BOARD_WIDTH BOARD_HEIGHT).cells r c = 0 ∨
          (diagonalBoard BOARD_WIDTH BOARD_HEIGHT).cells r c = 1) ∧
      ((-1 : Int) ≤ -1 ∧ (-1 : Int) ≤ BOARD_WIDTH) ∧
      ((-1 : Int) ≤ BOARD_HEIGHT ∧ ((BOARD_HEIGHT : Nat) : Int) ≤ BOARD_HEIGHT)) ∧
    ∃ b', InvertCell (diagonalBoard BOARD_WIDTH BOARD_HEIGHT) (-1) BOARD_HEIGHT = some b' ∧
      InvertCell b' (-1) BOARD_HEIGHT = some (diagonalBoard BOARD_WIDTH BOARD_HEIGHT) := by
  have hbin : ∀ (r : Fin BOARD_HEIGHT) (c : Fin BOARD_WIDTH),
      (diagonalBoard BOARD_WIDTH BOARD_HEIGHT).cells r c = 0 ∨
        (diagonalBoard BOARD_WIDTH BOARD_HEIGHT).cells r c = 1 := diagonalHeap_binary 0
  have hx : (-1 : Int) ≤ -1 ∧ (-1 : Int) ≤ BOARD_WIDTH := by decide
  have hy : (-1 : Int) ≤ BOARD_HEIGHT ∧ ((BOARD_HEIGHT : Nat) : Int) ≤ BOARD_HEIGHT := by decide
  obtain ⟨b', h1, _, _, h4⟩ :=
    C16_invert_cell (diagonalBoard BOARD_WIDTH BOARD_HEIGHT) hbin (-1) BOARD_HEIGHT hx hy
  exact ⟨⟨hbin, hx, hy⟩, b', h1, h4⟩

/-! ## The binary cell invariant -/

theorem foldlM_preserves {α β : Type} (P : β → Prop) (f : β → α → Option β) (l : List α)
    (hstep : ∀ a, a ∈ l → ∀ b b', P b → f b a = some b' → P b') :
    ∀ b b', P b → l.foldlM f b = some b' → P b' := by
  induction l with
  | nil =>
    intro b b' hb h
    simp only [List.foldlM_nil] at h
    cases h
    exact hb
  | cons a l ih =>
    intro b b' hb h
    rw [List.foldlM_cons] at h
    rcases h1 : f b a with _ | b1
    · rw [h1] at h
      cases h
    · rw [h1] at h
      exact ih (fun a' ha' => hstep a' (List.mem_cons_of_mem a ha')) b1 b'
        (hstep a (List.mem_cons_self a l) b b1 hb h1) h

theorem Board.isBinary_put {W H : Nat} (b : Board W H) (hb : b.isBinary) (y x : Nat) (v : Int)
    (hv : v = 0 ∨ v = 1) : (b.put y x v).isBinary := by
  intro r c
  simp only [Board.put]
  split_ifs
  · exact hv
  · exact hb r c

theorem ruleValue_binary (n c : Int) : ruleValue n c = 0 ∨ ruleValue n c = 1 := by
  unfold ruleValue boolToInt
  split_ifs <;> simp

theorem lifeStep_isBinary {W H : Nat} (src : Board W H) : (lifeStep src).isBinary := by
  intro r c
  exact ruleValue_binary _ _

/-- The constructor writes a value of `{0, 1}` into the cell. -/
theorem constructCell_spec {W H : Nat} (y x : Nat) (hy : y < H) (hx : x < W)
    (st : Board W H × Mt) :
    ∃ v mt, (v = 0 ∨ v = 1) ∧ constructCell y x st = some (st.1.put y x v, mt) := by
  have hs : ∀ v : Int, st.1.set? (y : Int) (x : Int) v = some (st.1.put y x v) := by
    intro v
    rw [Board.set?_inRange st.1 y x v (by omega) (by omega)]
    simp
  have hr := uniform_int_distribution_range 0 1 (by decide) st.2
  have hp : PREGENERATE = true := rfl
  refine ⟨(uniform_int_distribution 0 1 st.2).1, (uniform_int_distribution 0 1 st.2).2,
    by omega, ?_⟩
  unfold constructCell
  rw [if_pos hp]
  simp only [hs, Option.bind_eq_bind, Option.some_bind]
  rfl

theorem construct_row {W H : Nat} (y : Nat) (hy : y < H) (l : List Nat)
    (hl : ∀ x, x ∈ l → x < W) (st : Board W H × Mt) :
    ∃ st', l.foldlM (fun st (x : Nat) => constructCell y x st) st = some st' ∧
      ∀ r c, ((r.val = y ∧ c.val ∈ l) → (st'.1.cells r c = 0 ∨ st'.1.cells r c = 1)) ∧
        ((st.1.cells r c = 0 ∨ st.1.cells r c = 1) →
          (st'.1.cells r c = 0 ∨ st'.1.cells r c = 1)) := by
  induction l generalizing st with
  | nil =>
    refine ⟨st, rfl, ?_⟩
    intro r c
    exact ⟨fun h => absurd h.2 (List.not_mem_nil _), fun h => h⟩
  | cons a l ih =>
    obtain ⟨v, mt, hv, h1⟩ := constructCell_spec y a hy (hl a (List.mem_cons_self a l)) st
    obtain ⟨st', h2, hst'⟩ := ih (fun x hx => hl x (List.mem_cons_of_mem a hx))
      (st.1.put y a v, mt)
    refine ⟨st', ?_, ?_⟩
    · rw [List.foldlM_cons, h1]
      exact h2
    · intro r c
      have hput : (r.val = y ∧ c.val = a) → ((st.1.put y a v).cells r c = 0 ∨
          (st.1.put y a v).cells r c = 1) := by
        intro h
        simp only [Board.put]
        rw [if_pos h]
        exact hv
      have hkeep : (st.1.cells r c = 0 ∨ st.1.cells r c = 1) →
          ((st.1.put y a v).cells r c = 0 ∨ (st.1.put y a v).cells r c = 1) := by
        intro h
        simp only [Board.put]
        split_ifs
        · exact hv
        · exact h
      constructor
      · intro h
        rcases List.mem_cons.mp h.2 with ha | hm
        · exact (hst' r c).2 (hput ⟨h.1, ha⟩)
        · exact (hst' r c).1 ⟨h.1, hm⟩
      · intro h
        exact (hst' r c).2 (hkeep h)

theorem construct_rows {W H : Nat} (l : List Nat) (hl : ∀ y, y ∈ l → y < H)
    (st : Board W H × Mt) :
    ∃ st', l.foldlM (fun st (y : Nat) =>
        (List.range W).foldlM (fun st (x : Nat) => constructCell y x st) st) st = some st' ∧
      ∀ r c, (r.val ∈ l → (st'.1.cells r c = 0 ∨ st'.1.cells r c = 1)) ∧
        ((st.1.cells r c = 0 ∨ st.1.cells r c = 1) →
          (st'.1.cells r c = 0 ∨ st'.1.cells r c = 1)) := by
  induction l generalizing st with
  | nil =>
    refine ⟨st, rfl, ?_⟩
    intro r c
    exact ⟨fun h => absurd h (List.not_mem_nil _), fun h => h⟩
  | cons a l ih =>
    obtain ⟨s1, h1, hs1⟩ := construct_row a (hl a (List.mem_cons_self a l)) (List.range W)
      (fun x hx => List.mem_range.mp hx) st
    obtain ⟨st', h2, hst'⟩ := ih (fun y hy => hl y (List.mem_cons_of_mem a hy)) s1
    refine ⟨st', ?_, ?_⟩
    · rw [List.foldlM_cons, h1]
      exact h2
    · intro r c
      constructor
      · intro h
        rcases List.mem_cons.mp h with ha | hm
        · exact (hst' r c).2 ((hs1 r c).1 ⟨ha, List.mem_range.mpr c.isLt⟩)
        · exact (hst' r c).1 hm
      · intro h
        exact (hst' r c).2 ((hs1 r c).2 h)

/-- The constructor always succeeds and leaves 0 or 1 in every cell, whatever the
memory held before. -/
theorem construct_isBinary {W H : Nat} (raw : Board W H) (mt : Mt) :
    ∃ b mt', Board.construct raw mt = some (b, mt') ∧ b.isBinary := by
  obtain ⟨st', h, hst'⟩ := construct_rows (List.range H) (fun y hy => List.mem_range.mp hy)
    (raw, mt)
  exact ⟨st'.1, st'.2, h, fun r c => (hst' r c).1 (List.mem_range.mpr r.isLt)⟩

theorem Board.isBinary_of_set? {W H : Nat} (b b' : Board W H) (y x v : Int)
    (hb : b.isBinary) (hv : v = 0 ∨ v = 1) (h : b.set? y x v = some b') : b'.isBinary := by
  unfold Board.set? at h
  split_ifs at h
  cases h
  exact Board.isBinary_put b hb _ _ v hv

theorem Board.binary_of_get? {W H : Nat} (b : Board W H) (y x v : Int)
    (hb : b.isBinary) (h : b.get? y x = some v) : v = 0 ∨ v = 1 := by
  unfold Board.get? at h
  split_ifs at h
  cases h
  exact hb _ _

theorem InvertCell_isBinary {W H : Nat} (b b' : Board W H) (x y : Int) (hb : b.isBinary)
    (h : InvertCell b x y = some b') : b'.isBinary := by
  unfold InvertCell at h
  simp only [Option.bind_eq_bind] at h
  rcases hg : b.get? (WrapCoordinates W H x y).2 (WrapCoordinates W H x y).1 with _ | v
  · rw [hg] at h
    cases h
  · rw [hg] at h
    have hv := Board.binary_of_get? b _ _ v hb hg
    exact Board.isBinary_of_set? b b' _ _ (1 - v) hb (by omega) h

theorem AddSnowCell_isBinary {W H : Nat} (x y : Int) (st st' : Board W H × Mt)
    (hb : st.1.isBinary) (h : AddSnowCell x y st = some st') : st'.1.isBinary := by
  unfold AddSnowCell at h
  simp only at h
  split_ifs at h
  · simp only [Option.bind_eq_bind] at h
    rcases hi : InvertCell st.1 x y with _ | b1
    · rw [hi] at h
      cases h
    · rw [hi] at h
      cases h
      exact InvertCell_isBinary st.1 b1 x y hb hi
  · cases h
    exact hb

theorem AddSnow_isBinary {W H : Nat} (b b' : Board W H) (mt mt' : Mt) (hb : b.isBinary)
    (h : AddSnow b mt = some (b', mt')) : b'.isBinary := by
  unfold AddSnow at h
  simp only at h
  exact foldlM_preserves (fun st : Board W H × Mt => st.1.isBinary) _ _
    (fun x _ s1 s2 hs1 hx =>
      foldlM_preserves (fun st : Board W H × Mt => st.1.isBinary) _ _
        (fun y _ s3 s4 hs3 hy => AddSnowCell_isBinary x y s3 s4 hs3 hy) s1 s2 hs1 hx)
    _ (b', mt') hb h

/-- `NewGeneration` keeps every board of the heap binary, whether or not the two
buffers are distinct. -/
theorem NewGeneration_isBinary {W H : Nat} (h h' : Heap W H) (self old : Ptr)
    (hb : ∀ p, (h p).isBinary) (hn : NewGeneration h self old = some h') :
    ∀ p, (h' p).isBinary := by
  unfold NewGeneration at hn
  refine foldlM_preserves (fun g : Heap W H => ∀ p, (g p).isBinary) _ _ ?_ h h' hb hn
  intro y hy g1 g2 hg1 hrow
  refine foldlM_preserves (fun g : Heap W H => ∀ p, (g p).isBinary) _ _ ?_ g1 g2 hg1 hrow
  intro x hx g3 g4 hg3 hcell
  rw [NewGenerationCell_eq g3 self old y x (List.mem_range.mp hy) (List.mem_range.mp hx)] at hcell
  cases hcell
  intro p
  by_cases hp : p = self
  · rw [hp, Function.update_same]
    exact Board.isBinary_put _ (hg3 self) y x _ (ruleValue_binary _ _)
  · rw [Function.update_noteq hp]
    exact hg3 p

/-- On a binary board the neighbour sum is the number of alive neighbours and
lies between 0 and 8. -/
theorem GetNeighbourInfo_binary {W H : Nat} (b : Board W H) (hb : b.isBinary) (x y : Int)
    (hx : 0 ≤ x ∧ x < W) (hy : 0 ≤ y ∧ y < H) :
    ∃ n c, GetNeighbourInfo b x y = some (n, c) ∧ 0 ≤ n ∧ n ≤ 8 ∧
      n = (aliveNeighbours b x y : Int) ∧ (c = 0 ∨ c = 1) ∧ b.get? y x = some c := by
  refine ⟨_, _, GetNeighbourInfo_eq b x y hx hy, ?_, ?_, neighbourSum_eq_alive b hb x y hx hy,
    Board.cellAt_binary b hb y x hy hx, Board.get?_cellAt b y x hy hx⟩
  · rw [neighbourSum_eq_alive b hb x y hx hy]
    exact Int.ofNat_nonneg _
  · rw [neighbourSum_eq_alive b hb x y hx hy]
    have h8 : aliveNeighbours b x y ≤ 8 := by
      unfold aliveNeighbours
      exact le_trans (List.countP_le_length _) (by simp [neighbourOffsets])
    exact_mod_cast h8

/-- Closed form of `UpdateBoard` when `board` and `boardNew` are distinct
objects: the new generation is computed into the old `boardNew`, the two
pointers are exchanged, and snow falls on the new `board` when it is due. -/
theorem UpdateBoard_eq (s : Sim) (iteration : Int) (hd : s.board ≠ s.boardNew) :
    (¬ (iteration.tdiv GENERATION_DURATION).tmod SNOW_INTERVAL = 0 →
      UpdateBoard s iteration = some
        (Sim.mk (Function.update s.heap s.boardNew (lifeStep (s.heap s.board))) s.mt
          s.boardNew s.board, [])) ∧
    ((iteration.tdiv GENERATION_DURATION).tmod SNOW_INTERVAL = 0 →
      ∃ b mt, AddSnow (lifeStep (s.heap s.board)) s.mt = some (b, mt) ∧
        UpdateBoard s iteration = some
          (Sim.mk (Function.update s.heap s.boardNew b) mt s.boardNew s.board,
            [Event.AddSnow])) := by
  have hn := NewGeneration_eq s.heap s.boardNew s.board (Ne.symm hd)
  constructor
  · intro hc
    unfold UpdateBoard
    rw [hn]
    simp only [Option.bind_eq_bind, Option.some_bind, hc, if_false]
    rfl
  · intro hc
    obtain ⟨b, mt, hb, _⟩ := AddSnow_local BOARD_WIDTH_pos BOARD_HEIGHT_pos
      (lifeStep (s.heap s.board)) s.mt
    refine ⟨b, mt, hb, ?_⟩
    unfold UpdateBoard
    rw [hn]
    simp only [Option.bind_eq_bind, Option.some_bind, hc, if_true, Function.update_same, hb,
      Function.update_idem]
    rfl

theorem UpdateBoard_isBinary (s s' : Sim) (iteration : Int) (evs : List Event)
    (hs : s.isBinary) (h : UpdateBoard s iteration = some (s', evs)) : s'.isBinary := by
  obtain ⟨hd, hb1, _⟩ := hs
  obtain ⟨hno, hyes⟩ := UpdateBoard_eq s iteration hd
  by_cases hc : (iteration.tdiv GENERATION_DURATION).tmod SNOW_INTERVAL = 0
  · obtain ⟨b, mt, hb, hu⟩ := hyes hc
    rw [hu] at h
    cases h
    refine ⟨Ne.symm hd, ?_, ?_⟩
    · show (Function.update s.heap s.boardNew b s.boardNew).isBinary
      rw [Function.update_same]
      exact AddSnow_isBinary _ b s.mt mt (lifeStep_isBinary _) hb
    · show (Function.update s.heap s.boardNew b s.board).isBinary
      rw [Function.update_noteq hd]
      exact hb1
  · rw [hno hc] at h
    cases h
    refine ⟨Ne.symm hd, ?_, ?_⟩
    · show (Function.update s.heap s.boardNew (lifeStep (s.heap s.board)) s.boardNew).isBinary
      rw [Function.update_same]
      exact lifeStep_isBinary _
    · show (Function.update s.heap s.boardNew (lifeStep (s.heap s.board)) s.board).isBinary
      rw [Function.update_noteq hd]
      exact hb1

theorem runUpdates_isBinary (its : List Int) :
    ∀ s : Sim, s.isBinary → ∃ s', runUpdates s its = some s' ∧ s'.isBinary := by
  induction its with
  | nil =>
    intro s hs
    exact ⟨s, rfl, hs⟩
  | cons it its ih =>
    intro s hs
    obtain ⟨s1, evs, hu, _⟩ := UpdateBoard_spec s it
    obtain ⟨s', h', hs'⟩ := ih s1 (UpdateBoard_isBinary s s1 it evs hs hu)
    refine ⟨s', ?_, hs'⟩
    unfold runUpdates at h' ⊢
    rw [List.foldlM_cons, hu]
    exact h'

theorem allocateBoards_isBinary (raw : Heap BOARD_WIDTH BOARD_HEIGHT) (mt : Mt) (p q : Ptr)
    (hpq : p ≠ q) : ∃ s, allocateBoards raw mt p q = some s ∧ s.isBinary ∧
      s.board = p ∧ s.boardNew = q := by
  obtain ⟨b1, mt1, h1, hb1⟩ := construct_isBinary (raw p) mt
  obtain ⟨b2, mt2, h2, hb2⟩ := construct_isBinary (Function.update raw p b1 q) mt1
  refine ⟨Sim.mk (Function.update (Function.update raw p b1) q b2) mt2 p q, ?_, ⟨hpq, ?_, ?_⟩,
    rfl, rfl⟩
  · unfold allocateBoards
    rw [h1, Option.bind_eq_bind, Option.some_bind]
    dsimp only
    rw [h2, Option.some_bind]
    rfl
  · show (Function.update (Function.update raw p b1) q b2 p).isBinary
    rw [Function.update_noteq hpq, Function.update_same]
    exact hb1
  · show (Function.update (Function.update raw p b1) q b2 q).isBinary
    rw [Function.update_same]
    exact hb2

/-- C18 (binary cell invariant).  Every cell of every `Board` holds 0 or 1:
(1) the constructor succeeds and leaves 0 or 1 in every cell, whatever the
memory held before; (2) `InvertCell` and (3) `AddSnow` keep a binary board
binary; (4) `NewGeneration` keeps a heap of binary boards binary, and on
distinct buffers it makes the target binary and leaves the source unchanged;
(5) the two boards that `main` allocates are binary, and they stay binary after
any sequence of `UpdateBoard` calls; (6) hence, on a binary board and for
in-range `x`, `y`, the neighbour sum returned by `GetNeighbourInfo` lies between
0 and 8, equals the number of alive neighbours, and the centre cell reported is
0 or 1. -/
theorem C18_binary_cells :
    (∀ (raw : Board BOARD_WIDTH BOARD_HEIGHT) (mt : Mt),
      ∃ b mt', Board.construct raw mt = some (b, mt') ∧
        ∀ r c, b.cells r c = 0 ∨ b.cells r c = 1) ∧
    (∀ (b b' : Board BOARD_WIDTH BOARD_HEIGHT) (x y : Int),
      (∀ r c, b.cells r c = 0 ∨ b.cells r c = 1) → InvertCell b x y = some b' →
      ∀ r c, b'.cells r c = 0 ∨ b'.cells r c = 1) ∧
    (∀ (b : Board BOARD_WIDTH BOARD_HEIGHT) (mt : Mt),
      (∀ r c, b.cells r c = 0 ∨ b.cells r c = 1) →
      ∃ b' mt', AddSnow b mt = some (b', mt') ∧ ∀ r c, b'.cells r c = 0 ∨ b'.cells r c = 1) ∧
    (∀ (h : Heap BOARD_WIDTH BOARD_HEIGHT) (self oldBoard : Ptr),
      ((∀ p r c, (h p).cells r c = 0 ∨ (h p).cells r c = 1) →
        ∃ h', NewGeneration h self oldBoard = some h' ∧
          ∀ p r c, (h' p).cells r c = 0 ∨ (h' p).cells r c = 1) ∧
      (self ≠ oldBoard →
        ∃ h', NewGeneration h self oldBoard = some h' ∧ h' oldBoard = h oldBoard ∧
          ∀ r c, (h' self).cells r c = 0 ∨ (h' self).cells r c = 1)) ∧
    (∀ (raw : Heap BOARD_WIDTH BOARD_HEIGHT) (mt : Mt) (p q : Ptr), p ≠ q →
      ∃ s, allocateBoards raw mt p q = some s ∧ s.isBinary ∧
        ∀ its : List Int, ∃ s', runUpdates s its = some s' ∧ s'.isBinary) ∧
    (∀ (b : Board BOARD_WIDTH BOARD_HEIGHT) (x y : Int),
      (∀ r c, b.cells r c = 0 ∨ b.cells r c = 1) →
      0 ≤ x → x < BOARD_WIDTH → 0 ≤ y → y < BOARD_HEIGHT →
      ∃ n c, GetNeighbourInfo b x y = some (n, c) ∧ 0 ≤ n ∧ n ≤ 8 ∧
        n = (aliveNeighbours b x y : Int) ∧ (c = 0 ∨ c = 1) ∧ b.get? y x = some c) := by
  refine ⟨?_, ?_, ?_, ?_, ?_, ?_⟩
  · intro raw mt
    exact construct_isBinary raw mt
  · intro b b' x y hb h
    exact InvertCell_isBinary b b' x y hb h
  · intro b mt hb
    obtain ⟨b', mt', h, _⟩ := AddSnow_local BOARD_WIDTH_pos BOARD_HEIGHT_pos b mt
    exact ⟨b', mt', h, AddSnow_isBinary b b' mt mt' hb h⟩
  · intro h self oldBoard
    constructor
    · intro hb
      obtain ⟨h', hn⟩ := NewGeneration_total h self oldBoard
      exact ⟨h', hn, NewGeneration_isBinary h h' self oldBoard hb hn⟩
    · intro hne
      refine ⟨_, NewGeneration_eq h self oldBoard hne, Function.update_noteq (Ne.symm hne) _ _,
        ?_⟩
      rw [Function.update_same]
      exact lifeStep_isBinary _
  · intro raw mt p q hpq
    obtain ⟨s, hs, hb, _⟩ := allocateBoards_isBinary raw mt p q hpq
    exact ⟨s, hs, hb, fun its => runUpdates_isBinary its s hb⟩
  · intro b x y hb hx1 hx2 hy1 hy2
    exact GetNeighbourInfo_binary b hb x y ⟨hx1, hx2⟩ ⟨hy1, hy2⟩

/-! ## Double buffering -/

/-- On a binary board the successor computed by `NewGeneration` is the successor
under the rule as the specification words it. -/
theorem lifeStep_eq_lifeRule {W H : Nat} (src : Board W H) (hb : src.isBinary) :
    lifeStep src = lifeRule src := by
  apply Board.ext_cells
  intro r c
  obtain ⟨h', hn, hrule⟩ := NewGeneration_rule (fun _ : Ptr => src) 0 1 (by decide) hb
  rw [NewGeneration_eq (fun _ : Ptr => src) 0 1 (by decide)] at hn
  cases hn
  have h := hrule (c.val : Int) (r.val : Int) (by omega) (by omega) (by omega) (by omega)
  rw [Function.update_same, Board.get?_nat, Board.get?_nat] at h
  simp only [Option.some.injEq] at h
  rw [h]
  rfl

/-- Iterating the computed successor on a binary board iterates the rule as the
specification words it. -/
theorem lifeStep_iterate_eq_lifeRule {W H : Nat} (k : Nat) :
    ∀ src : Board W H, src.isBinary → lifeStep^[k] src = lifeRule^[k] src := by
  induction k with
  | zero => intro src _; rfl
  | succ k ih =>
    intro src hb
    rw [Function.iterate_succ_apply, Function.iterate_succ_apply,
      ih _ (lifeStep_isBinary src), lifeStep_eq_lifeRule src hb]

/-- One call of `UpdateBoard` without snow, on distinct buffers. -/
theorem UpdateBoard_swap (s : Sim) (iteration : Int) (hd : s.board ≠ s.boardNew)
    (hsnow : ¬ (iteration.tdiv GENERATION_DURATION).tmod SNOW_INTERVAL = 0) :
    ∃ s', UpdateBoard s iteration = some (s', []) ∧
      s'.board = s.boardNew ∧ s'.boardNew = s.board ∧ s'.board ≠ s'.boardNew ∧
      s'.heap s'.board = lifeStep (s.heap s.board) ∧
      s'.heap s'.boardNew = s.heap s.board ∧
      (∀ p, p ≠ s.boardNew → s'.heap p = s.heap p) ∧ s'.mt = s.mt := by
  refine ⟨_, (UpdateBoard_eq s iteration hd).1 hsnow, rfl, rfl, Ne.symm hd, ?_, ?_, ?_, rfl⟩
  · show Function.update s.heap s.boardNew (lifeStep (s.heap s.board)) s.boardNew = _
    rw [Function.update_same]
  · show Function.update s.heap s.boardNew (lifeStep (s.heap s.board)) s.board = _
    rw [Function.update_noteq hd]
  · intro p hp
    show Function.update s.heap s.boardNew (lifeStep (s.heap s.board)) p = _
    rw [Function.update_noteq hp]

theorem runUpdates_cons (s s1 : Sim) (it : Int) (its : List Int) (evs : List Event)
    (h : UpdateBoard s it = some (s1, evs)) :
    runUpdates s (it :: its) = runUpdates s1 its := by
  unfold runUpdates
  rw [List.foldlM_cons, h]
  rfl

/-- Any number of calls of `UpdateBoard` without snow. -/
theorem runUpdates_iterate (its : List Int)
    (hsnow : ∀ it, it ∈ its → ¬ (it.tdiv GENERATION_DURATION).tmod SNOW_INTERVAL = 0) :
    ∀ s : Sim, s.board ≠ s.boardNew →
      ∃ sk, runUpdates s its = some sk ∧
        sk.heap sk.board = lifeStep^[its.length] (s.heap s.board) ∧
        sk.board ≠ sk.boardNew ∧
        (sk.board = s.board ∧ sk.boardNew = s.boardNew ∨
          sk.board = s.boardNew ∧ sk.boardNew = s.board) ∧
        (∀ p, p ≠ s.board → p ≠ s.boardNew → sk.heap p = s.heap p) ∧ sk.mt = s.mt := by
  induction its with
  | nil =>
    intro s hd
    exact ⟨s, rfl, rfl, hd, Or.inl ⟨rfl, rfl⟩, fun _ _ _ => rfl, rfl⟩
  | cons it its ih =>
    intro s hd
    obtain ⟨s1, hu, h1, h2, h3, h4, _, h6, h7⟩ :=
      UpdateBoard_swap s it hd (hsnow it (List.mem_cons_self it its))
    obtain ⟨sk, hk, hcur, hdk, hptr, hoth, hmt⟩ :=
      ih (fun i hi => hsnow i (List.mem_cons_of_mem it hi)) s1 h3
    refine ⟨sk, by rw [runUpdates_cons s s1 it its [] hu]; exact hk, ?_, hdk, ?_, ?_, ?_⟩
    · rw [hcur, h4, List.length_cons, Function.iterate_succ_apply]
    · rw [h1, h2] at hptr
      rcases hptr with h | h
      · exact Or.inr h
      · exact Or.inl h
    · intro p hp hq
      rw [hoth p (by rw [h1]; exact hq) (by rw [h2]; exact hp), h6 p hq]
    · rw [hmt, h7]

/-- C15 (double buffering in `UpdateBoard`).  When `board` and `boardNew` are
distinct buffers and the snow condition is false for `iteration`, the call
succeeds and logs no snow; afterwards `board` is the old `boardNew` buffer and
holds the successor of the old current board (which, for cells in `{0, 1}`, is the
successor under the rule as the specification words it), `boardNew` is the old
`board` buffer with its cells unchanged, the two handles are still distinct, no
buffer other than the old `boardNew` is written and the random source is not
used. Consequently any list of such calls leaves in `board` the iterate of the
rule, as many times as there are calls, on the initial current board; the two
handles are then the two initial buffers, in the same or the swapped order, and
no third buffer is written. -/
theorem C15_double_buffer (s : Sim) (iteration : Int) (hd : s.board ≠ s.boardNew)
    (hsnow : ¬ (iteration.tdiv GENERATION_DURATION).tmod SNOW_INTERVAL = 0) :
    (∃ s', UpdateBoard s iteration = some (s', []) ∧
      s'.board = s.boardNew ∧ s'.boardNew = s.board ∧ s'.board ≠ s'.boardNew ∧
      s'.heap s'.board = lifeStep (s.heap s.board) ∧
      ((s.heap s.board).isBinary → s'.heap s'.board = lifeRule (s.heap s.board)) ∧
      s'.heap s'.boardNew = s.heap s.board ∧
      (∀ p, p ≠ s.boardNew → s'.heap p = s.heap p) ∧ s'.mt = s.mt) ∧
    (∀ its : List Int,
      (∀ it, it ∈ its → ¬ (it.tdiv GENERATION_DURATION).tmod SNOW_INTERVAL = 0) →
      ∃ sk, runUpdates s its = some sk ∧
        sk.heap sk.board = lifeStep^[its.length] (s.heap s.board) ∧
        ((s.heap s.board).isBinary →
          sk.heap sk.board = lifeRule^[its.length] (s.heap s.board)) ∧
        sk.board ≠ sk.boardNew ∧
        (sk.board = s.board ∧ sk.boardNew = s.boardNew ∨
          sk.board = s.boardNew ∧ sk.boardNew = s.board) ∧
        (∀ p, p ≠ s.board → p ≠ s.boardNew → sk.heap p = s.heap p) ∧ sk.mt = s.mt) := by
  constructor
  · obtain ⟨s1, hu, h1, h2, h3, h4, h5, h6, h7⟩ := UpdateBoard_swap s iteration hd hsnow
    exact ⟨s1, hu, h1, h2, h3, h4,
      fun hb => by rw [h4, lifeStep_eq_lifeRule _ hb], h5, h6, h7⟩
  · intro its hits
    obtain ⟨sk, hk, hcur, hdk, hptr, hoth, hmt⟩ := runUpdates_iterate its hits s hd
    exact ⟨sk, hk, hcur,
      fun hb => by rw [hcur, lifeStep_iterate_eq_lifeRule _ _ hb], hdk, hptr, hoth, hmt⟩

/-- The double-buffering statement applies to the initial boards at iteration 15,
the first iteration without snow. -/
theorem C15_double_buffer_witness :
    initialSim.board ≠ initialSim.boardNew ∧
    ¬ ((15 : Int).tdiv GENERATION_DURATION).tmod SNOW_INTERVAL = 0 ∧
    ((∃ s', UpdateBoard initialSim 15 = some (s', []) ∧
      s'.board = initialSim.boardNew ∧ s'.boardNew = initialSim.board ∧
      s'.board ≠ s'.boardNew ∧
      s'.heap s'.board = lifeStep (initialSim.heap initialSim.board) ∧
      ((initialSim.heap initialSim.board).isBinary →
        s'.heap s'.board = lifeRule (initialSim.heap initialSim.board)) ∧
      s'.heap s'.boardNew = initialSim.heap initialSim.board ∧
      (∀ p, p ≠ initialSim.boardNew → s'.heap p = initialSim.heap p) ∧
      s'.mt = initialSim.mt) ∧
    (∀ its : List Int,
      (∀ it, it ∈ its → ¬ (it.tdiv GENERATION_DURATION).tmod SNOW_INTERVAL = 0) →
      ∃ sk, runUpdates initialSim its = some sk ∧
        sk.heap sk.board = lifeStep^[its.length] (initialSim.heap initialSim.board) ∧
        ((initialSim.heap initialSim.board).isBinary →
          sk.heap sk.board = lifeRule^[its.length] (initialSim.heap initialSim.board)) ∧
        sk.board ≠ sk.boardNew ∧
        (sk.board = initialSim.board ∧ sk.boardNew = initialSim.boardNew ∨
          sk.board = initialSim.boardNew ∧ sk.boardNew = initialSim.board) ∧
        (∀ p, p ≠ initialSim.board → p ≠ initialSim.boardNew →
          sk.heap p = initialSim.heap p) ∧ sk.mt = initialSim.mt)) :=
  ⟨by decide, by decide, C15_double_buffer initialSim 15 (by decide) (by decide)⟩

/-! ## Translation equivariance -/

/-- The board `b.translate a c` is `b` translated by `(a, c)`. -/
theorem Board.translate_isTranslateOf {W H : Nat} (b : Board W H) (a c : Int) :
    (b.translate a c).isTranslateOf b a c := by
  intro y x hy0 hy1 hx0 hx1
  have hW : 0 < W := by omega
  have hH : 0 < H := by omega
  have ry := emod_range H hH (y + c)
  have rx := emod_range W hW (x + a)
  rw [Board.get?_inRange _ _ _ ry rx, Board.get?_cellAt b y x ⟨hy0, hy1⟩ ⟨hx0, hx1⟩]
  show some (b.cellAt _ _) = _
  have ey : (((((y + c) % (H : Int)).toNat : Nat) : Int) - c) % (H : Int) = y := by
    rw [Int.toNat_of_nonneg ry.1, Int.sub_eq_add_neg, Int.emod_add_emod,
      Int.add_neg_cancel_right, Int.emod_eq_of_lt hy0 hy1]
  have ex : (((((x + a) % (W : Int)).toNat : Nat) : Int) - a) % (W : Int) = x := by
    rw [Int.toNat_of_nonneg rx.1, Int.sub_eq_add_neg, Int.emod_add_emod,
      Int.add_neg_cancel_right, Int.emod_eq_of_lt hx0 hx1]
  rw [ey, ex]

/-- Under a translation by `(a, c)`, the cell at `((Y + c) mod H, (X + a) mod W)` of
the translated board is the cell at `(Y mod H, X mod W)` of the original, for all
integers `X`, `Y`. -/
theorem Board.isTranslateOf_cellAt {W H : Nat} (hW : 0 < W) (hH : 0 < H)
    (b' b : Board W H) (a c : Int) (htr : b'.isTranslateOf b a c) (Y X : Int) :
    b'.cellAt ((Y + c) % (H : Int)) ((X + a) % (W : Int)) =
      b.cellAt (Y % (H : Int)) (X % (W : Int)) := by
  have ry := emod_range H hH Y
  have rx := emod_range W hW X
  have h := htr (Y % (H : Int)) (X % (W : Int)) ry.1 ry.2 rx.1 rx.2
  rw [Int.emod_add_emod, Int.emod_add_emod] at h
  unfold Board.cellAt
  rw [h]

theorem Board.isTranslateOf_offset {W H : Nat} (hW : 0 < W) (hH : 0 < H)
    (b' b : Board W H) (a c : Int) (htr : b'.isTranslateOf b a c) (y x dy dx : Int) :
    b'.cellAt (((y + c) % (H : Int) + dy) % (H : Int)) (((x + a) % (W : Int) + dx) % (W : Int)) =
      b.cellAt ((y + dy) % (H : Int)) ((x + dx) % (W : Int)) := by
  rw [Int.emod_add_emod, Int.emod_add_emod, show y + c + dy = (y + dy) + c by ring,
    show x + a + dx = (x + dx) + a by ring]
  exact Board.isTranslateOf_cellAt hW hH b' b a c htr (y + dy) (x + dx)

/-- The neighbour sum at a translated cell of the translated board is the neighbour
sum at the cell of the original board. -/
theorem neighbourSum_translate {W H : Nat} (b' b : Board W H) (a c : Int)
    (htr : b'.isTranslateOf b a c) (x y : Int) (hx : 0 ≤ x ∧ x < W) (hy : 0 ≤ y ∧ y < H) :
    neighbourSum b' ((x + a) % (W : Int)) ((y + c) % (H : Int)) = neighbourSum b x y ∧
    b'.cellAt ((y + c) % (H : Int)) ((x + a) % (W : Int)) = b.cellAt y x := by
  have hW : 0 < W := by omega
  have hH : 0 < H := by omega
  have e := Board.isTranslateOf_offset hW hH b' b a c htr y x
  have hX0 : ((x + a) % (W : Int) + 0) % (W : Int) = (x + a) % (W : Int) := by
    rw [Int.add_zero, Int.emod_emod_of_dvd _ (dvd_refl _)]
  have hY0 : ((y + c) % (H : Int) + 0) % (H : Int) = (y + c) % (H : Int) := by
    rw [Int.add_zero, Int.emod_emod_of_dvd _ (dvd_refl _)]
  have hx0 : (x + 0) % (W : Int) = x := by rw [Int.add_zero, Int.emod_eq_of_lt hx.1 hx.2]
  have hy0 : (y + 0) % (H : Int) = y := by rw [Int.add_zero, Int.emod_eq_of_lt hy.1 hy.2]
  have t1 := e (-1) (-1)
  have t2 := e (-1) 0
  have t3 := e (-1) 1
  have t4 := e 0 (-1)
  have t5 := e 0 1
  have t6 := e 1 (-1)
  have t7 := e 1 0
  have t8 := e 1 1
  have t0 := e 0 0
  rw [hX0, hx0] at t2 t7 t0
  rw [hY0, hy0] at t4 t5 t0
  refine ⟨?_, t0⟩
  unfold neighbourSum
  simp only [Int.sub_eq_add_neg]
  rw [t1, t2, t3, t4, t5, t6, t7, t8]

theorem lifeStep_cellAt {W H : Nat} (b : Board W H) (y x : Int)
    (hy : 0 ≤ y ∧ y < H) (hx : 0 ≤ x ∧ x < W) :
    (lifeStep b).cellAt y x = ruleValue (neighbourSum b x y) (b.cellAt y x) := by
  unfold Board.cellAt
  rw [Board.get?_inRange _ y x hy hx]
  show nextCell b y.toNat x.toNat = _
  unfold nextCell Board.cellAt
  rw [Int.toNat_of_nonneg hy.1, Int.toNat_of_nonneg hx.1]

/-- The successor of a translated board is the translated successor. -/
theorem lifeStep_translate {W H : Nat} (b' b : Board W H) (a c : Int)
    (htr : b'.isTranslateOf b a c) : (lifeStep b').isTranslateOf (lifeStep b) a c := by
  intro y x hy0 hy1 hx0 hx1
  have hW : 0 < W := by omega
  have hH : 0 < H := by omega
  have ry := emod_range H hH (y + c)
  have rx := emod_range W hW (x + a)
  obtain ⟨hs, hc⟩ := neighbourSum_translate b' b a c htr x y ⟨hx0, hx1⟩ ⟨hy0, hy1⟩
  rw [Board.get?_cellAt _ _ _ ry rx, Board.get?_cellAt _ y x ⟨hy0, hy1⟩ ⟨hx0, hx1⟩,
    lifeStep_cellAt b' _ _ ry rx, lifeStep_cellAt b y x ⟨hy0, hy1⟩ ⟨hx0, hx1⟩, hs, hc]

/-- C17 (translation equivariance of `Board::NewGeneration`).  When the source board
of one heap is the source board of another translated toroidally by `(a, c)`,
that is `b'[(y+c) mod H][(x+a) mod W] = b[y][x]` for every cell, and the target
is a buffer other than the source, both calls succeed and the board computed
from the translated source is the board computed from the original source
translated by `(a, c)`. This holds for every width and height and for all cell
values, in particular for cells in `{0, 1}`. -/
theorem C17_translation_equivariance {W H : Nat} (h h' : Heap W H) (self oldBoard : Ptr)
    (a c : Int) (hd : self ≠ oldBoard)
    (htr : ∀ y x : Int, 0 ≤ y → y < H → 0 ≤ x → x < W →
      (h' oldBoard).get? ((y + c) % (H : Int)) ((x + a) % (W : Int)) = (h oldBoard).get? y x) :
    ∃ g g', NewGeneration h self oldBoard = some g ∧
      NewGeneration h' self oldBoard = some g' ∧
      ∀ y x : Int, 0 ≤ y → y < H → 0 ≤ x → x < W →
        (g' self).get? ((y + c) % (H : Int)) ((x + a) % (W : Int)) = (g self).get? y x := by
  refine ⟨_, _, NewGeneration_eq h self oldBoard hd, NewGeneration_eq h' self oldBoard hd, ?_⟩
  rw [Function.update_same, Function.update_same]
  exact lifeStep_translate (h' oldBoard) (h oldBoard) a c htr

/-- The equivariance statement applies to the L-tromino on the 4 x 4 torus moved
by `(3, -2)`, a shift that carries it across both edges. -/
theorem C17_translation_equivariance_witness :
    (1 : Ptr) ≠ 0 ∧
    (∀ y x : Int, 0 ≤ y → y < (4 : Nat) → 0 ≤ x → x < (4 : Nat) →
      ((fun p => (trominoHeap p).translate 3 (-2)) 0).get?
          ((y + (-2)) % ((4 : Nat) : Int)) ((x + 3) % ((4 : Nat) : Int)) =
        (trominoHeap 0).get? y x) ∧
    ∃ g g', NewGeneration trominoHeap 1 0 = some g ∧
      NewGeneration (fun p => (trominoHeap p).translate 3 (-2)) 1 0 = some g' ∧
      ∀ y x : Int, 0 ≤ y → y < (4 : Nat) → 0 ≤ x → x < (4 : Nat) →
        (g' 1).get? ((y + (-2)) % ((4 : Nat) : Int)) ((x + 3) % ((4 : Nat) : Int)) =
          (g 1).get? y x :=
  ⟨by decide, Board.translate_isTranslateOf (trominoHeap 0) 3 (-2),
    C17_translation_equivariance trominoHeap (fun p => (trominoHeap p).translate 3 (-2)) 1 0
      3 (-2) (by decide) (Board.translate_isTranslateOf (trominoHeap 0) 3 (-2))⟩

/-! ## Pacing -/

theorem sleeps_append (a b : List Event) : sleeps (a ++ b) = sleeps a ++ sleeps b := by
  unfold sleeps
  rw [List.filterMap_append]

theorem sleeps_of_isDraw (evs : List Event) (h : ∀ ev, ev ∈ evs → ev.isDraw = true) :
    sleeps evs = [] := by
  unfold sleeps
  rw [List.filterMap_eq_nil_iff]
  intro ev hev
  have := h ev hev
  cases ev <;> simp_all [Event.isDraw, Event.sleep?]

theorem mem_sleeps (evs : List Event) (d : ℚ) : d ∈ sleeps evs ↔ Event.sleep_for d ∈ evs := by
  unfold sleeps
  rw [List.mem_filterMap]
  constructor
  · rintro ⟨ev, hev, hs⟩
    cases ev with
    | sleep_for ms =>
      simp only [Event.sleep?, Option.some.injEq] at hs
      subst hs
      exact hev
    | _ => simp [Event.sleep?] at hs
  · intro h
    exact ⟨_, h, rfl⟩

/-- The sleeps of a turn whose submission is accepted. -/
theorem cycle_sleeps (tps : Nat) (e : CycleEnv) (s : MainState) (i : Int)
    (hmw : ¬ e.av_frame_make_writable < 0) (hw : write_frame e.sink = some true) :
    sleeps (cycle tps e s i).1 = paceSleeps tps s.t1 e.now := by
  obtain ⟨s1, ev1, rest, step, hd, hc, _, _, htrue⟩ := cycle_spec tps e s i hmw
  obtain ⟨s1', ev1', hd', ht, _⟩ := drawFrame_spec s i
  rw [hd] at hd'
  cases hd'
  rw [hc, (htrue hw).1]
  rw [show ∀ (a : List Event) (w : Event) (r q : List Event),
      a ++ w :: (r ++ q) = a ++ [w] ++ r ++ q from fun a w r q => by simp,
    sleeps_append, sleeps_append, sleeps_append,
    sleeps_of_isDraw ev1 (drawFrame_isDraw s s1 i ev1 hd)]
  unfold pace paceSleeps
  simp only [ht]
  split_ifs <;> simp [sleeps, Event.sleep?]

/-- The sleeps of a run of turns that all complete. -/
theorem frameLoop_sleeps (tps : Nat) (es : List CycleEnv) :
    ∀ (s : MainState) (i : Int),
      (∀ e, e ∈ es → e.shouldExit = false ∧ ¬ e.av_frame_make_writable < 0 ∧
        write_frame e.sink = some true) →
      i + (es.length : Int) ≤ INT_MAX →
      (frameLoop tps es s i).1.map sleeps = sleepsFrom tps s.t1 es := by
  induction es with
  | nil =>
    intro s i _ _
    rfl
  | cons e es ih =>
    intro s i hgood hN
    obtain ⟨hx, hmw, hw⟩ := hgood e (List.mem_cons_self e es)
    have hlen : (((e :: es).length : Nat) : Int) = (es.length : Int) + 1 := by
      simp
    rw [hlen] at hN
    obtain ⟨s3, hst, ht3⟩ := cycle_good tps e s i hmw hw (by omega)
    rw [frameLoop_next tps e es s i hx s3 (i + 1) hst]
    show sleeps (cycle tps e s i).1 :: (frameLoop tps es s3 (i + 1)).1.map sleeps = _
    rw [cycle_sleeps tps e s i hmw hw,
      ih s3 (i + 1) (fun e' he' => hgood e' (List.mem_cons_of_mem e he')) (by omega), ht3]
    rfl

theorem sleepsFrom_length (tps : Nat) (es : List CycleEnv) :
    ∀ t1 : Int, (sleepsFrom tps t1 es).length = es.length := by
  induction es with
  | nil => intro _; rfl
  | cons e es ih =>
    intro t1
    show (sleepsFrom tps _ es).length + 1 = es.length + 1
    rw [ih]

theorem sleepsFrom_getElem? (tps : Nat) (es : List CycleEnv) :
    ∀ (t1 : Int) (k : Nat), (sleepsFrom tps t1 es)[k]? =
      (es[k]?).map (fun e => paceSleeps tps (t1 + (k : Int) * duration_cast tps frameDuration) e.now) := by
  induction es with
  | nil => intro _ _; rfl
  | cons e es ih =>
    intro t1 k
    cases k with
    | zero =>
      simp [sleepsFrom]
    | succ k =>
      simp only [sleepsFrom, List.getElem?_cons_succ]
      rw [ih]
      have e1 : t1 + duration_cast tps frameDuration + (k : Int) * duration_cast tps frameDuration
          = t1 + ((k + 1 : Nat) : Int) * duration_cast tps frameDuration := by
        push_cast
        ring
      rw [e1]

/-- A turn that does not reach line 343 does not sleep. -/
theorem cycle_sleeps_none (tps : Nat) (e : CycleEnv) (s : MainState) (i : Int)
    (h : ¬ (¬ e.av_frame_make_writable < 0 ∧ write_frame e.sink = some true)) :
    sleeps (cycle tps e s i).1 = [] := by
  by_cases hmw : e.av_frame_make_writable < 0
  · rw [cycle_fail tps e s i hmw]
    rfl
  · obtain ⟨s1, ev1, rest, step, hd, hc, hnone, hfalse, _⟩ := cycle_spec tps e s i hmw
    have hdraw := sleeps_of_isDraw ev1 (drawFrame_isDraw s s1 i ev1 hd)
    have hrest : rest = [] := by
      rcases hw : write_frame e.sink with _ | _ | _
      · exact (hnone hw).1
      · exact (hfalse hw).1
      · exact absurd ⟨hmw, hw⟩ h
    rw [hc, hrest]
    show sleeps (ev1 ++ [Event.write_frame i s1.plane (write_frame e.sink)]) = []
    rw [sleeps_append, hdraw]
    rfl

/-- A turn after which the loop goes on has reached line 343 and has advanced the
deadline by the fixed step. -/
theorem cycle_next_good (tps : Nat) (e : CycleEnv) (s : MainState) (i : Int)
    (s1 : MainState) (i1 : Int) (h : (cycle tps e s i).2 = Step.next s1 i1) :
    (¬ e.av_frame_make_writable < 0 ∧ write_frame e.sink = some true) ∧
      s1.t1 = s.t1 + duration_cast tps frameDuration := by
  by_cases hmw : e.av_frame_make_writable < 0
  · rw [cycle_fail tps e s i hmw] at h
    cases h
  · obtain ⟨s2, ev1, rest, step, hd, hc, hnone, hfalse, htrue⟩ := cycle_spec tps e s i hmw
    obtain ⟨s2', ev1', hd', ht, _⟩ := drawFrame_spec s i
    rw [hd] at hd'
    cases hd'
    rw [hc] at h
    simp only at h
    rcases hw : write_frame e.sink with _ | _ | _
    · rw [(hnone hw).2] at h
      cases h
    · rw [(hfalse hw).2] at h
      cases h
    · rcases (htrue hw).2 with ⟨_, hs⟩ | ⟨_, hs⟩
      · rw [hs] at h
        cases h
      · rw [hs] at h
        cases h
        exact ⟨⟨hmw, rfl⟩, by show s2.t1 + _ = _; rw [ht]⟩

/-- The sleeps of turn `j` of a run: those of the pacing step with the deadline
advanced `j` times, when the turn reaches it, and none otherwise. -/
theorem frameLoop_turn_sleeps (tps : Nat) (es : List CycleEnv) :
    ∀ (s : MainState) (i : Int) (j : Nat) (evs : List Event) (e : CycleEnv),
      (frameLoop tps es s i).1[j]? = some evs → es[j]? = some e →
      ((¬ e.av_frame_make_writable < 0 ∧ write_frame e.sink = some true) →
        sleeps evs = paceSleeps tps (s.t1 + (j : Int) * duration_cast tps frameDuration) e.now) ∧
      (¬ (¬ e.av_frame_make_writable < 0 ∧ write_frame e.sink = some true) →
        sleeps evs = []) := by
  induction es with
  | nil =>
    intro s i j evs e h _
    simp [frameLoop_nil] at h
  | cons e0 es ih =>
    intro s i j evs e h he
    have hfirst : ∀ evs0, evs0 = (cycle tps e0 s i).1 →
        ((¬ e0.av_frame_make_writable < 0 ∧ write_frame e0.sink = some true) →
          sleeps evs0 = paceSleeps tps (s.t1 + ((0 : Nat) : Int) * duration_cast tps frameDuration)
            e0.now) ∧
        (¬ (¬ e0.av_frame_make_writable < 0 ∧ write_frame e0.sink = some true) →
          sleeps evs0 = []) := by
      intro evs0 h0
      subst h0
      refine ⟨fun hg => ?_, fun hn => cycle_sleeps_none tps e0 s i hn⟩
      rw [cycle_sleeps tps e0 s i hg.1 hg.2]
      simp
    by_cases hx : e0.shouldExit = true
    · rw [frameLoop_exit tps e0 es s i hx] at h
      simp at h
    · have hx' : e0.shouldExit = false := by simpa using hx
      rcases hst : (cycle tps e0 s i).2 with ⟨s1, i1⟩ | o
      · rw [frameLoop_next tps e0 es s i hx' s1 i1 hst] at h
        cases j with
        | zero =>
          simp only [List.getElem?_cons_zero, Option.some.injEq] at h he
          subst he
          exact hfirst evs h.symm
        | succ j =>
          simp only [List.getElem?_cons_succ] at h he
          obtain ⟨_, ht1⟩ := cycle_next_good tps e0 s i s1 i1 hst
          have hij : s1.t1 + (j : Int) * duration_cast tps frameDuration
              = s.t1 + ((j + 1 : Nat) : Int) * duration_cast tps frameDuration := by
            rw [ht1]
            push_cast
            ring
          rw [← hij]
          exact ih s1 i1 j evs e h he
      · rw [frameLoop_stop tps e0 es s i hx' o hst] at h
        cases j with
        | zero =>
          simp only [List.getElem?_cons_zero, Option.some.injEq] at h he
          subst he
          exact hfirst evs h.symm
        | succ j =>
          simp at h

theorem frameDuration_pos : 0 < frameDuration := by
  unfold frameDuration FPS
  norm_num

/-- A turn that reads the clock exactly at its deadline sleeps for one frame
period. -/
theorem paceSleeps_on_time (tps : Nat) (t1 : Int) :
    paceSleeps tps t1 t1 = [frameDuration] := by
  unfold paceSleeps
  have h0 : ticksToMilli tps (t1 - t1) = 0 := by
    unfold ticksToMilli
    rw [Int.sub_self]
    simp
  rw [h0, if_pos frameDuration_pos, sub_zero]

theorem replicate_singleton_ticks (tps : Nat) (k : Nat) (d : ℚ) :
    (((List.replicate k [d]).flatten.map (duration_cast tps)).sum : Int)
      = (k : Int) * duration_cast tps d := by
  induction k with
  | zero => simp
  | succ k ih =>
    rw [List.replicate_succ, List.flatten_cons, List.map_append, List.sum_append, ih]
    push_cast
    simp
    ring

theorem replicate_singleton_sum (k : Nat) (d : ℚ) :
    (List.replicate k [d]).flatten.sum = (k : ℚ) * d := by
  induction k with
  | zero => simp
  | succ k ih =>
    rw [List.replicate_succ, List.flatten_cons, List.sum_append, ih]
    push_cast
    simp
    ring

/-- With zero processing time and exact sleeps, each of the first `k` turns sleeps
once, for one frame period. -/
theorem sleepsFrom_exact (tps : Nat) (es : List CycleEnv) (t1 : Int)
    (hex : exactSleeps tps t1 (es.map CycleEnv.now) (sleepsFrom tps t1 es)) :
    ∀ k : Nat, k ≤ es.length →
      (sleepsFrom tps t1 es).take k = List.replicate k [frameDuration] := by
  intro k
  induction k with
  | zero =>
    intro _
    rfl
  | succ k ih =>
    intro hk
    have hlt : k < es.length := by omega
    have ihk := ih (by omega)
    have hr := hex k (by rw [List.length_map]; exact hlt)
    rw [ihk, replicate_singleton_ticks, List.getElem?_map, List.getElem?_eq_getElem hlt,
      Option.map_some', Option.some.injEq] at hr
    have hs := sleepsFrom_getElem? tps es t1 k
    rw [List.getElem?_eq_getElem hlt, Option.map_some', hr, paceSleeps_on_time] at hs
    rw [List.take_succ, hs, ihk, List.replicate_succ']
    rfl

/-- With zero processing time and exact sleeps, every reading is taken exactly at
the deadline of its turn. -/
theorem exactSleeps_on_time (tps : Nat) (es : List CycleEnv) (t1 : Int)
    (hex : exactSleeps tps t1 (es.map CycleEnv.now) (sleepsFrom tps t1 es))
    (j : Nat) (e : CycleEnv) (he : es[j]? = some e) :
    e.now = t1 + (j : Int) * duration_cast tps frameDuration := by
  have hlt : j < es.length := by
    by_contra hn
    rw [List.getElem?_eq_none (by omega)] at he
    cases he
  have hr := hex j (by rw [List.length_map]; exact hlt)
  rw [sleepsFrom_exact tps es t1 hex j (by omega), replicate_singleton_ticks,
    List.getElem?_map, he, Option.map_some', Option.some.injEq] at hr
  exact hr

theorem paceSleeps_length (tps : Nat) (t1 now : Int) : (paceSleeps tps t1 now).length ≤ 1 := by
  unfold paceSleeps
  split_ifs <;> simp

theorem mem_paceSleeps (tps : Nat) (t1 now : Int) (d : ℚ) :
    d ∈ paceSleeps tps t1 now ↔
      ticksToMilli tps (now - t1) < frameDuration ∧
        d = frameDuration - ticksToMilli tps (now - t1) := by
  unfold paceSleeps
  split_ifs with h
  · simp [h]
  · simp [h]

/-- C14 (pacing sleep rule).  For every clock and every run, whatever the clock
readings: in a turn `j` that reaches the pacing step (the frame was submitted),
with `elapsed` the reading `t2` minus the deadline, which is the initial `t1` plus
`j` fixed steps whether or not the earlier turns slept, `sleep_for` is called
iff `elapsed` is less than the frame period of `1000/FPS` ms, and then once, for
the frame period minus `elapsed`; otherwise the turn does not sleep; a turn that
does not reach the pacing step does not sleep.  After `N ≤ INT_MAX` turns that
all complete the deadline has advanced by exactly `N` fixed steps, one per turn
(the step is the frame period in clock ticks, as `duration_cast` gives it).
Consequently, with zero processing time and exact sleeps, every reading is
taken exactly at the deadline of its turn, every turn sleeps once for one frame
period, and the sum of the sleeps of the `N` turns is `N` frame periods. -/
theorem C14_pacing_sleep (tps : Nat) (es : List CycleEnv) (s : MainState) :
    (∀ (j : Nat) (evs : List Event) (e : CycleEnv),
      (mainFromFrameLoop tps es s).cycles[j]? = some evs → es[j]? = some e →
        ((¬ e.av_frame_make_writable < 0 ∧ write_frame e.sink = some true) →
          (∀ d : ℚ, Event.sleep_for d ∈ evs ↔
            ticksToMilli tps (e.now - (s.t1 + (j : Int) * duration_cast tps frameDuration))
                < frameDuration ∧
              d = frameDuration -
                ticksToMilli tps
                  (e.now - (s.t1 + (j : Int) * duration_cast tps frameDuration))) ∧
          (sleeps evs).length ≤ 1 ∧
          (¬ ticksToMilli tps (e.now - (s.t1 + (j : Int) * duration_cast tps frameDuration))
              < frameDuration → sleeps evs = [])) ∧
        (¬ (¬ e.av_frame_make_writable < 0 ∧ write_frame e.sink = some true) →
          ∀ d : ℚ, Event.sleep_for d ∉ evs)) ∧
    ((∀ e, e ∈ es → e.shouldExit = false ∧ ¬ e.av_frame_make_writable < 0 ∧
        write_frame e.sink = some true) →
      (es.length : Int) ≤ INT_MAX →
      (∃ s', (mainFromFrameLoop tps es s).outcome = Outcome.running s' (es.length : Int) ∧
        (mainFromFrameLoop tps es s).cycles.length = es.length ∧
        s'.t1 = s.t1 + (es.length : Int) * duration_cast tps frameDuration) ∧
      (exactSleeps tps s.t1 (es.map CycleEnv.now)
          ((mainFromFrameLoop tps es s).cycles.map sleeps) →
        (∀ (j : Nat) (e : CycleEnv), es[j]? = some e →
          e.now = s.t1 + (j : Int) * duration_cast tps frameDuration) ∧
        (∀ (j : Nat) (evs : List Event), (mainFromFrameLoop tps es s).cycles[j]? = some evs →
          sleeps evs = [frameDuration] ∧
            ∀ d : ℚ, Event.sleep_for d ∈ evs ↔ d = frameDuration) ∧
        ((mainFromFrameLoop tps es s).cycles.map sleeps).flatten.sum
          = (es.length : ℚ) * frameDuration)) := by
  rw [main_cycles, main_outcome]
  refine ⟨?_, ?_⟩
  · intro j evs e hj he
    obtain ⟨hyes, hno⟩ := frameLoop_turn_sleeps tps es s 0 j evs e hj he
    refine ⟨fun hg => ?_, fun hn d hd => ?_⟩
    · have h1 := hyes hg
      refine ⟨fun d => ?_, ?_, fun hlate => ?_⟩
      · rw [← mem_sleeps, h1]
        exact mem_paceSleeps tps _ _ d
      · rw [h1]
        exact paceSleeps_length tps _ _
      · rw [h1]
        unfold paceSleeps
        rw [if_neg hlate]
    · have h1 := hno hn
      rw [← mem_sleeps, h1] at hd
      cases hd
  · intro hgood hN
    have hs := frameLoop_sleeps tps es s 0 hgood (by omega)
    refine ⟨?_, ?_⟩
    · obtain ⟨s', ho, hl, ht⟩ := frameLoop_deadline tps es s 0 hgood (by omega)
      exact ⟨s', by rw [ho, Int.zero_add], hl, ht⟩
    · rw [hs]
      intro hex
      have hall := sleepsFrom_exact tps es s.t1 hex es.length (Nat.le_refl _)
      rw [← sleepsFrom_length tps es s.t1, List.take_length, sleepsFrom_length] at hall
      refine ⟨fun j e he => exactSleeps_on_time tps es s.t1 hex j e he, ?_, ?_⟩
      · intro j evs hj
        have h1 : ((frameLoop tps es s 0).1.map sleeps)[j]? = some (sleeps evs) := by
          rw [List.getElem?_map, hj]
          rfl
        rw [hs, hall] at h1
        have h2 : sleeps evs = [frameDuration] := by
          have hmem : sleeps evs ∈ List.replicate es.length [frameDuration] :=
            List.mem_iff_getElem?.mpr ⟨j, h1⟩
          exact List.eq_of_mem_replicate hmem
        refine ⟨h2, fun d => ?_⟩
        rw [← mem_sleeps, h2, List.mem_singleton]
      · rw [hall, replicate_singleton_sum]

theorem exactSleepEnvs_good : ∀ e, e ∈ exactSleepEnvs →
    e.shouldExit = false ∧ ¬ e.av_frame_make_writable < 0 ∧ write_frame e.sink = some true := by
  intro e he
  simp only [exactSleepEnvs, List.mem_cons, List.mem_singleton, List.not_mem_nil, or_false] at he
  rcases he with rfl | rfl | rfl | rfl
  · exact ⟨rfl, by decide, write_frame_goodEnv _⟩
  · exact ⟨rfl, by decide, write_frame_goodEnv _⟩
  · exact ⟨rfl, by decide, write_frame_goodEnv _⟩
  · exact ⟨rfl, by decide, write_frame_goodEnv _⟩

/-- The sleeps of the four turns of `exactSleepEnvs`: one frame period each. -/
theorem exactSleepEnvs_sleeps :
    sleepsFrom 1000000000 0 exactSleepEnvs =
      [[frameDuration], [frameDuration], [frameDuration], [frameDuration]] := by
  simp only [exactSleepEnvs, sleepsFrom, frameStep_nanoseconds, goodEnv]
  unfold paceSleeps ticksToMilli frameDuration FPS
  norm_num

/-- The readings of `exactSleepEnvs` are those of a run with zero processing time
and exact sleeps on a nanosecond clock. -/
theorem exactSleepEnvs_exact :
    exactSleeps 1000000000 initialState.t1 (exactSleepEnvs.map CycleEnv.now)
      ((mainFromFrameLoop 1000000000 exactSleepEnvs initialState).cycles.map sleeps) := by
  have hs := frameLoop_sleeps 1000000000 exactSleepEnvs initialState 0 exactSleepEnvs_good
    (by decide)
  have ht : initialState.t1 = 0 := rfl
  rw [ht, exactSleepEnvs_sleeps] at hs
  rw [main_cycles, hs, ht]
  intro k hk
  have hk4 : k < 4 := hk
  interval_cases k
  · simp [exactSleepEnvs, goodEnv]
  · simp [exactSleepEnvs, goodEnv, frameStep_nanoseconds]
  · simp [exactSleepEnvs, goodEnv, frameStep_nanoseconds]
  · simp [exactSleepEnvs, goodEnv, frameStep_nanoseconds]

/-- Witness for C14: four turns on a nanosecond clock with zero processing time
and exact sleeps (readings 0, 33333333, 66666666 and 99999999 ns); every turn
sleeps once for one frame period, and the four sleeps add up to four frame
periods. -/
theorem C14_pacing_sleep_witness :
    (∀ e, e ∈ exactSleepEnvs → e.shouldExit = false ∧ ¬ e.av_frame_make_writable < 0 ∧
      write_frame e.sink = some true) ∧
    ((exactSleepEnvs.length : Nat) : Int) ≤ INT_MAX ∧
    exactSleeps 1000000000 initialState.t1 (exactSleepEnvs.map CycleEnv.now)
      ((mainFromFrameLoop 1000000000 exactSleepEnvs initialState).cycles.map sleeps) ∧
    (∃ s', (mainFromFrameLoop 1000000000 exactSleepEnvs initialState).outcome
        = Outcome.running s' (exactSleepEnvs.length : Int) ∧
      (mainFromFrameLoop 1000000000 exactSleepEnvs initialState).cycles.length
        = exactSleepEnvs.length ∧
      s'.t1 = initialState.t1
        + (exactSleepEnvs.length : Int) * duration_cast 1000000000 frameDuration) ∧
    (∀ (j : Nat) (e : CycleEnv), exactSleepEnvs[j]? = some e →
      e.now = initialState.t1 + (j : Int) * duration_cast 1000000000 frameDuration) ∧
    (∀ (j : Nat) (evs : List Event),
      (mainFromFrameLoop 1000000000 exactSleepEnvs initialState).cycles[j]? = some evs →
        sleeps evs = [frameDuration] ∧ ∀ d : ℚ, Event.sleep_for d ∈ evs ↔ d = frameDuration) ∧
    ((mainFromFrameLoop 1000000000 exactSleepEnvs initialState).cycles.map sleeps).flatten.sum
      = (exactSleepEnvs.length : ℚ) * frameDuration :=
  have hN : ((exactSleepEnvs.length : Nat) : Int) ≤ INT_MAX := by decide
  have h := (C14_pacing_sleep 1000000000 exactSleepEnvs initialState).2 exactSleepEnvs_good hN
  ⟨exactSleepEnvs_good, hN, exactSleepEnvs_exact, h.1, h.2 exactSleepEnvs_exact⟩

end ConwayLifeStream
